import Mathlib

/-!
# The CBOR encoder of Duktape (extras/cbor/duk_cbor.c)

A shallow embedding of `duk_cbor.c` and of the two call sites in `test.c` and
`jsoncbor.c`.

* The host is a parameter: the width of `duk_size_t` and the byte order in
  which a `double` is laid out in memory.
* A `double` is its IEEE-754 binary64 bit fields; `floor`, the comparisons, the
  subtraction and the cast to `duk_uint32_t` are defined on the bit fields.
* The Duktape value stack is a list of slots, bottom first.  The output buffer
  is the dynamic buffer sitting in slot `idx_buf`, exactly as in the C code.
* Every function returns in `Except DukError`: the two errors the file throws,
  an error thrown by the Duktape API, C undefined behaviour (a store outside
  the buffer, an out-of-range cast) and exhaustion of the loop fuel.

Memory is unbounded: `duk_require_stack`, `duk_push_dynamic_buffer` and
`duk_resize_buffer` never fail for lack of memory.
-/

set_option autoImplicit false
set_option exponentiation.threshold 4096

namespace DukCbor

/-! ## Host -/

/-- The parameters of the C implementation that `duk_cbor.c` depends on. -/
structure Host where
  /-- Width in bits of `duk_size_t`. -/
  size_bits : Nat
  /-- C guarantees `SIZE_MAX >= 65535`. -/
  size_bits_ge : 16 ≤ size_bits
  /-- Whether the most significant byte of a `double` has the lowest address. -/
  big_endian : Bool

/-- The number of values of `duk_size_t`, `SIZE_MAX + 1`. -/
def Host.size_mod (h : Host) : Nat := 2 ^ h.size_bits

/-- A little-endian host with a 64-bit `duk_size_t`. -/
def host64 : Host := ⟨64, by decide, false⟩

/-- A little-endian host with a 32-bit `duk_size_t`. -/
def host32 : Host := ⟨32, by decide, false⟩

/-- A big-endian host with a 64-bit `duk_size_t`. -/
def host64be : Host := ⟨64, by decide, true⟩

/-! ## Results -/

/-- The ways in which a call does not return normally. -/
inductive DukError where
  /-- `duk_range_error(ctx, "too large")`. -/
  | range_too_large
  /-- `duk_type_error(ctx, "invalid type")`. -/
  | type_invalid_type
  /-- `duk_type_error(ctx, "unimplemented")`. -/
  | type_unimplemented
  /-- An error thrown by a Duktape API call on an argument it rejects. -/
  | api_error
  /-- Undefined behaviour of the C program. -/
  | undefined_behaviour
  /-- The loop fuel of the model ran out. -/
  | out_of_fuel
deriving DecidableEq, Repr

/-- Result of a call. -/
abbrev Res (α : Type) : Type := Except DukError α

/-! ## IEEE-754 binary64 -/

/-- A `double`, given by the three fields of its bit pattern. -/
structure Double where
  /-- Bit 63. -/
  sign : Bool
  /-- Bits 62..52, the biased exponent. -/
  expo : Fin 2048
  /-- Bits 51..0, the fraction. -/
  frac : Fin 4503599627370496
deriving DecidableEq, Repr

namespace Double

/-- The 64-bit pattern of a double. -/
def bits (d : Double) : Nat :=
  (if d.sign then 2 ^ 63 else 0) + d.expo.val * 2 ^ 52 + d.frac.val

/-- The double with a given 64-bit pattern. -/
def ofBits (b : Nat) : Double :=
  ⟨decide (b / 2 ^ 63 % 2 = 1), ⟨b / 2 ^ 52 % 2048, Nat.mod_lt _ (by decide)⟩,
    ⟨b % 4503599627370496, Nat.mod_lt _ (by decide)⟩⟩

/-- Every finite double is an integer multiple of `2^-1074`; this is `2^1074`,
the number of such units in `1.0`. -/
def one_units : Nat := 2 ^ 1074

/-- The magnitude of a double in units of `2^-1074`.  For an infinity this is
`2^2098`, above every finite magnitude; it is not meaningful for NaN. -/
def mag (d : Double) : Nat :=
  (if d.expo.val = 0 then d.frac.val else 2 ^ 52 + d.frac.val) * 2 ^ (d.expo.val - 1)

/-- The signed value of a double in units of `2^-1074`. -/
def scaled (d : Double) : Int := if d.sign then -(d.mag : Int) else (d.mag : Int)

/-- NaN test. -/
def isnan (d : Double) : Bool := decide (d.expo.val = 2047) && decide (d.frac.val ≠ 0)

/-- The C macro `isfinite`. -/
def isfinite (d : Double) : Bool := decide (d.expo.val ≠ 2047)

/-- The C macro `signbit`: non-zero exactly when the sign bit is set. -/
def signbit (d : Double) : Nat := if d.sign then 1 else 0

/-- The C operator `==` on doubles. -/
def eq (a b : Double) : Bool := !a.isnan && !b.isnan && decide (a.scaled = b.scaled)

/-- The C operator `!=` on doubles. -/
def ne (a b : Double) : Bool := !(eq a b)

/-- The C operator `<=` on doubles. -/
def le (a b : Double) : Bool := !a.isnan && !b.isnan && decide (a.scaled ≤ b.scaled)

/-- The C operator `>=` on doubles. -/
def ge (a b : Double) : Bool := le b a

/-- Round-to-nearest, ties-to-even: the double of sign `s` nearest to the exact
magnitude `n` (in units of `2^-1074`), or an infinity on overflow. -/
def ofMag (s : Bool) (n : Nat) : Double :=
  if n < 2 ^ 53 then
    ⟨s, ⟨n / 2 ^ 52 % 2048, Nat.mod_lt _ (by decide)⟩,
      ⟨n % 4503599627370496, Nat.mod_lt _ (by decide)⟩⟩
  else
    let k := Nat.log2 n - 52
    let q := n / 2 ^ k
    let r := n % 2 ^ k
    let q1 := if 2 ^ k < 2 * r ∨ (2 * r = 2 ^ k ∧ q % 2 = 1) then q + 1 else q
    let k1 := if q1 = 2 ^ 53 then k + 1 else k
    let q2 := if q1 = 2 ^ 53 then 2 ^ 52 else q1
    if 2047 ≤ k1 + 1 then ⟨s, ⟨2047, by decide⟩, ⟨0, by decide⟩⟩
    else ⟨s, ⟨(k1 + 1) % 2048, Nat.mod_lt _ (by decide)⟩,
      ⟨(q2 - 2 ^ 52) % 4503599627370496, Nat.mod_lt _ (by decide)⟩⟩

/-- The C library function `floor`. -/
def floor (d : Double) : Double :=
  if d.expo.val = 2047 then d
  else if d.mag % one_units = 0 then d
  else if d.sign then ofMag true ((d.mag / one_units + 1) * one_units)
  else ofMag false (d.mag / one_units * one_units)

/-- The default quiet NaN. -/
def nan : Double := ⟨false, ⟨2047, by decide⟩, ⟨2251799813685248, by decide⟩⟩

/-- The C operator `-` on doubles (round-to-nearest). -/
def sub (a b : Double) : Double :=
  if a.isnan then a
  else if b.isnan then b
  else if a.expo.val = 2047 then
    (if b.expo.val = 2047 ∧ a.sign = b.sign then nan else a)
  else if b.expo.val = 2047 then ⟨!b.sign, ⟨2047, by decide⟩, ⟨0, by decide⟩⟩
  else
    let z := a.scaled - b.scaled
    if z = 0 then ⟨a.sign && !b.sign, ⟨0, by decide⟩, ⟨0, by decide⟩⟩
    else ofMag (decide (z < 0)) z.natAbs

/-- The C cast `(duk_uint32_t) d`: the fractional part is discarded; the cast
is undefined (`none`) when the integral part is not a `duk_uint32_t`. -/
def to_uint32 (d : Double) : Option Nat :=
  if d.expo.val = 2047 then none
  else if d.sign && decide (d.mag / one_units ≠ 0) then none
  else if d.mag / one_units < 2 ^ 32 then some (d.mag / one_units)
  else none

/-- The literal `0.0`. -/
def zero : Double := ofBits 0x0000000000000000

/-- The literal `4294967295.0`. -/
def c4294967295 : Double := ofBits 0x41EFFFFFFFE00000

/-- The value `-4294967296.0`. -/
def cm4294967296 : Double := ofBits 0xC1F0000000000000

/-- The value `-1.0`. -/
def cm1 : Double := ofBits 0xBFF0000000000000

/-- Byte `i` of the bit pattern, byte 0 being the least significant. -/
def byte (d : Double) (i : Nat) : Nat := d.bits / 2 ^ (8 * i) % 256

/-- The member `x` of `union { duk_uint8_t x[8]; double d; }` after `u.d = d`:
the eight bytes of the double in increasing address order. -/
def union_x (h : Host) (d : Double) : List Nat :=
  if h.big_endian then (List.range 8).map (fun i => d.byte (7 - i))
  else (List.range 8).map (fun i => d.byte i)

end Double

/-! ## Values and the value stack -/

/-- A Duktape value, by the type tag `duk_get_type` reports for it.  An object
is an array, a buffer object, or any other object with its own enumerable
properties in enumeration order. -/
inductive Value where
  /-- `DUK_TYPE_UNDEFINED`. -/
  | undefined
  /-- `DUK_TYPE_NULL`. -/
  | null
  /-- `DUK_TYPE_BOOLEAN`. -/
  | boolean (b : Bool)
  /-- `DUK_TYPE_NUMBER`. -/
  | number (d : Double)
  /-- `DUK_TYPE_STRING`, with the bytes `duk_require_lstring` returns. -/
  | string (bytes : List Nat)
  /-- `DUK_TYPE_OBJECT` for which `duk_is_array` holds. -/
  | array (elems : List Value)
  /-- `DUK_TYPE_OBJECT` for which `duk_is_buffer_data` holds. -/
  | bufobj (bytes : List Nat)
  /-- Any other `DUK_TYPE_OBJECT`. -/
  | object (props : List (Value × Value))
  /-- `DUK_TYPE_BUFFER`, a plain buffer. -/
  | buffer (bytes : List Nat)
  /-- `DUK_TYPE_POINTER`. -/
  | pointer (p : Nat)
  /-- `DUK_TYPE_LIGHTFUNC`. -/
  | lightfunc (f : Nat)
  /-- `DUK_TYPE_NONE` or any type tag outside the list above. -/
  | unknown (tag : Nat)

/-- A slot of the value stack: a value, or the enumerator object `duk_enum`
pushes, with the entries it has not yet produced. -/
inductive Slot where
  | val (v : Value)
  | enum (pending : List (Value × Value))

/-- The value stack, bottom first: index `0` is the bottom, index `-1` the last
element. -/
abbrev ValStack : Type := List Slot

/-- The C struct `duk_cbor_encode_context`; `ctx` is the value stack of the
Duktape context it points to. -/
structure duk_cbor_encode_context where
  ctx : ValStack
  idx_buf : Nat
  len : Nat
  off : Nat

/-! ## The Duktape API calls used by the encoder -/

/-- Modelled from the spec: `duk_get_top`, the number of slots of the value
stack (declared in duktape.h, not part of these sources). -/
def duk_get_top (ctx : ValStack) : Nat := ctx.length

/-- Modelled from the spec: `duk_require_normalize_index`, which turns a
possibly negative index into an absolute one and throws on an invalid index. -/
def duk_require_normalize_index (ctx : ValStack) (idx : Int) : Res Nat :=
  if 0 ≤ idx then
    (if idx.toNat < ctx.length then .ok idx.toNat else .error .api_error)
  else
    (if (-idx).toNat ≤ ctx.length then .ok (ctx.length - (-idx).toNat)
     else .error .api_error)

/-- Modelled from the spec: `duk_push_dynamic_buffer`, pushing a zero-filled
buffer of the given size (the Buffer Manager of section 4.1 starts from it). -/
def duk_push_dynamic_buffer (ctx : ValStack) (size : Nat) : ValStack :=
  ctx ++ [.val (.buffer (List.replicate size 0))]

/-- Modelled from the spec: `duk_resize_buffer`, which keeps the first bytes of
the buffer ("previously written bytes are preserved") and zero-fills new ones. -/
def duk_resize_buffer (ctx : ValStack) (idx : Nat) (newlen : Nat) : Res ValStack :=
  match ctx.get? idx with
  | some (.val (.buffer data)) =>
    .ok (ctx.set idx (.val (.buffer (data.take newlen ++ List.replicate (newlen - data.length) 0))))
  | _ => .error .api_error

/-- Modelled from the spec: `duk_require_buffer`, the data of the plain buffer
in a slot; throws when the slot holds no plain buffer. -/
def duk_require_buffer (ctx : ValStack) (idx : Nat) : Res (List Nat) :=
  match ctx.get? idx with
  | some (.val (.buffer data)) => .ok data
  | _ => .error .api_error

/-- Modelled from the spec: `duk_require_buffer_data`, as `duk_require_buffer`
but accepting a buffer object too. -/
def duk_require_buffer_data (ctx : ValStack) (idx : Nat) : Res (List Nat) :=
  match ctx.get? idx with
  | some (.val (.buffer data)) => .ok data
  | some (.val (.bufobj data)) => .ok data
  | _ => .error .api_error

/-- Modelled from the spec: `duk_dup`, pushing a copy of a slot. -/
def duk_dup (ctx : ValStack) (idx : Nat) : Res ValStack :=
  match ctx.get? idx with
  | some s => .ok (ctx ++ [s])
  | none => .error .api_error

/-- Modelled from the spec: `duk_pop`, removing the top slot. -/
def duk_pop (ctx : ValStack) : Res ValStack :=
  match ctx.getLast? with
  | some _ => .ok ctx.dropLast
  | none => .error .api_error

/-- Modelled from the spec: `duk_replace`, which pops the top slot and stores
it at an absolute index. -/
def duk_replace (ctx : ValStack) (idx : Nat) : Res ValStack :=
  match ctx.getLast? with
  | some s => if idx < ctx.length then .ok ((ctx.set idx s).dropLast) else .error .api_error
  | none => .error .api_error

/-- Modelled from the spec: `duk_get_prop_index(ctx, -1, i)` on an array whose
element `i` is `x`: the element is pushed. -/
def duk_get_prop_index (ctx : ValStack) (x : Value) : ValStack := ctx ++ [.val x]

/-- Modelled from the spec: `duk_enum(ctx, -1, DUK_ENUM_OWN_PROPERTIES_ONLY)`
on an object with own enumerable properties `props`: an enumerator over them
is pushed. -/
def duk_enum (ctx : ValStack) (props : List (Value × Value)) : ValStack :=
  ctx ++ [.enum props]

/-- Modelled from the spec: `duk_next(ctx, -1, 1)` returning 1: the enumerator
on top advances to `rest` and the next key and its value are pushed. -/
def duk_next_some (ctx : ValStack) (k v : Value) (rest : List (Value × Value)) :
    Res ValStack :=
  match ctx.getLast? with
  | some (.enum _) => .ok (ctx.dropLast ++ [.enum rest, .val k, .val v])
  | _ => .error .api_error

/-- Modelled from the spec: `duk_insert(ctx, -2)`, moving the top slot below
the one under it. -/
def duk_insert_m2 (ctx : ValStack) : Res ValStack :=
  match ctx.getLast?, ctx.dropLast.getLast? with
  | some a, some b => .ok (ctx.dropLast.dropLast ++ [a, b])
  | _, _ => .error .api_error

/-! ## duk_cbor.c -/

/-- The loop of `duk__cbor_encode_reserve` (lines 27-37); `fuel` bounds the
number of iterations.  The arithmetic is that of `duk_size_t`; the diagnostic
line written to stderr is left out. -/
def duk__cbor_encode_reserve_loop (h : Host) (len : Nat) :
    Nat → duk_cbor_encode_context → Res duk_cbor_encode_context
  | fuel, enc_ctx =>
    if enc_ctx.len < (enc_ctx.off + len) % h.size_mod then
      match fuel with
      | 0 => .error .out_of_fuel
      | fuel + 1 =>
        let newlen := enc_ctx.len * 2 % h.size_mod
        if newlen < enc_ctx.len then .error .range_too_large
        else
          duk_resize_buffer enc_ctx.ctx enc_ctx.idx_buf newlen >>= fun ctx =>
          duk__cbor_encode_reserve_loop h len fuel { enc_ctx with ctx := ctx, len := newlen }
    else .ok enc_ctx

/-- The function `duk__cbor_encode_reserve` (lines 22-41).  The returned
pointer is the offset of the region inside the buffer of slot `idx_buf`. -/
def duk__cbor_encode_reserve (h : Host) (fuel : Nat) (enc_ctx : duk_cbor_encode_context)
    (len : Nat) : Res (Nat × duk_cbor_encode_context) := do
  let enc_ctx ← duk__cbor_encode_reserve_loop h len fuel enc_ctx
  let _ ← duk_require_buffer enc_ctx.ctx enc_ctx.idx_buf
  .ok (enc_ctx.off, { enc_ctx with off := (enc_ctx.off + len) % h.size_mod })

/-- The stores `*p++ = b` for the bytes of `bytes` in order, and `memcpy(p,
bytes, len)`: they go to the buffer of slot `idx_buf` from offset `p` on, and a
store outside the buffer is undefined behaviour. -/
def store (enc_ctx : duk_cbor_encode_context) (p : Nat) (bytes : List Nat) :
    Res duk_cbor_encode_context :=
  match enc_ctx.ctx.get? enc_ctx.idx_buf with
  | some (.val (.buffer data)) =>
    if p + bytes.length ≤ data.length then
      .ok { enc_ctx with
        ctx := enc_ctx.ctx.set enc_ctx.idx_buf
          (.val (.buffer (data.take p ++ bytes ++ data.drop (p + bytes.length)))) }
    else .error .undefined_behaviour
  | _ => .error .undefined_behaviour

/-- The statement pattern `p = duk__cbor_encode_reserve(enc_ctx, n);` followed
by the `n` stores of `bytes` through `p`, which is how every caller in the
file uses the reserved region. -/
def reserve_store (h : Host) (fuel : Nat) (enc_ctx : duk_cbor_encode_context)
    (bytes : List Nat) : Res duk_cbor_encode_context :=
  duk__cbor_encode_reserve h fuel enc_ctx bytes.length >>= fun r => store r.2 r.1 bytes

/-- The function `duk__cbor_encode_emitbyte` (lines 43-48). -/
def duk__cbor_encode_emitbyte (h : Host) (fuel : Nat) (enc_ctx : duk_cbor_encode_context)
    (val : Nat) : Res duk_cbor_encode_context :=
  reserve_store h fuel enc_ctx [val % 256]

/-- The function `duk__cbor_encode_uint32` (lines 50-72). -/
def duk__cbor_encode_uint32 (h : Host) (fuel : Nat) (enc_ctx : duk_cbor_encode_context)
    (u : Nat) (base : Nat) : Res duk_cbor_encode_context :=
  if u ≤ 23 then
    duk__cbor_encode_emitbyte h fuel enc_ctx (base + u % 256)
  else if u ≤ 0xff then
    reserve_store h fuel enc_ctx [(base + 0x18) % 256, u % 256]
  else if u ≤ 0xffff then
    reserve_store h fuel enc_ctx
      [(base + 0x19) % 256, ((u >>> 8) &&& 0xff) % 256, (u &&& 0xff) % 256]
  else
    reserve_store h fuel enc_ctx
      [(base + 0x1a) % 256, ((u >>> 24) &&& 0xff) % 256, ((u >>> 16) &&& 0xff) % 256,
        ((u >>> 8) &&& 0xff) % 256, (u &&& 0xff) % 256]

/-- Lines 99-120 of `duk__cbor_encode_double`: the float item, with the bytes
of the union taken from index 7 down to index 0. -/
def duk__cbor_encode_double_float (h : Host) (fuel : Nat)
    (enc_ctx : duk_cbor_encode_context) (d : Double) : Res duk_cbor_encode_context :=
  let x := Double.union_x h d
  reserve_store h fuel enc_ctx [0xfb, x.getD 7 0, x.getD 6 0, x.getD 5 0, x.getD 4 0,
    x.getD 3 0, x.getD 2 0, x.getD 1 0, x.getD 0 0]

/-- The call `duk__cbor_encode_uint32(enc_ctx, (duk_uint32_t) x, base)` for a
double expression `x`. -/
def duk__cbor_encode_uint32_cast (h : Host) (fuel : Nat)
    (enc_ctx : duk_cbor_encode_context) (x : Double) (base : Nat) :
    Res duk_cbor_encode_context :=
  match x.to_uint32 with
  | none => .error .undefined_behaviour
  | some u => duk__cbor_encode_uint32 h fuel enc_ctx u base

/-- The function `duk__cbor_encode_double` (lines 74-121). -/
def duk__cbor_encode_double (h : Host) (fuel : Nat) (enc_ctx : duk_cbor_encode_context)
    (d : Double) : Res duk_cbor_encode_context :=
  if d.isfinite then
    let t := Double.floor d
    if Double.eq t d && (Double.ne d Double.zero || decide (d.signbit = 0)) then
      if Double.ge d Double.zero then
        if Double.le d Double.c4294967295 then
          duk__cbor_encode_uint32_cast h fuel enc_ctx d 0x00
        else duk__cbor_encode_double_float h fuel enc_ctx d
      else
        if Double.ge d Double.cm4294967296 then
          duk__cbor_encode_uint32_cast h fuel enc_ctx (Double.sub Double.cm1 d) 0x20
        else duk__cbor_encode_double_float h fuel enc_ctx d
    else duk__cbor_encode_double_float h fuel enc_ctx d
  else duk__cbor_encode_double_float h fuel enc_ctx d

/-- The call `duk_pop(enc_ctx->ctx)`. -/
def pop (enc_ctx : duk_cbor_encode_context) : Res duk_cbor_encode_context :=
  duk_pop enc_ctx.ctx >>= fun ctx => .ok { enc_ctx with ctx := ctx }

/-- Lines 155-161, 179-185 and 199-205 of `duk__cbor_encode_value`: the length
check, the length head with the given base, and the `memcpy` of the bytes. -/
def encode_bytes (h : Host) (fuel : Nat) (enc_ctx : duk_cbor_encode_context)
    (bytes : List Nat) (base : Nat) : Res duk_cbor_encode_context :=
  let len := bytes.length
  if len ≠ len % 2 ^ 32 then .error .type_invalid_type
  else
    duk__cbor_encode_uint32 h fuel enc_ctx (len % 2 ^ 32) base >>= fun enc_ctx =>
    reserve_store h fuel enc_ctx bytes

mutual

/-- The function `duk__cbor_encode_value` (lines 123-226) for a value stack
whose top slot holds the value given as argument.  The call
`duk_require_stack(ctx, 4)` of line 135 always succeeds, the value stack being
unbounded. -/
def encode_value_at (h : Host) (fuel : Nat) :
    Value → duk_cbor_encode_context → Res duk_cbor_encode_context
  | .undefined, enc_ctx =>
    duk__cbor_encode_emitbyte h fuel enc_ctx 0xf7 >>= pop
  | .null, enc_ctx =>
    duk__cbor_encode_emitbyte h fuel enc_ctx 0xf6 >>= pop
  | .boolean b, enc_ctx =>
    duk__cbor_encode_emitbyte h fuel enc_ctx (if b then 0xf5 else 0xf4) >>= pop
  | .number d, enc_ctx =>
    duk__cbor_encode_double h fuel enc_ctx d >>= pop
  | .string bytes, enc_ctx =>
    encode_bytes h fuel enc_ctx bytes 0x60 >>= pop
  | .array elems, enc_ctx =>
    let len := elems.length
    if len ≠ len % 2 ^ 32 then .error .type_invalid_type
    else
      duk__cbor_encode_uint32 h fuel enc_ctx (len % 2 ^ 32) 0x80 >>= fun enc_ctx =>
      encode_array_loop h fuel elems enc_ctx >>= pop
  | .bufobj bytes, enc_ctx =>
    encode_bytes h fuel enc_ctx bytes 0x40 >>= pop
  | .object props, enc_ctx =>
    duk__cbor_encode_emitbyte h fuel enc_ctx (0xa0 + 0x1f) >>= fun enc_ctx =>
    encode_map_loop h fuel props { enc_ctx with ctx := duk_enum enc_ctx.ctx props }
      >>= fun enc_ctx =>
    pop enc_ctx >>= fun enc_ctx =>
    duk__cbor_encode_emitbyte h fuel enc_ctx 0xff >>= pop
  | .buffer bytes, enc_ctx =>
    encode_bytes h fuel enc_ctx bytes 0x40 >>= pop
  | .pointer _, enc_ctx =>
    duk__cbor_encode_emitbyte h fuel enc_ctx 0xf7 >>= pop
  | .lightfunc _, enc_ctx =>
    duk__cbor_encode_emitbyte h fuel enc_ctx (0xa0 + 0) >>= pop
  | .unknown _, _ => .error .type_invalid_type

/-- The loop of lines 172-175 over the remaining elements: each is pushed by
`duk_get_prop_index` and handed to `duk__cbor_encode_value`. -/
def encode_array_loop (h : Host) (fuel : Nat) :
    List Value → duk_cbor_encode_context → Res duk_cbor_encode_context
  | [], enc_ctx => .ok enc_ctx
  | x :: rest, enc_ctx =>
    encode_value_at h fuel x { enc_ctx with ctx := duk_get_prop_index enc_ctx.ctx x }
      >>= fun enc_ctx =>
    encode_array_loop h fuel rest enc_ctx

/-- The loop of lines 189-193 over the entries the enumerator still holds. -/
def encode_map_loop (h : Host) (fuel : Nat) :
    List (Value × Value) → duk_cbor_encode_context → Res duk_cbor_encode_context
  | [], enc_ctx => .ok enc_ctx
  | (k, v) :: rest, enc_ctx =>
    duk_next_some enc_ctx.ctx k v rest >>= fun ctx =>
    duk_insert_m2 ctx >>= fun ctx =>
    encode_value_at h fuel k { enc_ctx with ctx := ctx } >>= fun enc_ctx =>
    encode_value_at h fuel v enc_ctx >>= fun enc_ctx =>
    encode_map_loop h fuel rest enc_ctx

end

/-- The function `duk__cbor_encode_value` (lines 123-226): the dispatch is on
the slot on top of the value stack.  An enumerator is an object without own
enumerable properties; an empty stack has type `DUK_TYPE_NONE`. -/
def duk__cbor_encode_value (h : Host) (fuel : Nat) (enc_ctx : duk_cbor_encode_context) :
    Res duk_cbor_encode_context :=
  match enc_ctx.ctx.getLast? with
  | some (.val v) => encode_value_at h fuel v enc_ctx
  | some (.enum _) => encode_value_at h fuel (.object []) enc_ctx
  | none => .error .type_invalid_type

/-- The function `duk_cbor_encode` (lines 228-245). -/
def duk_cbor_encode (h : Host) (fuel : Nat) (ctx : ValStack) (idx : Int)
    (encode_flags : Nat) : Res ValStack :=
  let _ := encode_flags
  duk_require_normalize_index ctx idx >>= fun idx =>
  let idx_buf := duk_get_top ctx
  let ctx := duk_push_dynamic_buffer ctx 64
  duk_dup ctx idx >>= fun ctx =>
  duk__cbor_encode_value h fuel { ctx := ctx, idx_buf := idx_buf, len := 64, off := 0 }
    >>= fun enc_ctx =>
  duk_resize_buffer enc_ctx.ctx enc_ctx.idx_buf enc_ctx.off >>= fun ctx =>
  duk_replace ctx idx

/-- The function `duk_cbor_decode` (lines 247-251). -/
def duk_cbor_decode (ctx : ValStack) (idx : Int) (decode_flags : Nat) : Res ValStack :=
  let _ := ctx
  let _ := idx
  let _ := decode_flags
  .error .type_unimplemented

/-- Lines 28-31 of `main` in test.c and lines 52-55 of `encode_helper` in
jsoncbor.c: `duk_cbor_encode(ctx, -1, 0)` followed by
`duk_require_buffer_data(ctx, -1, &len)`, on a value stack holding `v` on top
of the slots `below`.  The result is the byte sequence written to stdout. -/
def encode_call (h : Host) (fuel : Nat) (below : ValStack) (v : Value) : Res (List Nat) :=
  duk_cbor_encode h fuel (below ++ [.val v]) (-1) 0 >>= fun ctx =>
  duk_require_buffer_data ctx (ctx.length - 1)

/-! ## The bytes the encoder emits, as pure functions -/

/-- The capacity the loop of `duk__cbor_encode_reserve` reaches from `cap` when
no doubling wraps: `cap` is doubled until `need` bytes fit. -/
def grow (cap need : Nat) : Nat :=
  if _h : cap < need ∧ 0 < cap then grow (cap * 2) need else cap
termination_by need - cap
decreasing_by omega

/-- The encode context in which the bytes `written` have been emitted into a
buffer of capacity `cap`: the buffer sits above the slots `pre` and below the
slots `work`, and is zero beyond the write offset. -/
def canon (pre work : ValStack) (written : List Nat) (cap : Nat) : duk_cbor_encode_context :=
  { ctx := pre ++ Slot.val (.buffer (written ++ List.replicate (cap - written.length) 0)) :: work,
    idx_buf := pre.length, len := cap, off := written.length }

/-- The bytes `duk__cbor_encode_uint32` stores. -/
def uint32_bytes (u base : Nat) : List Nat :=
  if u ≤ 23 then [(base + u % 256) % 256]
  else if u ≤ 0xff then [(base + 0x18) % 256, u % 256]
  else if u ≤ 0xffff then
    [(base + 0x19) % 256, ((u >>> 8) &&& 0xff) % 256, (u &&& 0xff) % 256]
  else
    [(base + 0x1a) % 256, ((u >>> 24) &&& 0xff) % 256, ((u >>> 16) &&& 0xff) % 256,
      ((u >>> 8) &&& 0xff) % 256, (u &&& 0xff) % 256]

/-- The bytes `duk__cbor_encode_double` stores on its float path. -/
def float_bytes (h : Host) (d : Double) : List Nat :=
  [0xfb, (Double.union_x h d).getD 7 0, (Double.union_x h d).getD 6 0,
    (Double.union_x h d).getD 5 0, (Double.union_x h d).getD 4 0,
    (Double.union_x h d).getD 3 0, (Double.union_x h d).getD 2 0,
    (Double.union_x h d).getD 1 0, (Double.union_x h d).getD 0 0]

/-- The double is on the integer fast path of `duk__cbor_encode_double`:
finite, integral, not negative zero, and within `[-4294967296, 4294967295]`. -/
def Double.fast (d : Double) : Bool :=
  decide (d.expo.val ≠ 2047) && decide (d.mag % Double.one_units = 0) &&
    !(d.sign && decide (d.mag = 0)) &&
    (if d.sign then decide (d.mag / Double.one_units ≤ 4294967296)
     else decide (d.mag / Double.one_units ≤ 4294967295))

/-- The bytes `duk__cbor_encode_double` stores. -/
def double_bytes (h : Host) (d : Double) : List Nat :=
  if d.fast then
    (if d.sign then uint32_bytes (d.mag / Double.one_units - 1) 0x20
     else uint32_bytes (d.mag / Double.one_units) 0x00)
  else float_bytes h d

/-- Outcome of a part of the depth-first walk when no reservation fails: the
bytes emitted, and whether the part completed (`true`) or stopped at the
`fail` label (`false`). -/
abbrev Walk : Type := List Nat × Bool

/-- One part of the walk followed by another. -/
def Walk.seq (a b : Walk) : Walk := if a.2 then (a.1 ++ b.1, b.2) else a

/-- The walk of `encode_bytes`. -/
def walk_bytes (bytes : List Nat) (base : Nat) : Walk :=
  if bytes.length ≠ bytes.length % 2 ^ 32 then ([], false)
  else (uint32_bytes (bytes.length % 2 ^ 32) base ++ bytes, true)

mutual

/-- The walk of `duk__cbor_encode_value` over a value. -/
def walk (h : Host) : Value → Walk
  | .undefined => ([0xf7], true)
  | .null => ([0xf6], true)
  | .boolean b => ([if b then 0xf5 else 0xf4], true)
  | .number d => (double_bytes h d, true)
  | .string bytes => walk_bytes bytes 0x60
  | .array elems =>
    if elems.length ≠ elems.length % 2 ^ 32 then ([], false)
    else Walk.seq (uint32_bytes (elems.length % 2 ^ 32) 0x80, true) (walk_array h elems)
  | .bufobj bytes => walk_bytes bytes 0x40
  | .object props => Walk.seq ([0xbf], true) (Walk.seq (walk_map h props) ([0xff], true))
  | .buffer bytes => walk_bytes bytes 0x40
  | .pointer _ => ([0xf7], true)
  | .lightfunc _ => ([0xa0], true)
  | .unknown _ => ([], false)

/-- The walk of the array loop. -/
def walk_array (h : Host) : List Value → Walk
  | [] => ([], true)
  | x :: rest => Walk.seq (walk h x) (walk_array h rest)

/-- The walk of the map loop. -/
def walk_map (h : Host) : List (Value × Value) → Walk
  | [] => ([], true)
  | (k, v) :: rest => Walk.seq (walk h k) (Walk.seq (walk h v) (walk_map h rest))

end

/-- The step `f` of the encoder realises the walk `w`, turning the slots
`work` above the buffer into `work1`: from every context in which the bytes
`written` sit in a buffer of capacity `cap`, if the capacity needed for the
bytes of `w` is representable the step appends them, or throws "invalid type"
when the walk stops at `fail`; otherwise the step ends in the "too large"
error, or, when the needed size wraps in `duk_size_t`, in a store outside the
buffer. -/
def Sim (h : Host) (f : duk_cbor_encode_context → Res duk_cbor_encode_context)
    (w : Walk) (work work1 : ValStack) : Prop :=
  ∀ (pre : ValStack) (written : List Nat) (cap : Nat),
    0 < cap → written.length ≤ cap → cap < h.size_mod →
    (grow cap (written.length + w.1.length) < h.size_mod →
      f (canon pre work written cap) =
        if w.2 then
          .ok (canon pre work1 (written ++ w.1) (grow cap (written.length + w.1.length)))
        else .error .type_invalid_type) ∧
    (¬ grow cap (written.length + w.1.length) < h.size_mod →
      f (canon pre work written cap) = .error .range_too_large ∨
      (h.size_mod ≤ written.length + w.1.length ∧
        f (canon pre work written cap) = .error .undefined_behaviour))

/-! ## The specification's vocabulary -/

/-- The double is finite and its value is the integer `z`. -/
def Double.has_value (d : Double) (z : Int) : Prop :=
  d.isfinite = true ∧ d.scaled = z * (Double.one_units : Int)

/-- Negative zero, `-0.0`. -/
def Double.neg_zero : Double := Double.ofBits 0x8000000000000000

/-- An infinity. -/
def Double.isinf (d : Double) : Bool := decide (d.expo.val = 2047) && decide (d.frac.val = 0)

/-- The `n` low-order bytes of `u`, most significant first. -/
def big_endian (n u : Nat) : List Nat :=
  (List.range n).map (fun i => u / 256 ^ (n - 1 - i) % 256)

/-- The integer head of section 4.2 of the specification for a major-type
base and a magnitude. -/
def Spec.head (base magnitude : Nat) : List Nat :=
  if magnitude ≤ 23 then [base + magnitude]
  else if magnitude ≤ 0xFF then [base + 24, magnitude]
  else if magnitude ≤ 0xFFFF then (base + 25) :: big_endian 2 magnitude
  else (base + 26) :: big_endian 4 magnitude

mutual

/-- Every value of the tree is of one of the kinds section 4.4 enumerates, and
every text, array and buffer in it has a length of at most `2^32 - 1`. -/
def Value.valid : Value → Bool
  | .undefined => true
  | .null => true
  | .boolean _ => true
  | .number _ => true
  | .string bytes => decide (bytes.length ≤ 2 ^ 32 - 1)
  | .array elems => decide (elems.length ≤ 2 ^ 32 - 1) && Value.valid_list elems
  | .bufobj bytes => decide (bytes.length ≤ 2 ^ 32 - 1)
  | .object props => Value.valid_props props
  | .buffer bytes => decide (bytes.length ≤ 2 ^ 32 - 1)
  | .pointer _ => true
  | .lightfunc _ => true
  | .unknown _ => false

/-- All values of a list are valid. -/
def Value.valid_list : List Value → Bool
  | [] => true
  | x :: rest => Value.valid x && Value.valid_list rest

/-- All keys and values of a list of entries are valid. -/
def Value.valid_props : List (Value × Value) → Bool
  | [] => true
  | (k, v) :: rest => Value.valid k && Value.valid v && Value.valid_props rest

end

/-- The depth-first walk over `v` arrives at a value it rejects: the tree holds
a value of an unrecognized kind or a text, array or buffer longer than
`2^32 - 1`, and the bytes emitted before the first such value fit a buffer, so
that no reservation ends the walk earlier. -/
def walk_reaches_fail (h : Host) (v : Value) : Prop :=
  v.valid = false ∧ (walk h v).1.length ≤ 2 ^ (h.size_bits - 1)

/-! ## Concrete inputs -/

/-- The double `0.5`. -/
def d_half : Double := Double.ofBits 0x3FE0000000000000

/-- The double `+Infinity`. -/
def d_inf : Double := Double.ofBits 0x7FF0000000000000

/-- The double `1.0`. -/
def d_1 : Double := Double.ofBits 0x3FF0000000000000

/-- The double `2.0`. -/
def d_2 : Double := Double.ofBits 0x4000000000000000

/-- The double `3.0`. -/
def d_3 : Double := Double.ofBits 0x4008000000000000

/-- The double `23.0`. -/
def d_23 : Double := Double.ofBits 0x4037000000000000

/-- The double `24.0`. -/
def d_24 : Double := Double.ofBits 0x4038000000000000

/-- The double `256.0`. -/
def d_256 : Double := Double.ofBits 0x4070000000000000

/-- The double `65536.0`. -/
def d_65536 : Double := Double.ofBits 0x40F0000000000000

/-- The double `4294967296.0`. -/
def d_4294967296 : Double := Double.ofBits 0x41F0000000000000

/-- The double `-24.0`. -/
def d_m24 : Double := Double.ofBits 0xC038000000000000

/-! ## Further definitions: decoding, starting capacity, the pure serializer -/

/-- The function `decode_helper` of jsoncbor.c (lines 58-61); `udata` is not
used. -/
def decode_helper (ctx : ValStack) (udata : Nat) : Res Nat :=
  let _ := ctx
  let _ := udata
  .error .type_unimplemented

/-- The function `duk_cbor_encode` (lines 228-245) with the starting capacity
of line 238, the constant 64, as the parameter `cap0`. -/
def duk_cbor_encode_from (h : Host) (fuel : Nat) (cap0 : Nat) (ctx : ValStack) (idx : Int)
    (encode_flags : Nat) : Res ValStack :=
  let _ := encode_flags
  duk_require_normalize_index ctx idx >>= fun idx =>
  let idx_buf := duk_get_top ctx
  let ctx := duk_push_dynamic_buffer ctx cap0
  duk_dup ctx idx >>= fun ctx =>
  duk__cbor_encode_value h fuel { ctx := ctx, idx_buf := idx_buf, len := cap0, off := 0 }
    >>= fun enc_ctx =>
  duk_resize_buffer enc_ctx.ctx enc_ctx.idx_buf enc_ctx.off >>= fun ctx =>
  duk_replace ctx idx

/-- The pure serializer: the bytes the Value Emitter writes for a value,
concatenated in emission order, when the walk completes. -/
def emitted (h : Host) (v : Value) : Option (List Nat) :=
  if (walk h v).2 then some (walk h v).1 else none

/-- The value `duk__cbor_encode_value` sees in a slot: an enumerator is an
object without own enumerable properties. -/
def slot_value : Slot → Value
  | .val v => v
  | .enum _ => .object []

/-! ## Encode contexts in general (claims C17 to C19) -/

/-- An Encode Context as the code maintains it: the capacity and the write
offset are values of `duk_size_t`, and slot `idx_buf` of the value stack holds
a plain buffer whose size is the capacity. -/
def duk_cbor_encode_context.well_formed (h : Host) (e : duk_cbor_encode_context) : Bool :=
  decide (e.len < h.size_mod) && decide (e.off < h.size_mod) &&
    match e.ctx.get? e.idx_buf with
    | some (.val (.buffer data)) => decide (data.length = e.len)
    | _ => false

/-- The Encode Context of lines 234-241 of `duk_cbor_encode` on an empty value
stack, before the root value is duplicated: a zero-filled buffer of 64 bytes,
capacity 64, write offset 0. -/
def start_context : duk_cbor_encode_context :=
  { ctx := duk_push_dynamic_buffer [] 64, idx_buf := 0, len := 64, off := 0 }

/-- An Encode Context of capacity 0: an empty buffer, write offset 0. -/
def empty_context : duk_cbor_encode_context :=
  { ctx := duk_push_dynamic_buffer [] 0, idx_buf := 0, len := 0, off := 0 }

/-- A run of reservations one after the other, of the sizes in the list, each
in the context the one before left; it stops at the first that fails. -/
def reserve_all (h : Host) (fuel : Nat) :
    duk_cbor_encode_context → List Nat → Res duk_cbor_encode_context
  | e, [] => .ok e
  | e, n :: ns => duk__cbor_encode_reserve h fuel e n >>= fun r => reserve_all h fuel r.2 ns

/-! ## Well-formed CBOR (RFC 7049, Appendix C) -/

/-- The bytes of `bs` read as one unsigned integer, most significant byte
first. -/
def uint (bs : List Nat) : Nat := bs.foldl (fun acc b => acc * 256 + b) 0

/-- The next `n` bytes of the input and the input after them; fails when fewer
than `n` bytes are left. -/
def take (n : Nat) (inp : List Nat) : Option (List Nat × List Nat) :=
  if n ≤ inp.length then some (inp.take n, inp.drop n) else none

/-- The argument of a head whose additional information `ai` is not 31, and
the input after the head: `ai` itself below 24, the next 1, 2, 4 or 8 bytes for
24 to 27, and no head at all for 28 to 30. -/
def head_argument (ai : Nat) (inp : List Nat) : Option (Nat × List Nat) :=
  if ai < 24 then some (ai, inp)
  else if ai = 24 then (take 1 inp).map (fun r => (uint r.1, r.2))
  else if ai = 25 then (take 2 inp).map (fun r => (uint r.1, r.2))
  else if ai = 26 then (take 4 inp).map (fun r => (uint r.1, r.2))
  else if ai = 27 then (take 8 inp).map (fun r => (uint r.1, r.2))
  else none

mutual

/-- The well-formedness check of RFC 7049, Appendix C, on the front of the
input: the major type of a definite-length item, `0` for an indefinite-length
item, `-1` for a break where one may stand, together with the input left over;
`none` when the input does not start with a well-formed item.  Every initial
byte of an item has to satisfy `allowed`; `fuel` bounds the nesting of calls. -/
def well_formed (allowed : Nat → Bool) : Nat → Bool → List Nat → Option (Int × List Nat)
  | 0, _, _ => none
  | fuel + 1, breakable, inp =>
    match inp with
    | [] => none
    | ib :: inp =>
      if 256 ≤ ib then none
      else if ib &&& 0x1f = 31 then
        (if ib >>> 5 = 7 then (if breakable then some (-1, inp) else none)
         else if allowed ib = false then none
         else if ib >>> 5 = 2 ∨ ib >>> 5 = 3 then
           (well_formed_chunks allowed fuel (ib >>> 5) inp).map (fun r => ((0 : Int), r))
         else if ib >>> 5 = 4 then
           (well_formed_elements allowed fuel inp).map (fun r => ((0 : Int), r))
         else if ib >>> 5 = 5 then
           (well_formed_pairs allowed fuel inp).map (fun r => ((0 : Int), r))
         else none)
      else if allowed ib = false then none
      else
        match head_argument (ib &&& 0x1f) inp with
        | none => none
        | some (val, inp) =>
          if ib >>> 5 = 2 ∨ ib >>> 5 = 3 then
            (take val inp).map (fun r => (((ib >>> 5 : Nat) : Int), r.2))
          else if ib >>> 5 = 4 then
            (well_formed_items allowed fuel val inp).map
              (fun r => (((ib >>> 5 : Nat) : Int), r))
          else if ib >>> 5 = 5 then
            (well_formed_items allowed fuel (val * 2) inp).map
              (fun r => (((ib >>> 5 : Nat) : Int), r))
          else if ib >>> 5 = 6 then
            (well_formed allowed fuel false inp).map
              (fun r => (((ib >>> 5 : Nat) : Int), r.2))
          else some (((ib >>> 5 : Nat) : Int), inp)

/-- The given number of well-formed items one after the other: the content of a
definite-length array or map. -/
def well_formed_items (allowed : Nat → Bool) : Nat → Nat → List Nat → Option (List Nat)
  | _, 0, inp => some inp
  | 0, _ + 1, _ => none
  | fuel + 1, n + 1, inp =>
    match well_formed allowed fuel false inp with
    | none => none
    | some (_, inp) => well_formed_items allowed fuel n inp

/-- The content of an indefinite-length string of major type `mt`:
definite-length strings of the same major type up to a break. -/
def well_formed_chunks (allowed : Nat → Bool) : Nat → Nat → List Nat → Option (List Nat)
  | 0, _, _ => none
  | fuel + 1, mt, inp =>
    match well_formed allowed fuel true inp with
    | none => none
    | some (it, inp) =>
      if it = -1 then some inp
      else if it ≠ (mt : Int) then none
      else well_formed_chunks allowed fuel mt inp

/-- The content of an indefinite-length array: items up to a break. -/
def well_formed_elements (allowed : Nat → Bool) : Nat → List Nat → Option (List Nat)
  | 0, _ => none
  | fuel + 1, inp =>
    match well_formed allowed fuel true inp with
    | none => none
    | some (it, inp) =>
      if it = -1 then some inp else well_formed_elements allowed fuel inp

/-- The content of an indefinite-length map: pairs of items up to a break,
which may only stand where a key would. -/
def well_formed_pairs (allowed : Nat → Bool) : Nat → List Nat → Option (List Nat)
  | 0, _ => none
  | fuel + 1, inp =>
    match well_formed allowed fuel true inp with
    | none => none
    | some (it, inp) =>
      if it = -1 then some inp
      else
        match well_formed allowed fuel false inp with
        | none => none
        | some (_, inp) => well_formed_pairs allowed fuel inp

end

/-- Every initial byte is admitted: the check of RFC 7049 itself. -/
def any_initial_byte (_ib : Nat) : Bool := true

/-- The initial bytes of section 4.4 of the specification: those of major
types 0 to 5 other than a 64-bit head and an indefinite-length string, the
simple values `0xF4` to `0xF7`, and the double-precision float `0xFB`. -/
def encoder_initial_byte (ib : Nat) : Bool :=
  (decide (ib < 0xc0) && decide (ib % 32 ≠ 27) && decide (ib ≠ 0x5f) && decide (ib ≠ 0x7f)) ||
    (decide (0xf4 ≤ ib) && decide (ib ≤ 0xf7)) || decide (ib = 0xfb)

/-! ## Source values -/

/-- The Source Value of section 3 of the specification.  `unsupported` stands
for a value of none of the kinds the specification lists. -/
inductive Source where
  | absent
  | null
  | boolean (b : Bool)
  | number (d : Double)
  | text (bytes : List Nat)
  | array (elems : List Source)
  | map (entries : List (Source × Source))
  | raw_buffer (bytes : List Nat)
  | pointer_like (p : Nat)
  | lightweight_callable (f : Nat)
  | unsupported (tag : Nat)

mutual

/-- The Source Value a Duktape value is: a plain buffer and a buffer object are
both a RawBuffer. -/
def Value.source : Value → Source
  | .undefined => .absent
  | .null => .null
  | .boolean b => .boolean b
  | .number d => .number d
  | .string bytes => .text bytes
  | .array elems => .array (Value.source_list elems)
  | .bufobj bytes => .raw_buffer bytes
  | .object props => .map (Value.source_props props)
  | .buffer bytes => .raw_buffer bytes
  | .pointer p => .pointer_like p
  | .lightfunc f => .lightweight_callable f
  | .unknown tag => .unsupported tag

/-- The Source Values of the elements of an array. -/
def Value.source_list : List Value → List Source
  | [] => []
  | x :: rest => Value.source x :: Value.source_list rest

/-- The Source Values of the entries of a map, in order. -/
def Value.source_props : List (Value × Value) → List (Source × Source)
  | [] => []
  | (k, v) :: rest => (Value.source k, Value.source v) :: Value.source_props rest

end

mutual

/-- The value has no Pointer-like and no Lightweight-callable part. -/
def Value.placeholder_free : Value → Bool
  | .pointer _ => false
  | .lightfunc _ => false
  | .array elems => Value.placeholder_free_list elems
  | .object props => Value.placeholder_free_props props
  | _ => true

/-- No element has a Pointer-like or Lightweight-callable part. -/
def Value.placeholder_free_list : List Value → Bool
  | [] => true
  | x :: rest => Value.placeholder_free x && Value.placeholder_free_list rest

/-- No key and no value has a Pointer-like or Lightweight-callable part. -/
def Value.placeholder_free_props : List (Value × Value) → Bool
  | [] => true
  | (k, v) :: rest =>
    Value.placeholder_free k && Value.placeholder_free v && Value.placeholder_free_props rest

end

/-- The kind of CBOR item `duk__cbor_encode_value` emits for a value: 0 for
`undefined`, 1 for `null`, 2 for a boolean, 3 for a number, 4 for a text, 5 for
an array, 6 for a byte string, 7 for an indefinite-length map; the placeholders
and the unsupported values have the kinds 8 to 10 of their own. -/
def Value.item_kind : Value → Nat
  | .undefined => 0
  | .null => 1
  | .boolean _ => 2
  | .number _ => 3
  | .string _ => 4
  | .array _ => 5
  | .bufobj _ => 6
  | .object _ => 7
  | .buffer _ => 6
  | .pointer _ => 8
  | .lightfunc _ => 9
  | .unknown _ => 10

/-- The kind of item an initial byte announces, numbered as in
`Value.item_kind`: integers and the float `0xFB` are numbers. -/
def initial_byte_kind (ib : Nat) : Nat :=
  if ib < 0x40 then 3
  else if ib < 0x60 then 6
  else if ib < 0x80 then 4
  else if ib < 0xa0 then 5
  else if ib = 0xbf then 7
  else if ib = 0xf4 ∨ ib = 0xf5 then 2
  else if ib = 0xf6 then 1
  else if ib = 0xf7 then 0
  else if ib = 0xfb then 3
  else 10

mutual

/-- The value has no buffer-object part: every RawBuffer in it is a plain
buffer. -/
def Value.plain : Value → Bool
  | .bufobj _ => false
  | .array elems => Value.plain_list elems
  | .object props => Value.plain_props props
  | _ => true

/-- No element has a buffer-object part. -/
def Value.plain_list : List Value → Bool
  | [] => true
  | x :: rest => Value.plain x && Value.plain_list rest

/-- No key and no value has a buffer-object part. -/
def Value.plain_props : List (Value × Value) → Bool
  | [] => true
  | (k, v) :: rest => Value.plain k && Value.plain v && Value.plain_props rest

end

/-! # Theorems -/

/-! ## Basic facts -/

theorem ok_bind {α β : Type} (a : α) (f : α → Res β) : ((Except.ok a : Res α) >>= f) = f a := rfl

theorem error_bind {α β : Type} (e : DukError) (f : α → Res β) :
    ((Except.error e : Res α) >>= f) = Except.error e := rfl

theorem grow_of_le {cap need : Nat} (hle : need ≤ cap) : grow cap need = cap := by
  rw [grow]; simp; omega

theorem grow_zero (need : Nat) : grow 0 need = 0 := by
  rw [grow]; simp

theorem grow_of_lt {cap need : Nat} (hlt : cap < need) (hpos : 0 < cap) :
    grow cap need = grow (cap * 2) need := by
  rw [grow]; simp [hlt, hpos]

theorem le_grow (cap need : Nat) : cap ≤ grow cap need := by
  induction cap, need using grow.induct with
  | case1 cap need hc ih => rw [grow_of_lt hc.1 hc.2]; omega
  | case2 cap need hc => rw [grow]; simp [hc]

theorem need_le_grow (cap need : Nat) (hpos : 0 < cap) : need ≤ grow cap need := by
  induction cap, need using grow.induct with
  | case1 cap need hc ih => rw [grow_of_lt hc.1 hc.2]; exact ih (by omega)
  | case2 cap need hc => rw [grow]; simp [hc]; omega

theorem grow_grow {cap a b : Nat} (hab : a ≤ b) : grow (grow cap a) b = grow cap b := by
  induction cap, a using grow.induct with
  | case1 cap a hc ih =>
    rw [grow_of_lt hc.1 hc.2, ih hab, grow_of_lt (by omega) hc.2]
  | case2 cap a hc =>
    have : grow cap a = cap := by rw [grow]; simp [hc]
    rw [this]

theorem grow_mono {cap a b : Nat} (hab : a ≤ b) : grow cap a ≤ grow cap b := by
  rw [← grow_grow hab]; exact le_grow _ _

theorem grow_pow_aux (w need : Nat) (hneed : need ≤ 2 ^ (w - 1)) :
    ∀ (n j : Nat), j + n = w - 1 → grow (2 ^ j) need ≤ 2 ^ (w - 1) := by
  intro n
  induction n with
  | zero =>
    intro j hj
    have : j = w - 1 := by omega
    subst this
    rw [grow_of_le hneed]
  | succ n ih =>
    intro j hj
    by_cases hlt : 2 ^ j < need
    · rw [grow_of_lt hlt (Nat.two_pow_pos j), ← Nat.pow_succ]
      exact ih (j + 1) (by omega)
    · rw [grow_of_le (by omega)]
      exact Nat.pow_le_pow_right (by decide) (by omega)

theorem grow_pow {j w need : Nat} (hj : j < w) (hneed : need ≤ 2 ^ (w - 1)) :
    grow (2 ^ j) need ≤ 2 ^ (w - 1) :=
  grow_pow_aux w need hneed (w - 1 - j) j (by omega)


/-! ## The buffer slot -/

theorem get_mid (pre work : ValStack) (x : Slot) :
    (pre ++ x :: work).get? pre.length = some x := by
  rw [List.get?_eq_getElem?, List.getElem?_append_right (Nat.le_refl _)]
  simp

theorem set_mid (pre work : ValStack) (x y : Slot) :
    (pre ++ x :: work).set pre.length y = pre ++ y :: work := by
  simp

theorem size_mod_pos (h : Host) : 0 < h.size_mod := Nat.two_pow_pos _

theorem resize_canon (pre work : ValStack) (written : List Nat) (cap newcap : Nat)
    (hW : written.length ≤ cap) (hle : cap ≤ newcap) :
    duk_resize_buffer (canon pre work written cap).ctx (canon pre work written cap).idx_buf
      newcap = .ok (canon pre work written newcap).ctx := by
  simp only [canon, duk_resize_buffer, get_mid, set_mid]
  have h1 : (written ++ List.replicate (cap - written.length) 0).length = cap := by
    simp; omega
  rw [List.take_of_length_le (by omega), h1, List.append_assoc, ← List.replicate_add]
  have h2 : cap - written.length + (newcap - cap) = newcap - written.length := by omega
  rw [h2]

theorem loop_fits (h : Host) (pre work : ValStack) (written : List Nat) (n : Nat) :
    ∀ (fuel cap : Nat), 0 < cap → written.length ≤ cap →
      grow cap (written.length + n) < h.size_mod → h.size_mod ≤ cap * 2 ^ fuel →
      duk__cbor_encode_reserve_loop h n fuel (canon pre work written cap) =
        .ok (canon pre work written (grow cap (written.length + n))) := by
  intro fuel
  induction fuel with
  | zero =>
    intro cap hpos hW hfit hfuel
    have hcap := le_grow cap (written.length + n)
    omega
  | succ fuel ih =>
    intro cap hpos hW hfit hfuel
    have hneed := need_le_grow cap (written.length + n) hpos
    have hmod : (written.length + n) % h.size_mod = written.length + n :=
      Nat.mod_eq_of_lt (by omega)
    by_cases hlt : cap < written.length + n
    · have hg := grow_of_lt hlt hpos
      have h2 := le_grow (cap * 2) (written.length + n)
      have hmod2 : cap * 2 % h.size_mod = cap * 2 := Nat.mod_eq_of_lt (by omega)
      rw [duk__cbor_encode_reserve_loop]
      have hc : (canon pre work written cap).len < ((canon pre work written cap).off + n) %
          h.size_mod := by simpa [canon, hmod] using hlt
      rw [if_pos hc]
      simp only []
      have hl : (canon pre work written cap).len = cap := rfl
      rw [hl, hmod2, if_neg (by omega), resize_canon pre work written cap (cap * 2) hW (by omega),
        ok_bind, hg]
      have := ih (cap * 2) (by omega) (by omega) (by rw [← hg]; exact hfit)
        (by rw [Nat.pow_succ] at hfuel
            have : cap * 2 * 2 ^ fuel = cap * (2 ^ fuel * 2) := by ring
            omega)
      rw [← this]; rfl
    · rw [grow_of_le (by omega)]
      rw [duk__cbor_encode_reserve_loop]
      have hc : ¬ (canon pre work written cap).len < ((canon pre work written cap).off + n) %
          h.size_mod := by simpa [canon, hmod] using hlt
      cases fuel <;> simp [hc]


theorem loop_unfit (h : Host) (pre work : ValStack) (written : List Nat) (n : Nat) :
    ∀ (fuel cap : Nat), 0 < cap → written.length ≤ cap → cap < h.size_mod →
      ¬ grow cap (written.length + n) < h.size_mod → h.size_mod ≤ cap * 2 ^ fuel →
      duk__cbor_encode_reserve_loop h n fuel (canon pre work written cap) =
        .error .range_too_large ∨
      ∃ cap1, written.length ≤ cap1 ∧ cap1 < written.length + n ∧
        h.size_mod ≤ written.length + n ∧
        duk__cbor_encode_reserve_loop h n fuel (canon pre work written cap) =
          .ok (canon pre work written cap1) := by
  intro fuel
  induction fuel with
  | zero =>
    intro cap hpos hW hcap hfit hfuel
    omega
  | succ fuel ih =>
    intro cap hpos hW hcap hfit hfuel
    have hxle : (written.length + n) % h.size_mod ≤ written.length + n := Nat.mod_le _ _
    by_cases hlt : cap < (written.length + n) % h.size_mod
    · have hg := grow_of_lt (show cap < written.length + n by omega) hpos
      rw [duk__cbor_encode_reserve_loop]
      have hc : (canon pre work written cap).len < ((canon pre work written cap).off + n) %
          h.size_mod := by simpa [canon] using hlt
      rw [if_pos hc]
      simp only []
      have hl : (canon pre work written cap).len = cap := rfl
      rw [hl]
      by_cases hwrap : cap * 2 < h.size_mod
      · have hmod2 : cap * 2 % h.size_mod = cap * 2 := Nat.mod_eq_of_lt hwrap
        rw [hmod2, if_neg (by omega),
          resize_canon pre work written cap (cap * 2) hW (by omega), ok_bind]
        have := ih (cap * 2) (by omega) (by omega) hwrap (by rw [← hg]; exact hfit)
          (by rw [Nat.pow_succ] at hfuel
              have : cap * 2 * 2 ^ fuel = cap * (2 ^ fuel * 2) := by ring
              omega)
        exact this
      · have hmod2 : cap * 2 % h.size_mod = cap * 2 - h.size_mod := by
          rw [Nat.mod_eq_sub_mod (by omega)]
          exact Nat.mod_eq_of_lt (by omega)
        rw [hmod2, if_pos (by omega)]
        exact Or.inl rfl
    · right
      refine ⟨cap, hW, ?_, ?_, ?_⟩
      · by_contra hcon
        rw [grow_of_le (by omega)] at hfit
        omega
      · by_contra hcon
        rw [Nat.mod_eq_of_lt (by omega)] at hlt
        rw [grow_of_le (by omega)] at hfit
        omega
      · rw [duk__cbor_encode_reserve_loop]
        have hc : ¬ (canon pre work written cap).len <
            ((canon pre work written cap).off + n) % h.size_mod := by simpa [canon] using hlt
        cases fuel <;> simp [hc]

theorem canon_buffer_length (written : List Nat) (cap : Nat) (hW : written.length ≤ cap) :
    (written ++ List.replicate (cap - written.length) 0).length = cap := by
  simp; omega

theorem store_canon (pre work : ValStack) (written bs : List Nat) (cap off1 : Nat)
    (hfit : written.length + bs.length ≤ cap) :
    store { canon pre work written cap with off := off1 } written.length bs =
      .ok { canon pre work (written ++ bs) cap with off := off1 } := by
  simp only [store, canon, get_mid, set_mid]
  rw [canon_buffer_length written cap (by omega), if_pos hfit]
  congr 3
  simp only [List.length_append, List.append_assoc]
  rw [List.take_left, List.drop_append_eq_append_drop, List.drop_of_length_le (by omega)]
  simp
  omega

theorem store_unfit (pre work : ValStack) (written bs : List Nat) (cap off1 : Nat)
    (hW : written.length ≤ cap) (hfit : cap < written.length + bs.length) :
    store { canon pre work written cap with off := off1 } written.length bs =
      .error .undefined_behaviour := by
  simp only [store, canon, get_mid]
  rw [canon_buffer_length written cap hW, if_neg (by omega)]

theorem pow_le_mul_pow (cap w fuel : Nat) (hpos : 0 < cap) (hf : w ≤ fuel) :
    2 ^ w ≤ cap * 2 ^ fuel :=
  calc 2 ^ w ≤ 2 ^ fuel := Nat.pow_le_pow_right (by decide) hf
    _ = 1 * 2 ^ fuel := (Nat.one_mul _).symm
    _ ≤ cap * 2 ^ fuel := Nat.mul_le_mul_right _ hpos

theorem sim_reserve_store (h : Host) (fuel : Nat) (hfuel : h.size_bits ≤ fuel)
    (bs : List Nat) (work : ValStack) :
    Sim h (fun e => reserve_store h fuel e bs) (bs, true) work work := by
  intro pre written cap hpos hW hcap
  have hf : h.size_mod ≤ cap * 2 ^ fuel := pow_le_mul_pow cap _ fuel hpos hfuel
  constructor
  · intro hfit
    dsimp only at hfit ⊢
    have hneed := need_le_grow cap (written.length + bs.length) hpos
    have hcap1 := le_grow cap (written.length + bs.length)
    simp only [reserve_store, duk__cbor_encode_reserve, if_true]
    rw [loop_fits h pre work written bs.length fuel cap hpos hW hfit hf, ok_bind]
    simp only [canon, duk_require_buffer, get_mid, ok_bind]
    have hmod : (written.length + bs.length) % h.size_mod = written.length + bs.length :=
      Nat.mod_eq_of_lt (by omega)
    rw [hmod]
    have := store_canon pre work written bs (grow cap (written.length + bs.length))
      (written.length + bs.length) hneed
    simp only [canon] at this
    rw [this]
    simp
  · intro hfit
    dsimp only at hfit ⊢
    simp only [reserve_store, duk__cbor_encode_reserve]
    rcases loop_unfit h pre work written bs.length fuel cap hpos hW hcap hfit hf with
      hl | ⟨cap1, hW1, hlt1, hwrap, hl⟩
    · left; rw [hl]; rfl
    · right
      refine ⟨hwrap, ?_⟩
      rw [hl, ok_bind]
      simp only [canon, duk_require_buffer, get_mid, ok_bind]
      have := store_unfit pre work written bs cap1
        ((written.length + bs.length) % h.size_mod) hW1 hlt1
      simp only [canon] at this
      rw [this]


/-! ## Composition of steps -/

theorem sim_congr (h : Host) {f g : duk_cbor_encode_context → Res duk_cbor_encode_context}
    {w : Walk} {work work1 : ValStack} (hfg : ∀ e, g e = f e) (hs : Sim h f w work work1) :
    Sim h g w work work1 := by
  intro pre written cap hpos hW hcap
  rw [hfg]
  exact hs pre written cap hpos hW hcap

theorem sim_seq (h : Host) {f : duk_cbor_encode_context → Res duk_cbor_encode_context}
    {g : duk_cbor_encode_context → Res duk_cbor_encode_context}
    {a b : Walk} {work work1 work2 : ValStack}
    (hf : Sim h f a work work1) (hg : Sim h g b work1 work2) :
    Sim h (fun e => f e >>= g) (Walk.seq a b) work work2 := by
  intro pre written cap hpos hW hcap
  obtain ⟨hf1, hf2⟩ := hf pre written cap hpos hW hcap
  rcases a with ⟨a1, a2⟩
  cases a2 with
  | false =>
    simp only [Walk.seq] at hf1 hf2 ⊢
    constructor
    · intro hfit
      rw [hf1 hfit]; rfl
    · intro hfit
      rcases hf2 hfit with hx | ⟨hy, hx⟩ <;> rw [hx]
      · exact Or.inl rfl
      · exact Or.inr ⟨hy, rfl⟩
  | true =>
    simp only [Walk.seq, if_true] at hf1 hf2 ⊢
    have hmono : grow cap (written.length + a1.length) ≤
        grow cap (written.length + (a1 ++ b.1).length) :=
      grow_mono (by simp)
    have hgg : grow (grow cap (written.length + a1.length))
        (written.length + (a1 ++ b.1).length) =
        grow cap (written.length + (a1 ++ b.1).length) := grow_grow (by simp)
    have hlen : (written ++ a1).length + b.1.length = written.length + (a1 ++ b.1).length := by
      simp; omega
    by_cases hfa : grow cap (written.length + a1.length) < h.size_mod
    · obtain ⟨hg1, hg2⟩ := hg pre (written ++ a1) (grow cap (written.length + a1.length))
        (by have := le_grow cap (written.length + a1.length); omega)
        (by have := need_le_grow cap (written.length + a1.length) hpos; simpa using this)
        hfa
      rw [hlen, hgg] at hg1 hg2
      rw [hf1 hfa, ok_bind]
      constructor
      · intro hfit
        rw [hg1 hfit, List.append_assoc]
      · intro hfit
        exact hg2 hfit
    · constructor
      · intro hfit
        omega
      · intro _
        rcases hf2 hfa with hx | ⟨hy, hx⟩ <;> rw [hx]
        · exact Or.inl rfl
        · refine Or.inr ⟨?_, rfl⟩
          simp only [List.length_append]
          omega

theorem sim_stack (h : Host) (f : ValStack → Res ValStack) (work work1 : ValStack)
    (hf : ∀ (pre : ValStack) (b : Slot), f (pre ++ b :: work) = .ok (pre ++ b :: work1)) :
    Sim h (fun e => f e.ctx >>= fun ctx => .ok { e with ctx := ctx }) ([], true) work work1 := by
  intro pre written cap hpos hW hcap
  dsimp only
  rw [List.length_nil, Nat.add_zero, grow_of_le hW, List.append_nil]
  constructor
  · intro _
    simp only [canon, hf, ok_bind, if_true]
  · intro hfit
    omega

theorem duk_pop_concat (st : ValStack) (s : Slot) : duk_pop (st ++ [s]) = .ok st := by
  simp [duk_pop]

theorem sim_pop (h : Host) (work : ValStack) (s : Slot) :
    Sim h pop ([], true) (work ++ [s]) work := by
  refine sim_congr h (fun e => rfl) (sim_stack h duk_pop (work ++ [s]) work ?_)
  intro pre b
  rw [← List.cons_append, ← List.append_assoc, duk_pop_concat]

theorem sim_fail (h : Host) (work work1 : ValStack) :
    Sim h (fun _ => .error .type_invalid_type) ([], false) work work1 := by
  intro pre written cap hpos hW hcap
  dsimp only
  rw [List.length_nil, Nat.add_zero, grow_of_le hW]
  constructor
  · intro _; rfl
  · intro hfit; omega

/-! ## Doubles -/

namespace Double

theorem one_units_spec : ∃ E, E = 1074 ∧ one_units = 2 ^ E := ⟨1074, rfl, by rw [one_units]⟩

theorem one_units_pos : 0 < one_units := Nat.two_pow_pos _

theorem log2_mul_pow (j e : Nat) (hj : j ≠ 0) : Nat.log2 (j * 2 ^ e) = Nat.log2 j + e := by
  have h1 : 2 ^ Nat.log2 j ≤ j := Nat.log2_self_le hj
  have h2 : j < 2 ^ (Nat.log2 j + 1) := Nat.lt_log2_self
  have hn : j * 2 ^ e ≠ 0 := Nat.mul_ne_zero hj (Nat.two_pow_pos e).ne'
  have h3 : Nat.log2 j + e ≤ Nat.log2 (j * 2 ^ e) := by
    rw [Nat.le_log2 hn, Nat.pow_add]
    exact Nat.mul_le_mul_right _ h1
  have h4 : Nat.log2 (j * 2 ^ e) < Nat.log2 j + e + 1 := by
    rw [Nat.log2_lt hn]
    have : Nat.log2 j + e + 1 = (Nat.log2 j + 1) + e := by omega
    rw [this, Nat.pow_add]
    exact Nat.mul_lt_mul_of_pos_right h2 (Nat.two_pow_pos e)
  omega

theorem ofMag_mul (s : Bool) (j : Nat) (hj : j < 2 ^ 53) :
    (ofMag s (j * one_units)).mag = j * one_units ∧ (ofMag s (j * one_units)).sign = s ∧
      (ofMag s (j * one_units)).expo.val ≠ 2047 := by
  obtain ⟨E, hE, one_units_eq⟩ := one_units_spec
  generalize one_units = S at one_units_eq ⊢
  by_cases hj0 : j = 0
  · subst hj0
    simp [ofMag, mag]
  · have ha1 : 2 ^ Nat.log2 j ≤ j := Nat.log2_self_le hj0
    have ha2 : j < 2 ^ (Nat.log2 j + 1) := Nat.lt_log2_self
    have ha : Nat.log2 j < 53 := (Nat.log2_lt hj0).2 hj
    generalize hadef : Nat.log2 j = a at ha1 ha2 ha
    have hlog : Nat.log2 (j * S) = a + E := by
      rw [one_units_eq, log2_mul_pow j E hj0, hadef]
    have hS : S = 2 ^ (52 - a) * 2 ^ (a + 1022) := by
      have : E = 52 - a + (a + 1022) := by omega
      rw [one_units_eq, ← Nat.pow_add, this]
    have hn : j * S = j * 2 ^ (52 - a) * 2 ^ (a + 1022) := by
      rw [hS, Nat.mul_assoc]
    have hq1 : 2 ^ 52 ≤ j * 2 ^ (52 - a) := by
      have : 2 ^ 52 = 2 ^ a * 2 ^ (52 - a) := by
        have e : 52 = a + (52 - a) := by omega
        rw [← Nat.pow_add, ← e]
      rw [this]; exact Nat.mul_le_mul_right _ ha1
    have hq2 : j * 2 ^ (52 - a) < 2 ^ 53 := by
      have : 2 ^ 53 = 2 ^ (a + 1) * 2 ^ (52 - a) := by
        have e : 53 = a + 1 + (52 - a) := by omega
        rw [← Nat.pow_add, ← e]
      rw [this]; exact Nat.mul_lt_mul_of_pos_right ha2 (Nat.two_pow_pos _)
    have hkpos : 0 < 2 ^ (a + 1022) := Nat.two_pow_pos _
    have hbig : ¬ j * S < 2 ^ 53 := by
      rw [hn]
      have : 2 ^ 53 ≤ 2 ^ 52 * 2 ^ (a + 1022) := by
        rw [← Nat.pow_add]; exact Nat.pow_le_pow_right (by decide) (by omega)
      have := Nat.mul_le_mul_right (2 ^ (a + 1022)) hq1
      omega
    have hk : Nat.log2 (j * S) - 52 = a + 1022 := by rw [hlog]; omega
    have hq : j * S / 2 ^ (a + 1022) = j * 2 ^ (52 - a) := by
      rw [hn]; exact Nat.mul_div_cancel _ hkpos
    have hr : j * S % 2 ^ (a + 1022) = 0 := by
      rw [hn]; exact Nat.mul_mod_left _ _
    generalize hqdef : j * 2 ^ (52 - a) = q at hq hq1 hq2 hn
    unfold ofMag
    rw [if_neg hbig]
    simp only [hk, hq, hr, Nat.mul_zero]
    have hc1 : ¬ (2 ^ (a + 1022) < 0 ∨ 0 = 2 ^ (a + 1022) ∧ q % 2 = 1) := by
      intro hc; rcases hc with hc | hc <;> omega
    have hc2 : ¬ q = 2 ^ 53 := by omega
    have hc3 : ¬ 2047 ≤ a + 1022 + 1 := by omega
    have hi1 : (if 2 ^ (a + 1022) < 0 ∨ 0 = 2 ^ (a + 1022) ∧ q % 2 = 1 then q + 1 else q) = q :=
      if_neg hc1
    simp only [hi1]
    have hi2 : (if q = 2 ^ 53 then a + 1022 + 1 else a + 1022) = a + 1022 := if_neg hc2
    have hi3 : (if q = 2 ^ 53 then 2 ^ 52 else q) = q := if_neg hc2
    simp only [hi2, hi3, hc3, if_false]
    refine ⟨?_, trivial, ?_⟩
    · simp only [mag]
      have e1 : (a + 1022 + 1) % 2048 = a + 1023 := by omega
      have e2 : (q - 2 ^ 52) % 4503599627370496 = q - 2 ^ 52 := by
        apply Nat.mod_eq_of_lt; omega
      rw [e1, e2, if_neg (by omega)]
      have e3 : 2 ^ 52 + (q - 2 ^ 52) = q := by omega
      have e4 : a + 1023 - 1 = a + 1022 := by omega
      rw [e3, e4, hn]
    · show (a + 1022 + 1) % 2048 ≠ 2047
      omega


theorem isnan_of_finite (d : Double) (hfin : d.expo.val ≠ 2047) : d.isnan = false := by
  simp [isnan, hfin]

theorem zero_fields : zero.sign = false ∧ zero.expo.val = 0 ∧ zero.mag = 0 := by
  decide

theorem c4294967295_fields : c4294967295.sign = false ∧ c4294967295.expo.val = 1054 ∧
    c4294967295.mag = 4294967295 * one_units := by
  decide

theorem cm4294967296_fields : cm4294967296.sign = true ∧ cm4294967296.expo.val = 1055 ∧
    cm4294967296.mag = 4294967296 * one_units := by
  decide

theorem cm1_fields : cm1.sign = true ∧ cm1.expo.val = 1023 ∧ cm1.mag = one_units := by
  decide

theorem scaled_eq_zero_iff (d : Double) : d.scaled = 0 ↔ d.mag = 0 := by
  unfold scaled
  split <;> omega

theorem ne_zero_eq (d : Double) (hfin : d.expo.val ≠ 2047) :
    ne d zero = decide (d.mag ≠ 0) := by
  have hz : zero.scaled = 0 := by
    rw [scaled_eq_zero_iff]; exact zero_fields.2.2
  have hzn : zero.isnan = false := isnan_of_finite _ (by rw [zero_fields.2.1]; decide)
  simp only [ne, eq, isnan_of_finite d hfin, hzn, hz, scaled_eq_zero_iff]
  simp

theorem ge_zero_eq (d : Double) (hfin : d.expo.val ≠ 2047) :
    ge d zero = (!d.sign || decide (d.mag = 0)) := by
  have hz : zero.scaled = 0 := by
    rw [scaled_eq_zero_iff]; exact zero_fields.2.2
  have hzn : zero.isnan = false := isnan_of_finite _ (by rw [zero_fields.2.1]; decide)
  simp only [ge, le, isnan_of_finite d hfin, hzn, hz]
  simp only [scaled]
  by_cases hs : d.sign = true <;> simp [hs]

theorem le_c_eq (d : Double) (hfin : d.expo.val ≠ 2047) :
    le d c4294967295 = (d.sign || decide (d.mag ≤ 4294967295 * one_units)) := by
  have hc : c4294967295.scaled = ((4294967295 * one_units : Nat) : Int) := by
    simp only [scaled, c4294967295_fields.1, c4294967295_fields.2.2]; rfl
  have hcn : c4294967295.isnan = false :=
    isnan_of_finite _ (by rw [c4294967295_fields.2.1]; decide)
  simp only [le, isnan_of_finite d hfin, hcn, hc]
  simp only [scaled]
  generalize one_units = S
  by_cases hs : d.sign = true <;> simp [hs] <;> omega

theorem ge_cm_eq (d : Double) (hfin : d.expo.val ≠ 2047) :
    ge d cm4294967296 = (!d.sign || decide (d.mag ≤ 4294967296 * one_units)) := by
  have hc : cm4294967296.scaled = -((4294967296 * one_units : Nat) : Int) := by
    simp only [scaled, cm4294967296_fields.1, cm4294967296_fields.2.2]; rfl
  have hcn : cm4294967296.isnan = false :=
    isnan_of_finite _ (by rw [cm4294967296_fields.2.1]; decide)
  simp only [ge, le, isnan_of_finite d hfin, hcn, hc]
  simp only [scaled]
  generalize one_units = S
  by_cases hs : d.sign = true <;> simp [hs] <;> omega

theorem signbit_eq (d : Double) : decide (d.signbit = 0) = !d.sign := by
  cases hs : d.sign <;> simp [signbit, hs]


theorem mag_div_lt (d : Double) (hm : d.mag % one_units ≠ 0) : d.mag / one_units < 2 ^ 52 := by
  obtain ⟨E, hE, hS⟩ := one_units_spec
  generalize one_units = S at hS hm ⊢
  have hSpos : 0 < S := by rw [hS]; exact Nat.two_pow_pos _
  rw [Nat.div_lt_iff_lt_mul hSpos]
  have hsig : (if d.expo.val = 0 then d.frac.val else 2 ^ 52 + d.frac.val) < 2 ^ 53 := by
    have := d.frac.isLt
    split <;> omega
  unfold mag at hm ⊢
  generalize (if d.expo.val = 0 then d.frac.val else 2 ^ 52 + d.frac.val) = sig at hsig hm ⊢
  by_cases he : E ≤ d.expo.val - 1
  · exfalso
    apply hm
    have : 2 ^ (d.expo.val - 1) = 2 ^ (d.expo.val - 1 - E) * S := by
      have e : d.expo.val - 1 = d.expo.val - 1 - E + E := by omega
      rw [hS, ← Nat.pow_add, ← e]
    rw [this, ← Nat.mul_assoc]
    exact Nat.mul_mod_left _ _
  · have h1 : 2 ^ (d.expo.val - 1) ≤ 2 ^ (E - 1) :=
      Nat.pow_le_pow_right (by decide) (by omega)
    have h2 : 2 ^ 52 * S = 2 ^ 53 * 2 ^ (E - 1) := by
      have e : 52 + E = 53 + (E - 1) := by omega
      rw [hS, ← Nat.pow_add, ← Nat.pow_add, e]
    rw [h2]
    calc sig * 2 ^ (d.expo.val - 1) ≤ sig * 2 ^ (E - 1) := Nat.mul_le_mul_left _ h1
      _ < 2 ^ 53 * 2 ^ (E - 1) := Nat.mul_lt_mul_of_pos_right hsig (Nat.two_pow_pos _)

theorem scaled_inj_of_sign {a b : Double} (hs : a.sign = b.sign) (h : a.scaled = b.scaled) :
    a.mag = b.mag := by
  unfold scaled at h
  rw [hs] at h
  split at h <;> omega

theorem floor_eq_self (d : Double) (hfin : d.expo.val ≠ 2047) :
    Double.eq (floor d) d = decide (d.mag % one_units = 0) := by
  by_cases hm : d.mag % one_units = 0
  · have hfl : floor d = d := by
      unfold floor; rw [if_neg hfin, if_pos hm]
    rw [hfl]
    simp [eq, isnan_of_finite d hfin, hm]
  · have hlt := mag_div_lt d hm
    have hkey : ∀ j, j < 2 ^ 53 → Double.eq (ofMag d.sign (j * one_units)) d = false := by
      intro j hj
      obtain ⟨h1, h2, _⟩ := ofMag_mul d.sign j hj
      have : (ofMag d.sign (j * one_units)).scaled ≠ d.scaled := by
        intro hc
        have := scaled_inj_of_sign h2 hc
        rw [h1] at this
        apply hm
        rw [← this]
        exact Nat.mul_mod_left _ _
      simp [eq, this]
    have hfl : Double.eq (floor d) d = false := by
      unfold floor
      rw [if_neg hfin, if_neg hm]
      by_cases hs : d.sign = true
      · rw [if_pos hs]
        have := hkey (d.mag / one_units + 1) (by omega)
        rwa [hs] at this
      · rw [if_neg hs]
        have := hkey (d.mag / one_units) (by omega)
        have hs2 : d.sign = false := by simpa using hs
        rwa [hs2] at this
    rw [hfl]
    simp [hm]

theorem to_uint32_sub_cm1 (d : Double) (hfin : d.expo.val ≠ 2047) (hs : d.sign = true)
    (m : Nat) (hmag : d.mag = m * one_units) (h1 : 1 ≤ m) (h2 : m ≤ 4294967296) :
    to_uint32 (sub cm1 d) = some (m - 1) := by
  have hcn : cm1.isnan = false := isnan_of_finite _ (by rw [cm1_fields.2.1]; decide)
  have hce : ¬ cm1.expo.val = 2047 := by rw [cm1_fields.2.1]; decide
  have hz : cm1.scaled - d.scaled = (((m - 1) * one_units : Nat) : Int) := by
    simp only [scaled, cm1_fields.1, cm1_fields.2.2, hs, hmag, if_true]
    have : m * one_units = (m - 1) * one_units + one_units := by
      rw [← Nat.succ_mul]; congr 1; omega
    rw [this]
    push_cast
    omega
  have hSpos := one_units_pos
  unfold sub
  rw [hcn, isnan_of_finite d hfin]
  simp only [Bool.false_eq_true, if_false, hce, hfin, hz]
  by_cases hm1 : m = 1
  · subst hm1
    simp [to_uint32, mag]
  · have hne : ¬ (((m - 1) * one_units : Nat) : Int) = 0 := by
      have : 0 < (m - 1) * one_units := Nat.mul_pos (by omega) hSpos
      omega
    rw [if_neg hne]
    have hlt : ¬ (((m - 1) * one_units : Nat) : Int) < 0 := by omega
    simp only [hlt, decide_False, Int.natAbs_ofNat]
    obtain ⟨e1, e2, e3⟩ := ofMag_mul false (m - 1) (by omega)
    unfold to_uint32
    rw [if_neg e3, e1, e2, Nat.mul_div_cancel _ hSpos]
    simp
    omega


theorem to_uint32_nonneg (d : Double) (hfin : d.expo.val ≠ 2047) (hs : d.sign = false)
    (hlt : d.mag / one_units ≤ 4294967295) : to_uint32 d = some (d.mag / one_units) := by
  unfold to_uint32
  rw [if_neg hfin, hs]
  simp
  omega

end Double

theorem encode_double_eq (h : Host) (fuel : Nat) (enc : duk_cbor_encode_context) (d : Double) :
    duk__cbor_encode_double h fuel enc d =
      if d.fast then
        (if d.sign then
          duk__cbor_encode_uint32 h fuel enc (d.mag / Double.one_units - 1) 0x20
         else duk__cbor_encode_uint32 h fuel enc (d.mag / Double.one_units) 0x00)
      else duk__cbor_encode_double_float h fuel enc d := by
  unfold duk__cbor_encode_double
  by_cases hfin : d.expo.val = 2047
  · have h1 : d.isfinite = false := by simp [Double.isfinite, hfin]
    have h2 : d.fast = false := by simp [Double.fast, hfin]
    rw [h1, h2]
    rfl
  · have h1 : d.isfinite = true := by simp [Double.isfinite, hfin]
    rw [h1, if_pos rfl]
    simp only [Double.floor_eq_self d hfin, Double.ne_zero_eq d hfin, Double.signbit_eq,
      Double.ge_zero_eq d hfin, Double.le_c_eq d hfin, Double.ge_cm_eq d hfin]
    by_cases hm : d.mag % Double.one_units = 0
    · obtain ⟨m, hmag⟩ : ∃ m, d.mag = m * Double.one_units :=
        ⟨d.mag / Double.one_units, (Nat.div_mul_cancel (Nat.dvd_of_mod_eq_zero hm)).symm⟩
      have hdiv : d.mag / Double.one_units = m := by
        rw [hmag, Nat.mul_div_cancel _ Double.one_units_pos]
      have hz : d.mag = 0 ↔ m = 0 := by
        rw [hmag]
        constructor
        · intro hc
          rcases Nat.mul_eq_zero.1 hc with hc | hc
          · exact hc
          · have := Double.one_units_pos; omega
        · intro hc; rw [hc, Nat.zero_mul]
      have hle : ∀ c, d.mag ≤ c * Double.one_units ↔ m ≤ c := by
        intro c
        rw [hmag]
        exact ⟨fun hc => Nat.le_of_mul_le_mul_right hc Double.one_units_pos, fun hc => Nat.mul_le_mul_right _ hc⟩
      by_cases hs : d.sign = true
      · by_cases hb : m ≤ 4294967296 ∧ m ≠ 0
        · have hf : d.fast = true := by
            simp [Double.fast, hfin, hm, hs, hz, hdiv, hb.1, hb.2]
          have hc := Double.to_uint32_sub_cm1 d hfin hs m hmag (by omega) hb.1
          simp [hf, hs, hm, hz, hle, hb.1, hb.2, hdiv, duk__cbor_encode_uint32_cast, hc]
        · have hf : d.fast = false := by
            simp [Double.fast, hfin, hm, hs, hz, hdiv]
            omega
          by_cases hm0 : m = 0
          · simp [hf, hs, hm, hz, hm0]
          · have : ¬ m ≤ 4294967296 := by omega
            simp [hf, hs, hm, hz, hm0, hle, this]
      · have hs2 : d.sign = false := by simpa using hs
        by_cases hb : m ≤ 4294967295
        · have hf : d.fast = true := by
            simp [Double.fast, hfin, hm, hs2, hdiv, hb]
          have hc := Double.to_uint32_nonneg d hfin hs2 (by rw [hdiv]; exact hb)
          simp [hf, hs2, hm, hle, hb, hdiv, duk__cbor_encode_uint32_cast, hc]
        · have hf : d.fast = false := by
            simp [Double.fast, hfin, hm, hs2, hdiv, hb]
          simp [hf, hs2, hm, hle, hb]
    · have hf : d.fast = false := by simp [Double.fast, hfin, hm]
      simp [hf, hm]

/-! ## The steps of the encoder -/

theorem sim_emitbyte (h : Host) (fuel : Nat) (hfuel : h.size_bits ≤ fuel) (v : Nat)
    (work : ValStack) :
    Sim h (fun e => duk__cbor_encode_emitbyte h fuel e v) ([v % 256], true) work work :=
  sim_reserve_store h fuel hfuel [v % 256] work

theorem sim_uint32 (h : Host) (fuel : Nat) (hfuel : h.size_bits ≤ fuel) (u base : Nat)
    (work : ValStack) :
    Sim h (fun e => duk__cbor_encode_uint32 h fuel e u base) (uint32_bytes u base, true)
      work work := by
  unfold duk__cbor_encode_uint32 uint32_bytes
  by_cases h1 : u ≤ 23
  · simp only [h1, if_true]
    exact sim_emitbyte h fuel hfuel _ work
  · by_cases h2 : u ≤ 0xff
    · simp only [h1, h2, if_true, if_false]
      exact sim_reserve_store h fuel hfuel _ work
    · by_cases h3 : u ≤ 0xffff
      · simp only [h1, h2, h3, if_true, if_false]
        exact sim_reserve_store h fuel hfuel _ work
      · simp only [h1, h2, h3, if_false]
        exact sim_reserve_store h fuel hfuel _ work

theorem sim_double (h : Host) (fuel : Nat) (hfuel : h.size_bits ≤ fuel) (d : Double)
    (work : ValStack) :
    Sim h (fun e => duk__cbor_encode_double h fuel e d) (double_bytes h d, true) work work := by
  refine sim_congr h (fun e => encode_double_eq h fuel e d) ?_
  unfold double_bytes
  by_cases hf : d.fast = true
  · by_cases hs : d.sign = true
    · simp only [hf, hs, if_true]
      exact sim_uint32 h fuel hfuel _ _ work
    · simp only [hf, hs, if_true, if_false]
      exact sim_uint32 h fuel hfuel _ _ work
  · simp only [hf, if_false]
    exact sim_reserve_store h fuel hfuel _ work

theorem sim_encode_bytes (h : Host) (fuel : Nat) (hfuel : h.size_bits ≤ fuel)
    (bytes : List Nat) (base : Nat) (work : ValStack) :
    Sim h (fun e => encode_bytes h fuel e bytes base) (walk_bytes bytes base) work work := by
  unfold encode_bytes walk_bytes
  by_cases hl : bytes.length ≠ bytes.length % 2 ^ 32
  · simp only [if_pos hl]
    exact sim_fail h work work
  · simp only [if_neg hl]
    exact sim_seq h (sim_uint32 h fuel hfuel _ base work) (sim_reserve_store h fuel hfuel bytes work)


theorem sim_walk_eq (h : Host) {f : duk_cbor_encode_context → Res duk_cbor_encode_context}
    {w w1 : Walk} {work work1 : ValStack} (hs : Sim h f w work work1) (hw : w = w1) :
    Sim h f w1 work work1 := hw ▸ hs

theorem seq_nil_left (w : Walk) : Walk.seq ([], true) w = w := by
  simp [Walk.seq]

theorem seq_nil_right (w : Walk) : Walk.seq w ([], true) = w := by
  rcases w with ⟨b, fl⟩
  cases fl <;> simp [Walk.seq]

theorem sim_push (h : Host) (s : Slot) (work : ValStack) :
    Sim h (fun e => .ok { e with ctx := e.ctx ++ [s] }) ([], true) work (work ++ [s]) := by
  refine sim_congr h (fun e => rfl) (sim_stack h (fun st => .ok (st ++ [s])) work (work ++ [s]) ?_)
  intro pre b
  simp

theorem sim_then_pop (h : Host) {f : duk_cbor_encode_context → Res duk_cbor_encode_context}
    {w : Walk} (work : ValStack) (s : Slot) (hf : Sim h f w (work ++ [s]) (work ++ [s])) :
    Sim h (fun e => f e >>= pop) w (work ++ [s]) work :=
  sim_walk_eq h (sim_seq h hf (sim_pop h work s)) (seq_nil_right w)

theorem duk_next_insert (st : ValStack) (p : List (Value × Value)) (k v : Value)
    (rest : List (Value × Value)) :
    (duk_next_some (st ++ [.enum p]) k v rest >>= fun ctx => duk_insert_m2 ctx) =
      .ok (st ++ [.enum rest] ++ [.val v] ++ [.val k]) := by
  simp [duk_next_some, duk_insert_m2, ok_bind]


theorem sim_next_insert (h : Host) (work : ValStack) (k v : Value)
    (rest : List (Value × Value)) :
    Sim h (fun e => (duk_next_some e.ctx k v rest >>= fun ctx => duk_insert_m2 ctx) >>=
        fun ctx => .ok { e with ctx := ctx }) ([], true)
      (work ++ [.enum ((k, v) :: rest)]) (work ++ [.enum rest] ++ [.val v] ++ [.val k]) := by
  refine sim_stack h (fun st => duk_next_some st k v rest >>= fun ctx => duk_insert_m2 ctx)
    _ _ ?_
  intro pre b
  have := duk_next_insert (pre ++ b :: work) ((k, v) :: rest) k v rest
  simpa using this

mutual

theorem sim_value (h : Host) (fuel : Nat) (hfuel : h.size_bits ≤ fuel) :
    ∀ (v : Value) (work : ValStack),
      Sim h (encode_value_at h fuel v) (walk h v) (work ++ [.val v]) work
  | .undefined, work => by
    refine sim_congr h (fun e => by rw [encode_value_at]) ?_
    rw [walk]
    exact sim_then_pop h work _ (sim_emitbyte h fuel hfuel 0xf7 _)
  | .null, work => by
    refine sim_congr h (fun e => by rw [encode_value_at]) ?_
    rw [walk]
    exact sim_then_pop h work _ (sim_emitbyte h fuel hfuel 0xf6 _)
  | .boolean b, work => by
    refine sim_congr h (fun e => by rw [encode_value_at]) ?_
    rw [walk]
    refine sim_then_pop h work _ (sim_walk_eq h (sim_emitbyte h fuel hfuel _ _) ?_)
    cases b <;> rfl
  | .number d, work => by
    refine sim_congr h (fun e => by rw [encode_value_at]) ?_
    rw [walk]
    exact sim_then_pop h work _ (sim_double h fuel hfuel d _)
  | .string bytes, work => by
    refine sim_congr h (fun e => by rw [encode_value_at]) ?_
    rw [walk]
    exact sim_then_pop h work _ (sim_encode_bytes h fuel hfuel bytes 0x60 _)
  | .array elems, work => by
    refine sim_congr h (fun e => by rw [encode_value_at]) ?_
    rw [walk]
    by_cases hl : elems.length ≠ elems.length % 2 ^ 32
    · simp only [if_pos hl]
      exact sim_fail h _ _
    · simp only [if_neg hl]
      refine sim_walk_eq h (sim_seq h (sim_uint32 h fuel hfuel _ 0x80 _)
        (sim_seq h (sim_array_loop h fuel hfuel elems (work ++ [.val (.array elems)]))
          (sim_pop h work _))) ?_
      rw [seq_nil_right]
  | .bufobj bytes, work => by
    refine sim_congr h (fun e => by rw [encode_value_at]) ?_
    rw [walk]
    exact sim_then_pop h work _ (sim_encode_bytes h fuel hfuel bytes 0x40 _)
  | .object props, work => by
    refine sim_congr h (fun e => by rw [encode_value_at]) ?_
    rw [walk]
    have hloop := sim_seq h (sim_push h (.enum props) (work ++ [.val (.object props)]))
      (sim_map_loop h fuel hfuel props (work ++ [.val (.object props)]))
    rw [seq_nil_left] at hloop
    have htail := sim_seq h (sim_pop h (work ++ [.val (.object props)]) (.enum []))
      (sim_then_pop h work _ (sim_emitbyte h fuel hfuel 0xff (work ++ [.val (.object props)])))
    rw [seq_nil_left] at htail
    exact sim_seq h (sim_emitbyte h fuel hfuel (0xa0 + 0x1f) _) (sim_seq h hloop htail)
  | .buffer bytes, work => by
    refine sim_congr h (fun e => by rw [encode_value_at]) ?_
    rw [walk]
    exact sim_then_pop h work _ (sim_encode_bytes h fuel hfuel bytes 0x40 _)
  | .pointer _, work => by
    refine sim_congr h (fun e => by rw [encode_value_at]) ?_
    rw [walk]
    exact sim_then_pop h work _ (sim_emitbyte h fuel hfuel 0xf7 _)
  | .lightfunc _, work => by
    refine sim_congr h (fun e => by rw [encode_value_at]) ?_
    rw [walk]
    exact sim_then_pop h work _ (sim_emitbyte h fuel hfuel (0xa0 + 0) _)
  | .unknown _, work => by
    refine sim_congr h (fun e => by rw [encode_value_at]) ?_
    rw [walk]
    exact sim_fail h _ _

theorem sim_array_loop (h : Host) (fuel : Nat) (hfuel : h.size_bits ≤ fuel) :
    ∀ (elems : List Value) (work : ValStack),
      Sim h (encode_array_loop h fuel elems) (walk_array h elems) work work
  | [], work => by
    refine sim_congr h (fun e => by rw [encode_array_loop]) ?_
    rw [walk_array]
    have := sim_stack h (fun st => .ok st) work work (fun _ _ => rfl)
    exact sim_congr h (fun e => rfl) this
  | x :: rest, work => by
    refine sim_congr h (fun e => by rw [encode_array_loop]) ?_
    rw [walk_array]
    have h1 := sim_seq h (sim_push h (.val x) work) (sim_value h fuel hfuel x work)
    rw [seq_nil_left] at h1
    exact sim_seq h h1 (sim_array_loop h fuel hfuel rest work)

theorem sim_map_loop (h : Host) (fuel : Nat) (hfuel : h.size_bits ≤ fuel) :
    ∀ (props : List (Value × Value)) (work : ValStack),
      Sim h (encode_map_loop h fuel props) (walk_map h props) (work ++ [.enum props])
        (work ++ [.enum []])
  | [], work => by
    refine sim_congr h (fun e => by rw [encode_map_loop]) ?_
    rw [walk_map]
    have := sim_stack h (fun st => .ok st) (work ++ [.enum []]) (work ++ [.enum []])
      (fun _ _ => rfl)
    exact sim_congr h (fun e => rfl) this
  | (k, v) :: rest, work => by
    refine sim_congr h (fun e => by rw [encode_map_loop]) ?_
    rw [walk_map]
    have h1 := sim_seq h (sim_next_insert h work k v rest)
      (sim_seq h (sim_value h fuel hfuel k (work ++ [.enum rest] ++ [.val v]))
        (sim_seq h (sim_value h fuel hfuel v (work ++ [.enum rest]))
          (sim_map_loop h fuel hfuel rest work)))
    rw [seq_nil_left] at h1
    refine sim_congr h (fun e => ?_) h1
    cases hn : duk_next_some e.ctx k v rest with
    | error err => rfl
    | ok ctx =>
      cases hi : duk_insert_m2 ctx with
      | error err => simp [hn, hi, ok_bind, error_bind]
      | ok ctx2 => simp [hn, hi, ok_bind]

end

/-! ## The top-level call -/

theorem grow_is_pow_aux (need : Nat) : ∀ (m j : Nat), need - 2 ^ j = m →
    ∃ k, j ≤ k ∧ grow (2 ^ j) need = 2 ^ k := by
  intro m
  induction m using Nat.strong_induction_on with
  | _ m ih =>
    intro j hm
    by_cases hlt : 2 ^ j < need
    · rw [grow_of_lt hlt (Nat.two_pow_pos j), ← Nat.pow_succ]
      have hj : 2 ^ (j + 1) = 2 ^ j * 2 := by rw [Nat.pow_succ]
      have hpos := Nat.two_pow_pos j
      obtain ⟨k, hk1, hk2⟩ := ih (need - 2 ^ (j + 1)) (by omega) (j + 1) rfl
      exact ⟨k, by omega, hk2⟩
    · rw [grow_of_le (by omega)]
      exact ⟨j, Nat.le_refl _, rfl⟩

theorem grow_is_pow (need j : Nat) : ∃ k, j ≤ k ∧ grow (2 ^ j) need = 2 ^ k :=
  grow_is_pow_aux need _ j rfl

theorem size_bits_pos (h : Host) : 16 ≤ h.size_bits := h.size_bits_ge

theorem half_size_lt (h : Host) : 2 ^ (h.size_bits - 1) < h.size_mod := by
  have := h.size_bits_ge
  exact Nat.pow_lt_pow_right (by decide) (by omega)

theorem grow64_lt_iff (h : Host) (need : Nat) :
    grow 64 need < h.size_mod ↔ need ≤ 2 ^ (h.size_bits - 1) := by
  have hw := h.size_bits_ge
  have h64 : (64 : Nat) = 2 ^ 6 := by decide
  constructor
  · intro hlt
    obtain ⟨k, _, hk⟩ := grow_is_pow need 6
    rw [← h64] at hk
    rw [hk] at hlt
    have hk2 : k < h.size_bits := (Nat.pow_lt_pow_iff_right (by decide)).1 hlt
    have h1 := need_le_grow 64 need (by decide)
    rw [hk] at h1
    exact Nat.le_trans h1 (Nat.pow_le_pow_right (by decide) (by omega))
  · intro hle
    have := grow_pow (show 6 < h.size_bits by omega) hle
    rw [← h64] at this
    exact Nat.lt_of_le_of_lt this (half_size_lt h)


theorem normalize_lt (ctx : ValStack) (idx : Int) (i : Nat)
    (hidx : duk_require_normalize_index ctx idx = .ok i) : i < ctx.length := by
  unfold duk_require_normalize_index at hidx
  split at hidx
  · split at hidx
    · injection hidx with hidx; omega
    · cases hidx
  · split at hidx
    · injection hidx with hidx; omega
    · cases hidx

theorem start_canon (ctx : ValStack) (s : Slot) :
    ({ ctx := duk_push_dynamic_buffer ctx 64 ++ [s], idx_buf := duk_get_top ctx, len := 64,
        off := 0 } : duk_cbor_encode_context) = canon ctx [s] [] 64 := by
  simp [canon, duk_push_dynamic_buffer, duk_get_top]

theorem finish_canon (ctx : ValStack) (bs : List Nat) (cap i : Nat) (hi : i < ctx.length) :
    (duk_resize_buffer (canon ctx [] bs cap).ctx (canon ctx [] bs cap).idx_buf
        (canon ctx [] bs cap).off >>= fun c => duk_replace c i) =
      .ok (ctx.set i (.val (.buffer bs))) := by
  simp only [canon, duk_resize_buffer, get_mid, set_mid, ok_bind]
  have h1 : List.take bs.length (bs ++ List.replicate (cap - bs.length) 0) = bs := by
    rw [List.take_left]
  have h2 : bs.length - (bs ++ List.replicate (cap - bs.length) 0).length = 0 := by
    simp
  rw [h1, h2]
  simp only [List.replicate_zero, List.append_nil, duk_replace]
  simp [hi, List.set_append_left, Nat.lt_succ_of_lt hi]

theorem duk_cbor_encode_spec (h : Host) (fuel : Nat) (hfuel : h.size_bits ≤ fuel)
    (ctx : ValStack) (idx : Int) (flags : Nat) (i : Nat) (v : Value)
    (hidx : duk_require_normalize_index ctx idx = .ok i) (hv : ctx.get? i = some (.val v)) :
    ((walk h v).1.length ≤ 2 ^ (h.size_bits - 1) →
      duk_cbor_encode h fuel ctx idx flags =
        if (walk h v).2 then .ok (ctx.set i (.val (.buffer (walk h v).1)))
        else .error .type_invalid_type) ∧
    (¬ (walk h v).1.length ≤ 2 ^ (h.size_bits - 1) →
      duk_cbor_encode h fuel ctx idx flags = .error .range_too_large ∨
      (h.size_mod ≤ (walk h v).1.length ∧
        duk_cbor_encode h fuel ctx idx flags = .error .undefined_behaviour)) := by
  have hi := normalize_lt ctx idx i hidx
  have hdup : duk_dup (duk_push_dynamic_buffer ctx 64) i =
      .ok (duk_push_dynamic_buffer ctx 64 ++ [.val v]) := by
    unfold duk_dup
    have : (duk_push_dynamic_buffer ctx 64).get? i = some (.val v) := by
      rw [duk_push_dynamic_buffer, List.get?_eq_getElem?, List.getElem?_append_left hi,
        ← List.get?_eq_getElem?]
      exact hv
    rw [this]
  have htop : ∀ e : duk_cbor_encode_context, e.ctx = duk_push_dynamic_buffer ctx 64 ++ [.val v] →
      duk__cbor_encode_value h fuel e = encode_value_at h fuel v e := by
    intro e he
    unfold duk__cbor_encode_value
    rw [he]
    simp
  have hsim := sim_value h fuel hfuel v [] ctx [] 64 (by decide) (by simp)
    (by have := half_size_lt h
        have := Nat.pow_le_pow_right (show 0 < 2 by decide) (show 6 ≤ h.size_bits - 1 by
          have := h.size_bits_ge; omega)
        omega)
  simp only [List.length_nil, Nat.zero_add, List.nil_append, grow64_lt_iff] at hsim
  have hunf : duk_cbor_encode h fuel ctx idx flags =
      (encode_value_at h fuel v (canon ctx [.val v] [] 64) >>= fun e =>
        duk_resize_buffer e.ctx e.idx_buf e.off >>= fun c => duk_replace c i) := by
    unfold duk_cbor_encode
    simp only [hidx, ok_bind, hdup]
    rw [htop _ rfl, start_canon]
  rw [hunf]
  constructor
  · intro hfit
    rw [hsim.1 hfit]
    by_cases hfl : (walk h v).2 = true
    · simp only [hfl, if_true, ok_bind]
      exact finish_canon ctx _ _ i hi
    · simp only [hfl, if_false, Bool.false_eq_true]
      rfl
  · intro hfit
    rcases hsim.2 hfit with hx | ⟨hy, hx⟩
    · left; rw [hx]; rfl
    · right; refine ⟨hy, ?_⟩; rw [hx]; rfl

theorem encode_call_spec (h : Host) (fuel : Nat) (hfuel : h.size_bits ≤ fuel)
    (below : ValStack) (v : Value) :
    ((walk h v).1.length ≤ 2 ^ (h.size_bits - 1) →
      encode_call h fuel below v =
        if (walk h v).2 then .ok (walk h v).1 else .error .type_invalid_type) ∧
    (¬ (walk h v).1.length ≤ 2 ^ (h.size_bits - 1) →
      encode_call h fuel below v = .error .range_too_large ∨
      (h.size_mod ≤ (walk h v).1.length ∧
        encode_call h fuel below v = .error .undefined_behaviour)) := by
  have hidx : duk_require_normalize_index (below ++ [.val v]) (-1) = .ok below.length := by
    simp [duk_require_normalize_index]
  have hv : (below ++ [Slot.val v]).get? below.length = some (.val v) := get_mid below [] _
  obtain ⟨h1, h2⟩ := duk_cbor_encode_spec h fuel hfuel (below ++ [.val v]) (-1) 0 below.length v
    hidx hv
  unfold encode_call
  constructor
  · intro hfit
    rw [h1 hfit]
    by_cases hfl : (walk h v).2 = true
    · simp only [hfl, if_true, ok_bind]
      simp [duk_require_buffer_data]
    · simp only [hfl, if_false, Bool.false_eq_true]
      rfl
  · intro hfit
    rcases h2 hfit with hx | ⟨hy, hx⟩
    · left; rw [hx]; rfl
    · right; refine ⟨hy, ?_⟩; rw [hx]; rfl

/-! ## Heads -/

theorem shift_and_byte (u k : Nat) : ((u >>> k) &&& 0xff) % 256 = u / 2 ^ k % 256 := by
  have h255 : (0xff : Nat) = 2 ^ 8 - 1 := by decide
  rw [h255, Nat.and_pow_two_sub_one_eq_mod, Nat.shiftRight_eq_div_pow]
  have : (2 : Nat) ^ 8 = 256 := by decide
  rw [this, Nat.mod_mod]

theorem and_byte (u : Nat) : (u &&& 0xff) % 256 = u % 256 := by
  have h255 : (0xff : Nat) = 2 ^ 8 - 1 := by decide
  rw [h255, Nat.and_pow_two_sub_one_eq_mod]
  have : (2 : Nat) ^ 8 = 256 := by decide
  rw [this, Nat.mod_mod]

theorem uint32_bytes_eq_head (base u : Nat) (hb : base ≤ 224) :
    uint32_bytes u base = Spec.head base u := by
  unfold uint32_bytes Spec.head
  by_cases h1 : u ≤ 23
  · rw [if_pos h1, if_pos h1]
    congr 1
    omega
  · rw [if_neg h1, if_neg h1]
    by_cases h2 : u ≤ 0xff
    · rw [if_pos h2, if_pos h2]
      have e1 : (base + 0x18) % 256 = base + 24 := by omega
      have e2 : u % 256 = u := by omega
      rw [e1, e2]
    · rw [if_neg h2, if_neg h2]
      by_cases h3 : u ≤ 0xffff
      · rw [if_pos h3, if_pos h3]
        have e1 : (base + 0x19) % 256 = base + 25 := by omega
        rw [e1, shift_and_byte, and_byte]
        simp [big_endian, List.range_succ]
      · rw [if_neg h3, if_neg h3]
        have e1 : (base + 0x1a) % 256 = base + 26 := by omega
        rw [e1, shift_and_byte, shift_and_byte, shift_and_byte, and_byte]
        simp [big_endian, List.range_succ]

theorem uint32_bytes_length (base u : Nat) :
    (uint32_bytes u base).length =
      if u ≤ 23 then 1 else if u ≤ 0xff then 2 else if u ≤ 0xffff then 3 else 5 := by
  unfold uint32_bytes
  split
  · rfl
  · split
    · rfl
    · split <;> rfl

theorem uint32_bytes_length_le (base u : Nat) : (uint32_bytes u base).length ≤ 5 := by
  rw [uint32_bytes_length]
  split
  · decide
  · split
    · decide
    · split <;> decide

theorem small_fits (h : Host) (n : Nat) (hn : n ≤ 32768) : n ≤ 2 ^ (h.size_bits - 1) := by
  have := h.size_bits_ge
  have h2 : (2 : Nat) ^ 15 ≤ 2 ^ (h.size_bits - 1) :=
    Nat.pow_le_pow_right (by decide) (by omega)
  have h3 : (2 : Nat) ^ 15 = 32768 := by decide
  omega

theorem encode_call_ok (h : Host) (fuel : Nat) (hfuel : h.size_bits ≤ fuel) (below : ValStack)
    (v : Value) (bs : List Nat) (hw : walk h v = (bs, true))
    (hlen : bs.length ≤ 2 ^ (h.size_bits - 1)) : encode_call h fuel below v = .ok bs := by
  have := (encode_call_spec h fuel hfuel below v).1
  rw [hw] at this
  exact this hlen

theorem encode_call_ok_iff (h : Host) (fuel : Nat) (hfuel : h.size_bits ≤ fuel)
    (below : ValStack) (v : Value) (bs : List Nat) :
    encode_call h fuel below v = .ok bs ↔
      (walk h v = (bs, true) ∧ bs.length ≤ 2 ^ (h.size_bits - 1)) := by
  constructor
  · intro hok
    obtain ⟨h1, h2⟩ := encode_call_spec h fuel hfuel below v
    by_cases hfit : (walk h v).1.length ≤ 2 ^ (h.size_bits - 1)
    · rw [h1 hfit] at hok
      rcases hwv : walk h v with ⟨b, fl⟩
      rw [hwv] at hok hfit
      cases fl with
      | false => cases hok
      | true =>
        simp only [if_true] at hok
        injection hok with hok
        subst hok
        exact ⟨rfl, hfit⟩
    · rcases h2 hfit with hx | ⟨_, hx⟩ <;> rw [hx] at hok <;> cases hok
  · rintro ⟨hw, hlen⟩
    exact encode_call_ok h fuel hfuel below v bs hw hlen


/-! ## Integral doubles -/

theorem mag_eq_zero_iff (d : Double) : d.mag = 0 ↔ d.expo.val = 0 ∧ d.frac.val = 0 := by
  unfold Double.mag
  have hp : 0 < 2 ^ (d.expo.val - 1) := Nat.two_pow_pos _
  constructor
  · intro hm
    rcases Nat.mul_eq_zero.1 hm with hc | hc
    · split at hc
      · exact ⟨by assumption, hc⟩
      · omega
    · omega
  · rintro ⟨h1, h2⟩
    rw [if_pos h1, h2, Nat.zero_mul]

theorem eq_neg_zero (d : Double) (hs : d.sign = true) (hm : d.mag = 0) :
    d = Double.neg_zero := by
  obtain ⟨h1, h2⟩ := (mag_eq_zero_iff d).1 hm
  rcases d with ⟨s, e, f⟩
  simp only at hs h1 h2
  subst hs
  have he : e = ⟨0, by decide⟩ := Fin.ext h1
  have hf : f = ⟨0, by decide⟩ := Fin.ext h2
  subst he hf
  decide

theorem has_value_nonneg (d : Double) (n : Nat) (hv : d.has_value (n : Int))
    (hnz : d ≠ Double.neg_zero) :
    d.expo.val ≠ 2047 ∧ d.sign = false ∧ d.mag = n * Double.one_units := by
  obtain ⟨hfin, hsc⟩ := hv
  have hfin2 : d.expo.val ≠ 2047 := by simpa [Double.isfinite] using hfin
  refine ⟨hfin2, ?_⟩
  unfold Double.scaled at hsc
  by_cases hs : d.sign = true
  · exfalso
    rw [if_pos hs] at hsc
    have hpos : (0 : Int) ≤ (n : Int) * (Double.one_units : Int) :=
      Int.mul_nonneg (Int.ofNat_nonneg _) (Int.ofNat_nonneg _)
    have : d.mag = 0 := by omega
    exact hnz (eq_neg_zero d hs this)
  · rw [if_neg hs] at hsc
    refine ⟨by simpa using hs, ?_⟩
    exact_mod_cast hsc

theorem has_value_neg (d : Double) (z : Int) (hv : d.has_value z) (hz : z < 0) :
    d.expo.val ≠ 2047 ∧ d.sign = true ∧ d.mag = z.natAbs * Double.one_units := by
  obtain ⟨hfin, hsc⟩ := hv
  have hfin2 : d.expo.val ≠ 2047 := by simpa [Double.isfinite] using hfin
  refine ⟨hfin2, ?_⟩
  have hSpos : (0 : Int) < (Double.one_units : Int) := by
    exact_mod_cast Double.one_units_pos
  have hneg : z * (Double.one_units : Int) < 0 := Int.mul_neg_of_neg_of_pos hz hSpos
  have hzabs : z = -(z.natAbs : Int) := by omega
  unfold Double.scaled at hsc
  by_cases hs : d.sign = true
  · rw [if_pos hs] at hsc
    refine ⟨hs, ?_⟩
    have h2 : (d.mag : Int) = (z.natAbs : Int) * (Double.one_units : Int) := by
      rw [hzabs] at hsc
      rw [Int.neg_mul] at hsc
      omega
    exact_mod_cast h2
  · rw [if_neg hs] at hsc
    omega

theorem fast_of_nonneg (d : Double) (n : Nat) (hfin : d.expo.val ≠ 2047) (hs : d.sign = false)
    (hm : d.mag = n * Double.one_units) (hn : n ≤ 4294967295) :
    d.fast = true ∧ d.mag / Double.one_units = n := by
  have hdiv : d.mag / Double.one_units = n := by
    rw [hm, Nat.mul_div_cancel _ Double.one_units_pos]
  have hmod : d.mag % Double.one_units = 0 := by
    rw [hm]; exact Nat.mul_mod_left _ _
  refine ⟨?_, hdiv⟩
  simp [Double.fast, hfin, hs, hmod, hdiv, hn]

theorem fast_of_neg (d : Double) (m : Nat) (hfin : d.expo.val ≠ 2047) (hs : d.sign = true)
    (hm : d.mag = m * Double.one_units) (h1 : 1 ≤ m) (h2 : m ≤ 4294967296) :
    d.fast = true ∧ d.mag / Double.one_units = m := by
  have hdiv : d.mag / Double.one_units = m := by
    rw [hm, Nat.mul_div_cancel _ Double.one_units_pos]
  have hmod : d.mag % Double.one_units = 0 := by
    rw [hm]; exact Nat.mul_mod_left _ _
  have hne : d.mag ≠ 0 := by
    rw [hm]
    exact Nat.mul_ne_zero (by omega) Double.one_units_pos.ne'
  refine ⟨?_, hdiv⟩
  simp [Double.fast, hfin, hs, hmod, hdiv, h2, hne]

theorem encode_number_ok (h : Host) (fuel : Nat) (hfuel : h.size_bits ≤ fuel)
    (below : ValStack) (d : Double) :
    encode_call h fuel below (.number d) = .ok (double_bytes h d) := by
  apply encode_call_ok h fuel hfuel below
  · rw [walk]
  · apply small_fits
    unfold double_bytes
    split
    · split
      · exact Nat.le_trans (uint32_bytes_length_le _ _) (by decide)
      · exact Nat.le_trans (uint32_bytes_length_le _ _) (by decide)
    · simp [float_bytes]

theorem encode_nonneg_int (h : Host) (fuel : Nat) (hfuel : h.size_bits ≤ fuel)
    (below : ValStack) (d : Double) (n : Nat) (hv : d.has_value (n : Int))
    (hn : n ≤ 4294967295) (hnz : d ≠ Double.neg_zero) :
    encode_call h fuel below (.number d) = .ok (Spec.head 0x00 n) := by
  obtain ⟨hfin, hs, hm⟩ := has_value_nonneg d n hv hnz
  obtain ⟨hf, hdiv⟩ := fast_of_nonneg d n hfin hs hm hn
  rw [encode_number_ok h fuel hfuel, double_bytes, hf, hs, hdiv]
  simp only [if_true, Bool.false_eq_true, if_false]
  rw [uint32_bytes_eq_head _ _ (by decide)]

theorem encode_neg_int (h : Host) (fuel : Nat) (hfuel : h.size_bits ≤ fuel)
    (below : ValStack) (d : Double) (z : Int) (hv : d.has_value z)
    (hlo : -4294967296 ≤ z) (hz : z < 0) :
    encode_call h fuel below (.number d) = .ok (Spec.head 0x20 (-1 - z).toNat) ∧
      Double.to_uint32 (Double.sub Double.cm1 d) = some (-1 - z).toNat := by
  obtain ⟨hfin, hs, hm⟩ := has_value_neg d z hv hz
  obtain ⟨hf, hdiv⟩ := fast_of_neg d z.natAbs hfin hs hm (by omega) (by omega)
  have hmag : (-1 - z).toNat = z.natAbs - 1 := by omega
  constructor
  · rw [encode_number_ok h fuel hfuel, double_bytes, hf, hs, hdiv]
    simp only [if_true]
    rw [uint32_bytes_eq_head _ _ (by decide), hmag]
  · rw [hmag]
    exact Double.to_uint32_sub_cm1 d hfin hs z.natAbs hm (by omega) (by omega)

/-! ## Numbers (claims C1 to C4) -/

theorem head_explicit (base n : Nat) (hn : n ≤ 4294967295) :
    Spec.head base n =
      if n ≤ 23 then [base + n]
      else if n ≤ 255 then [base + 0x18, n]
      else if n ≤ 65535 then [base + 0x19, n / 256, n % 256]
      else [base + 0x1a, n / 16777216, n / 65536 % 256, n / 256 % 256, n % 256] := by
  unfold Spec.head
  split
  · rfl
  · split
    · rfl
    · split
      · simp [big_endian, List.range_succ]
        omega
      · simp [big_endian, List.range_succ]
        omega

theorem head_major (base n : Nat) (hb : base % 32 = 0) :
    ∃ b rest, Spec.head base n = b :: rest ∧ b / 32 = base / 32 := by
  unfold Spec.head
  split
  · exact ⟨_, _, rfl, by omega⟩
  · split
    · exact ⟨_, _, rfl, by omega⟩
    · split
      · exact ⟨_, _, rfl, by omega⟩
      · exact ⟨_, _, rfl, by omega⟩

/-- C1 (amended): for every finite integral double `v` with `0 <= v <= 4294967295`
other than negative zero, encoding the number `v` yields the minimal-length
unsigned-integer item of section 4.2 (major type 0): `[v]`, `[0x18, v]`,
`[0x19, hi, lo]` or `[0x1a]` followed by four big-endian bytes; in particular
for 0, 23, 24, 256 and 65536. -/
theorem encode_unsigned_integer (h : Host) (fuel : Nat) (hfuel : h.size_bits ≤ fuel)
    (below : ValStack) :
    (∀ (d : Double) (n : Nat), d.has_value (n : Int) → n ≤ 4294967295 →
      d ≠ Double.neg_zero →
      encode_call h fuel below (.number d) = .ok (Spec.head 0x00 n) ∧
      Spec.head 0x00 n =
        (if n ≤ 23 then [n]
         else if n ≤ 255 then [0x18, n]
         else if n ≤ 65535 then [0x19, n / 256, n % 256]
         else [0x1a, n / 16777216, n / 65536 % 256, n / 256 % 256, n % 256]) ∧
      ∃ b rest, Spec.head 0x00 n = b :: rest ∧ b / 32 = 0) ∧
    encode_call h fuel below (.number Double.zero) = .ok [0x00] ∧
    encode_call h fuel below (.number d_23) = .ok [0x17] ∧
    encode_call h fuel below (.number d_24) = .ok [0x18, 0x18] ∧
    encode_call h fuel below (.number d_256) = .ok [0x19, 0x01, 0x00] ∧
    encode_call h fuel below (.number d_65536) = .ok [0x1a, 0x00, 0x01, 0x00, 0x00] := by
  refine ⟨?_, ?_, ?_, ?_, ?_, ?_⟩
  · intro d n hv hn hnz
    refine ⟨encode_nonneg_int h fuel hfuel below d n hv hn hnz, ?_, head_major 0 n rfl⟩
    rw [head_explicit 0 n hn]
    simp
  · exact encode_nonneg_int h fuel hfuel below Double.zero 0 ⟨by decide, by decide⟩
      (by decide) (by decide)
  · exact encode_nonneg_int h fuel hfuel below d_23 23 ⟨by decide, by decide⟩
      (by decide) (by decide)
  · exact encode_nonneg_int h fuel hfuel below d_24 24 ⟨by decide, by decide⟩
      (by decide) (by decide)
  · exact encode_nonneg_int h fuel hfuel below d_256 256 ⟨by decide, by decide⟩
      (by decide) (by decide)
  · exact encode_nonneg_int h fuel hfuel below d_65536 65536 ⟨by decide, by decide⟩
      (by decide) (by decide)


/-- Witness of C1 at the double `256.0` on a 64-bit host. -/
theorem encode_unsigned_integer_witness :
    host64.size_bits ≤ 64 ∧ d_256.has_value ((256 : Nat) : Int) ∧ 256 ≤ 4294967295 ∧
      d_256 ≠ Double.neg_zero ∧
      encode_call host64 64 [] (.number d_256) = .ok [0x19, 0x01, 0x00] :=
  ⟨by decide, ⟨by decide, by decide⟩, by decide, by decide,
    ((encode_unsigned_integer host64 64 (by decide) []).1 d_256 256 ⟨by decide, by decide⟩
      (by decide) (by decide)).1⟩

/-- Counterexample to C1 as stated: negative zero is a finite integral double
with `0 <= v <= 4294967295`, and it encodes to the nine-byte float item, not
to `[0x00]`. -/
theorem encode_negative_zero_is_float :
    Double.neg_zero.has_value ((0 : Nat) : Int) ∧ (0 : Nat) ≤ 4294967295 ∧
      encode_call host64 64 [] (.number Double.neg_zero) =
        .ok [0xfb, 0x80, 0, 0, 0, 0, 0, 0, 0] ∧
      encode_call host64 64 [] (.number Double.neg_zero) ≠ .ok (Spec.head 0x00 0) := by
  have hb : double_bytes host64 Double.neg_zero = [0xfb, 0x80, 0, 0, 0, 0, 0, 0, 0] := by
    decide
  refine ⟨⟨by decide, by decide⟩, by decide, ?_, ?_⟩
  · rw [encode_number_ok host64 64 (by decide), hb]
  · rw [encode_number_ok host64 64 (by decide), hb]
    intro hc
    injection hc with hc
    revert hc
    decide

/-- C2: for every finite integral double `v` with `-4294967296 <= v < 0`,
encoding the number `v` yields the section-4.2 head with base `0x20` (major
type 1) and magnitude `m = -1 - v`; `m` lies in `[0, 4294967295]` and the cast of
`-1.0 - v` to `duk_uint32_t` is defined and equals `m`; `-1` encodes to
`[0x20]`. -/
theorem encode_negative_integer (h : Host) (fuel : Nat) (hfuel : h.size_bits ≤ fuel)
    (below : ValStack) :
    (∀ (d : Double) (z : Int), d.has_value z → -4294967296 ≤ z → z < 0 →
      encode_call h fuel below (.number d) = .ok (Spec.head 0x20 (-1 - z).toNat) ∧
      ((-1 - z).toNat : Int) = -1 - z ∧ (-1 - z).toNat ≤ 4294967295 ∧
      Double.to_uint32 (Double.sub Double.cm1 d) = some (-1 - z).toNat ∧
      ∃ b rest, Spec.head 0x20 (-1 - z).toNat = b :: rest ∧ b / 32 = 1) ∧
    encode_call h fuel below (.number Double.cm1) = .ok [0x20] := by
  constructor
  · intro d z hv hlo hz
    obtain ⟨h1, h2⟩ := encode_neg_int h fuel hfuel below d z hv hlo hz
    exact ⟨h1, by omega, by omega, h2, head_major 0x20 _ rfl⟩
  · exact (encode_neg_int h fuel hfuel below Double.cm1 (-1) ⟨by decide, by decide⟩
      (by decide) (by decide)).1

/-- Witness of C2 at the double `-24.0` on a 64-bit host. -/
theorem encode_negative_integer_witness :
    host64.size_bits ≤ 64 ∧ d_m24.has_value (-24) ∧ (-4294967296 : Int) ≤ -24 ∧
      (-24 : Int) < 0 ∧ encode_call host64 64 [] (.number d_m24) = .ok [0x37] := by
  refine ⟨by decide, ⟨by decide, by decide⟩, by decide, by decide, ?_⟩
  have hw := ((encode_negative_integer host64 64 (by decide) []).1 d_m24 (-24)
    ⟨by decide, by decide⟩ (by decide) (by decide)).1
  have e : (-1 - (-24 : Int)).toNat = 23 := by decide
  rw [e] at hw
  exact hw

theorem uint32_bytes_first (u base : Nat) (hb : base = 0 ∨ base = 0x20) :
    ∃ b rest, uint32_bytes u base = b :: rest ∧ rest.length ≤ 4 ∧ b < 0x40 ∧ b % 32 ≠ 27 := by
  unfold uint32_bytes
  by_cases h1 : u ≤ 23
  · rw [if_pos h1]
    refine ⟨_, _, rfl, by simp, ?_, ?_⟩ <;> rcases hb with hb | hb <;> subst hb <;> omega
  · rw [if_neg h1]
    by_cases h2 : u ≤ 0xff
    · rw [if_pos h2]
      refine ⟨_, _, rfl, by simp, ?_, ?_⟩ <;> rcases hb with hb | hb <;> subst hb <;> decide
    · rw [if_neg h2]
      by_cases h3 : u ≤ 0xffff
      · rw [if_pos h3]
        refine ⟨_, _, rfl, by simp, ?_, ?_⟩ <;> rcases hb with hb | hb <;> subst hb <;> decide
      · rw [if_neg h3]
        refine ⟨_, _, rfl, by simp, ?_, ?_⟩ <;> rcases hb with hb | hb <;> subst hb <;> decide

theorem double_bytes_cases (h : Host) (d : Double) :
    (d.fast = false ∧ ∃ p, double_bytes h d = 0xfb :: p ∧ p.length = 8) ∨
    (d.fast = true ∧ ∃ b rest, double_bytes h d = b :: rest ∧ rest.length ≤ 4 ∧ b < 0x40 ∧
      b % 32 ≠ 27) := by
  unfold double_bytes
  by_cases hf : d.fast = true
  · right
    refine ⟨hf, ?_⟩
    rw [if_pos hf]
    split
    · exact uint32_bytes_first _ _ (Or.inr rfl)
    · exact uint32_bytes_first _ _ (Or.inl rfl)
  · left
    have hf2 : d.fast = false := by simpa using hf
    refine ⟨hf2, ?_⟩
    rw [if_neg hf]
    exact ⟨_, rfl, rfl⟩

theorem has_value_mod (d : Double) (z : Int) (hv : d.has_value z) :
    d.mag % Double.one_units = 0 ∧ d.mag = z.natAbs * Double.one_units := by
  obtain ⟨_, hsc⟩ := hv
  have hmag : d.mag = z.natAbs * Double.one_units := by
    have h1 : d.scaled.natAbs = d.mag := by
      unfold Double.scaled
      split <;> simp
    rw [← h1, hsc, Int.natAbs_mul, Int.natAbs_ofNat]
  exact ⟨by rw [hmag]; exact Nat.mul_mod_left _ _, hmag⟩

theorem has_value_of_mod (d : Double) (hfin : d.expo.val ≠ 2047)
    (hm : d.mag % Double.one_units = 0) :
    d.has_value (if d.sign then -((d.mag / Double.one_units : Nat) : Int)
      else ((d.mag / Double.one_units : Nat) : Int)) := by
  have hmag : d.mag = d.mag / Double.one_units * Double.one_units :=
    (Nat.div_mul_cancel (Nat.dvd_of_mod_eq_zero hm)).symm
  refine ⟨by simp [Double.isfinite, hfin], ?_⟩
  unfold Double.scaled
  generalize d.mag / Double.one_units = q at hmag
  rw [hmag]
  split
  · push_cast; rw [Int.neg_mul]
  · push_cast; rfl

/-- The doubles off the integer fast path, in the words of the claim: NaN,
infinite, non-integral, negative zero, or integral but outside
`[-4294967296, 4294967295]`. -/
theorem not_fast_iff (d : Double) :
    d.fast = false ↔
      (d.isnan = true ∨ d.isinf = true ∨ (d.isfinite = true ∧ ¬ ∃ z, d.has_value z) ∨
        d = Double.neg_zero ∨
        ∃ z, d.has_value z ∧ (z < -4294967296 ∨ 4294967295 < z)) := by
  constructor
  · intro hf
    by_cases hfin : d.expo.val = 2047
    · by_cases hfr : d.frac.val = 0
      · right; left; simp [Double.isinf, hfin, hfr]
      · left; simp [Double.isnan, hfin, hfr]
    · by_cases hm : d.mag % Double.one_units = 0
      · have hv := has_value_of_mod d hfin hm
        by_cases hs : d.sign = true
        · by_cases hz : d.mag = 0
          · right; right; right; left
            exact eq_neg_zero d hs hz
          · right; right; right; right
            refine ⟨_, hv, ?_⟩
            left
            have : ¬ d.mag / Double.one_units ≤ 4294967296 := by
              intro hc
              simp [Double.fast, hfin, hm, hs, hz, hc] at hf
            rw [if_pos hs]
            omega
        · have hs2 : d.sign = false := by simpa using hs
          right; right; right; right
          refine ⟨_, hv, ?_⟩
          right
          have : ¬ d.mag / Double.one_units ≤ 4294967295 := by
            intro hc
            simp [Double.fast, hfin, hm, hs2, hc] at hf
          rw [if_neg hs]
          omega
      · right; right; left
        refine ⟨by simp [Double.isfinite, hfin], ?_⟩
        rintro ⟨z, hv⟩
        exact hm (has_value_mod d z hv).1
  · intro hd
    rcases hd with hd | hd | hd | hd | hd
    · have : d.expo.val = 2047 := by
        simp [Double.isnan] at hd; exact hd.1
      simp [Double.fast, this]
    · have : d.expo.val = 2047 := by
        simp [Double.isinf] at hd; exact hd.1
      simp [Double.fast, this]
    · obtain ⟨hfin, hno⟩ := hd
      have hfin2 : d.expo.val ≠ 2047 := by simpa [Double.isfinite] using hfin
      have hm : ¬ d.mag % Double.one_units = 0 := by
        intro hm
        exact hno ⟨_, has_value_of_mod d hfin2 hm⟩
      simp [Double.fast, hm]
    · subst hd
      decide
    · obtain ⟨z, hv, hz⟩ := hd
      have hfin2 : d.expo.val ≠ 2047 := by simpa [Double.isfinite] using hv.1
      rcases hz with hz | hz
      · obtain ⟨_, hs, hmag⟩ := has_value_neg d z hv (by omega)
        have hdiv : d.mag / Double.one_units = z.natAbs := by
          rw [hmag, Nat.mul_div_cancel _ Double.one_units_pos]
        have : ¬ z.natAbs ≤ 4294967296 := by omega
        simp [Double.fast, hs, hdiv, this]
      · have hz0 : z = ((z.toNat : Nat) : Int) := by omega
        rw [hz0] at hv
        have hnz : d ≠ Double.neg_zero := by
          intro hc
          subst hc
          have := (has_value_mod _ _ hv).2
          have h0 : Double.neg_zero.mag = 0 := by decide
          rw [h0] at this
          have hpos := Double.one_units_pos
          rcases Nat.mul_eq_zero.1 this.symm with hx | hx <;> omega
        obtain ⟨_, hs, hmag⟩ := has_value_nonneg d z.toNat hv hnz
        have hdiv : d.mag / Double.one_units = z.toNat := by
          rw [hmag, Nat.mul_div_cancel _ Double.one_units_pos]
        have : ¬ z.toNat ≤ 4294967295 := by omega
        simp [Double.fast, hs, hdiv, this]


/-- C3: a number encodes to the nine-byte float item (first byte `0xFB`) if and
only if it is NaN, infinite, non-integral, negative zero, or integral but
outside `[-4294967296, 4294967295]`; in every other case the output is an
integer item of major type 0 or 1 of at most five bytes; no output starts with
a 64-bit integer head (`0x1B` or `0x3B`); and `0.5`, NaN, `Infinity`, `-0.0`
and `4294967296` encode to nine bytes beginning with `0xFB`. -/
theorem float_item_iff (h : Host) (fuel : Nat) (hfuel : h.size_bits ≤ fuel)
    (below : ValStack) :
    (∀ d : Double,
      ((∃ p, encode_call h fuel below (.number d) = .ok (0xfb :: p) ∧ p.length = 8) ↔
        (d.isnan = true ∨ d.isinf = true ∨ (d.isfinite = true ∧ ¬ ∃ z, d.has_value z) ∨
          d = Double.neg_zero ∨
          ∃ z, d.has_value z ∧ (z < -4294967296 ∨ 4294967295 < z))) ∧
      (¬ (d.isnan = true ∨ d.isinf = true ∨ (d.isfinite = true ∧ ¬ ∃ z, d.has_value z) ∨
          d = Double.neg_zero ∨
          ∃ z, d.has_value z ∧ (z < -4294967296 ∨ 4294967295 < z)) →
        ∃ b rest, encode_call h fuel below (.number d) = .ok (b :: rest) ∧
          (b :: rest).length ≤ 5 ∧ b < 0x40) ∧
      (∀ out, encode_call h fuel below (.number d) = .ok out →
        out.head? ≠ some 0x1b ∧ out.head? ≠ some 0x3b)) ∧
    (∃ p, encode_call h fuel below (.number d_half) = .ok (0xfb :: p) ∧ p.length = 8) ∧
    (∃ p, encode_call h fuel below (.number Double.nan) = .ok (0xfb :: p) ∧ p.length = 8) ∧
    (∃ p, encode_call h fuel below (.number d_inf) = .ok (0xfb :: p) ∧ p.length = 8) ∧
    (∃ p, encode_call h fuel below (.number Double.neg_zero) = .ok (0xfb :: p) ∧
      p.length = 8) ∧
    (∃ p, encode_call h fuel below (.number d_4294967296) = .ok (0xfb :: p) ∧
      p.length = 8) := by
  have hfloat : ∀ d : Double, d.fast = false →
      ∃ p, encode_call h fuel below (.number d) = .ok (0xfb :: p) ∧ p.length = 8 := by
    intro d hf
    rcases double_bytes_cases h d with ⟨_, p, hp, hl⟩ | ⟨hf2, _⟩
    · exact ⟨p, by rw [encode_number_ok h fuel hfuel, hp], hl⟩
    · rw [hf] at hf2; cases hf2
  have hint : ∀ d : Double, d.fast = true →
      ∃ b rest, encode_call h fuel below (.number d) = .ok (b :: rest) ∧
        rest.length ≤ 4 ∧ b < 0x40 ∧ b % 32 ≠ 27 := by
    intro d hf
    rcases double_bytes_cases h d with ⟨hf2, _⟩ | ⟨_, b, rest, hb, hl, hlt, hne⟩
    · rw [hf] at hf2; cases hf2
    · exact ⟨b, rest, by rw [encode_number_ok h fuel hfuel, hb], hl, hlt, hne⟩
  refine ⟨?_, hfloat _ (by decide), hfloat _ (by decide), hfloat _ (by decide),
    hfloat _ (by decide), hfloat _ (by decide)⟩
  intro d
  refine ⟨?_, ?_, ?_⟩
  · rw [← not_fast_iff]
    constructor
    · rintro ⟨p, hp, _⟩
      by_contra hf
      have hf2 : d.fast = true := by simpa using hf
      obtain ⟨b, rest, hb, _, hlt, _⟩ := hint d hf2
      rw [hp] at hb
      injection hb with hb
      injection hb with hb1 hb2
      omega
    · exact hfloat d
  · intro hno
    rw [← not_fast_iff] at hno
    have hf2 : d.fast = true := by simpa using hno
    obtain ⟨b, rest, hb, hl, hlt, _⟩ := hint d hf2
    exact ⟨b, rest, hb, by simp; omega, hlt⟩
  · intro out hout
    by_cases hf : d.fast = true
    · obtain ⟨b, rest, hb, _, hlt, hne⟩ := hint d hf
      rw [hout] at hb
      injection hb with hb
      subst hb
      constructor <;> intro hc <;> simp at hc <;> omega
    · have hf2 : d.fast = false := by simpa using hf
      obtain ⟨p, hp, _⟩ := hfloat d hf2
      rw [hout] at hp
      injection hp with hp
      subst hp
      constructor <;> intro hc <;> simp at hc

/-- Witness of C3 on a 64-bit host at the double `23.0`, which is none of the
listed kinds and encodes to the one-byte integer item `[0x17]`. -/
theorem float_item_iff_witness :
    host64.size_bits ≤ 64 ∧
      ¬ (d_23.isnan = true ∨ d_23.isinf = true ∨
          (d_23.isfinite = true ∧ ¬ ∃ z, d_23.has_value z) ∨ d_23 = Double.neg_zero ∨
          ∃ z, d_23.has_value z ∧ (z < -4294967296 ∨ 4294967295 < z)) ∧
      encode_call host64 64 [] (.number d_23) = .ok [0x17] ∧
      (∃ b rest, encode_call host64 64 [] (.number d_23) = .ok (b :: rest) ∧
        (b :: rest).length ≤ 5 ∧ b < 0x40) ∧
      ([0x17] : List Nat).head? ≠ some 0x1b ∧ ([0x17] : List Nat).head? ≠ some 0x3b := by
  have hno : ¬ (d_23.isnan = true ∨ d_23.isinf = true ∨
      (d_23.isfinite = true ∧ ¬ ∃ z, d_23.has_value z) ∨ d_23 = Double.neg_zero ∨
      ∃ z, d_23.has_value z ∧ (z < -4294967296 ∨ 4294967295 < z)) := by
    rw [← not_fast_iff]
    decide
  have hok : encode_call host64 64 [] (.number d_23) = .ok [0x17] := by
    have hb : double_bytes host64 d_23 = [0x17] := by decide
    rw [encode_number_ok host64 64 (by decide), hb]
  have hw := (float_item_iff host64 64 (by decide) []).1 d_23
  exact ⟨by decide, hno, hok, hw.2.1 hno, hw.2.2 [0x17] hok⟩

/-! ### The float payload and the host byte order (claim C4) -/

theorem float_bytes_little (h : Host) (hle : h.big_endian = false) (d : Double) :
    float_bytes h d = 0xfb :: big_endian 8 d.bits := by
  simp [float_bytes, Double.union_x, hle, big_endian, List.range_succ, Double.byte]

theorem float_bytes_big (h : Host) (hbe : h.big_endian = true) (d : Double) :
    float_bytes h d = 0xfb :: (big_endian 8 d.bits).reverse := by
  simp [float_bytes, Double.union_x, hbe, big_endian, List.range_succ, Double.byte]

/-- The part of C4 that holds: on a host that stores doubles least significant
byte first, the eight bytes after `0xFB` are the bit pattern of the double most
significant byte first. -/
theorem float_payload_little_endian_host (h : Host) (fuel : Nat)
    (hfuel : h.size_bits ≤ fuel) (below : ValStack) (hle : h.big_endian = false)
    (d : Double) (hf : d.fast = false) :
    encode_call h fuel below (.number d) = .ok (0xfb :: big_endian 8 d.bits) := by
  rw [encode_number_ok h fuel hfuel, double_bytes, hf]
  simp only [Bool.false_eq_true, if_false]
  rw [float_bytes_little h hle d]

/-- On a host that stores doubles most significant byte first, the eight
bytes after `0xFB` are the bit pattern of the double least significant byte
first. -/
theorem float_payload_reversed (h : Host) (fuel : Nat) (hfuel : h.size_bits ≤ fuel)
    (below : ValStack) (hbe : h.big_endian = true) (d : Double) (hf : d.fast = false) :
    encode_call h fuel below (.number d) = .ok (0xfb :: (big_endian 8 d.bits).reverse) := by
  rw [encode_number_ok h fuel hfuel, double_bytes, hf]
  simp only [Bool.false_eq_true, if_false]
  rw [float_bytes_big h hbe d]

/-- C4 fails on a big-endian host.  For `0.5` (pattern `0x3FE0000000000000`)
the code emits `FB 00 00 00 00 00 00 E0 3F` there, while the pattern most
significant byte first is `3F E0 00 00 00 00 00 00`; on a little-endian host
the same call emits `FB 3F E0 00 00 00 00 00 00`. -/
theorem float_payload_big_endian_host :
    encode_call host64be 64 [] (.number d_half) = .ok [0xfb, 0, 0, 0, 0, 0, 0, 0xe0, 0x3f] ∧
      d_half.bits = 0x3FE0000000000000 ∧
      big_endian 8 d_half.bits = [0x3f, 0xe0, 0, 0, 0, 0, 0, 0] ∧
      encode_call host64 64 [] (.number d_half) =
        .ok [0xfb, 0x3f, 0xe0, 0, 0, 0, 0, 0, 0] := by
  have hb : double_bytes host64be d_half = [0xfb, 0, 0, 0, 0, 0, 0, 0xe0, 0x3f] := by decide
  have hl : double_bytes host64 d_half = [0xfb, 0x3f, 0xe0, 0, 0, 0, 0, 0, 0] := by decide
  refine ⟨?_, by decide, by decide, ?_⟩
  · rw [encode_number_ok host64be 64 (by decide), hb]
  · rw [encode_number_ok host64 64 (by decide), hl]

/-! ## Strings, buffers, arrays and maps (claims C5 to C8) -/

theorem walk_bytes_ok (bytes : List Nat) (base : Nat) (hb : base ≤ 224)
    (hl : bytes.length ≤ 4294967295) :
    walk_bytes bytes base = (Spec.head base bytes.length ++ bytes, true) := by
  have hmod : bytes.length % 2 ^ 32 = bytes.length := Nat.mod_eq_of_lt (by omega)
  unfold walk_bytes
  rw [hmod, if_neg (by simp), uint32_bytes_eq_head _ _ hb]

theorem walk_bytes_long (bytes : List Nat) (base : Nat) (hl : ¬ bytes.length ≤ 4294967295) :
    walk_bytes bytes base = ([], false) := by
  have hlt : bytes.length % 2 ^ 32 < 2 ^ 32 := Nat.mod_lt _ (by decide)
  unfold walk_bytes
  rw [if_pos (by omega)]

theorem head_length (base u : Nat) :
    (Spec.head base u).length =
      if u ≤ 23 then 1 else if u ≤ 0xFF then 2 else if u ≤ 0xFFFF then 3 else 5 := by
  unfold Spec.head
  split
  · rfl
  · split
    · rfl
    · split <;> simp [big_endian]

theorem head_length_le (base u : Nat) : (Spec.head base u).length ≤ 5 := by
  rw [head_length]
  split
  · decide
  · split
    · decide
    · split <;> decide

theorem walk_array_ok (h : Host) :
    ∀ (xs : List Value) (outs : List (List Nat)),
      List.Forall₂ (fun x o => walk h x = (o, true)) xs outs →
      walk_array h xs = (outs.flatten, true)
  | [], _, hall => by
    cases hall
    rw [walk_array]; rfl
  | x :: xs, _, hall => by
    cases hall with
    | cons hx hrest =>
      rw [walk_array, hx, walk_array_ok h xs _ hrest]
      simp [Walk.seq]

theorem walk_array_inv (h : Host) :
    ∀ (xs : List Value) (bs : List Nat), walk_array h xs = (bs, true) →
      ∃ outs, List.Forall₂ (fun x o => walk h x = (o, true)) xs outs ∧ bs = outs.flatten
  | [], bs, hw => by
    rw [walk_array] at hw
    injection hw with h1 _
    exact ⟨[], List.Forall₂.nil, by rw [← h1]; rfl⟩
  | x :: xs, bs, hw => by
    rw [walk_array] at hw
    rcases hx : walk h x with ⟨b1, f1⟩
    rcases hr : walk_array h xs with ⟨b2, f2⟩
    rw [hx, hr] at hw
    cases f1 with
    | false => simp [Walk.seq] at hw
    | true =>
      simp only [Walk.seq, if_true] at hw
      injection hw with h1 h2
      subst h2
      obtain ⟨outs, hall, hb2⟩ := walk_array_inv h xs b2 hr
      refine ⟨b1 :: outs, List.Forall₂.cons hx hall, ?_⟩
      rw [← h1, hb2]; rfl

theorem walk_map_ok (h : Host) :
    ∀ (ps : List (Value × Value)) (outs : List (List Nat × List Nat)),
      List.Forall₂ (fun p o => walk h p.1 = (o.1, true) ∧ walk h p.2 = (o.2, true)) ps outs →
      walk_map h ps = ((outs.map (fun o => o.1 ++ o.2)).flatten, true)
  | [], _, hall => by
    cases hall
    rw [walk_map]; rfl
  | (k, v) :: ps, _, hall => by
    cases hall with
    | cons hx hrest =>
      rw [walk_map, hx.1, hx.2, walk_map_ok h ps _ hrest]
      simp [Walk.seq]

theorem walk_map_inv (h : Host) :
    ∀ (ps : List (Value × Value)) (bs : List Nat), walk_map h ps = (bs, true) →
      ∃ outs : List (List Nat × List Nat), List.Forall₂
        (fun p o => walk h p.1 = (o.1, true) ∧ walk h p.2 = (o.2, true)) ps outs ∧
        bs = (outs.map (fun o => o.1 ++ o.2)).flatten
  | [], bs, hw => by
    rw [walk_map] at hw
    injection hw with h1 _
    exact ⟨[], List.Forall₂.nil, by rw [← h1]; rfl⟩
  | (k, v) :: ps, bs, hw => by
    rw [walk_map] at hw
    rcases hk : walk h k with ⟨b1, f1⟩
    rcases hv : walk h v with ⟨b2, f2⟩
    rcases hr : walk_map h ps with ⟨b3, f3⟩
    rw [hk, hv, hr] at hw
    cases f1 with
    | false => simp [Walk.seq] at hw
    | true =>
      cases f2 with
      | false => simp [Walk.seq] at hw
      | true =>
        simp only [Walk.seq, if_true] at hw
        injection hw with h1 h2
        subst h2
        obtain ⟨outs, hall, hb3⟩ := walk_map_inv h ps b3 hr
        refine ⟨(b1, b2) :: outs, List.Forall₂.cons ⟨hk, hv⟩ hall, ?_⟩
        rw [← h1, hb3]
        simp

theorem walk_array_value (h : Host) (xs : List Value) (hl : xs.length ≤ 4294967295) :
    walk h (.array xs) = Walk.seq (Spec.head 0x80 xs.length, true) (walk_array h xs) := by
  have hmod : xs.length % 2 ^ 32 = xs.length := Nat.mod_eq_of_lt (by omega)
  rw [walk, hmod, if_neg (by simp), uint32_bytes_eq_head _ _ (by decide)]


theorem encode_call_too_large (h : Host) (fuel : Nat) (hfuel : h.size_bits ≤ fuel)
    (below : ValStack) (v : Value) (bs : List Nat) (fl : Bool) (hw : walk h v = (bs, fl))
    (hbig : 2 ^ (h.size_bits - 1) < bs.length) (hsmall : bs.length < h.size_mod) :
    encode_call h fuel below v = .error .range_too_large := by
  have := (encode_call_spec h fuel hfuel below v).2
  rw [hw] at this
  rcases this (by simp only; omega) with hx | ⟨hy, _⟩
  · exact hx
  · simp only at hy; omega

theorem wide_host_fits (h : Host) (hw : 34 ≤ h.size_bits) (n : Nat) (hn : n ≤ 4294967295 + 5) :
    n ≤ 2 ^ (h.size_bits - 1) := by
  have h2 : (2 : Nat) ^ 33 ≤ 2 ^ (h.size_bits - 1) :=
    Nat.pow_le_pow_right (by decide) (by omega)
  have h3 : (2 : Nat) ^ 33 = 8589934592 := by decide
  omega

theorem encode_bytes_value (h : Host) (fuel : Nat) (hfuel : h.size_bits ≤ fuel)
    (below : ValStack) (v : Value) (b : List Nat) (base : Nat) (hb : base ≤ 224)
    (hv : walk h v = walk_bytes b base) (hl : b.length ≤ 4294967295)
    (hfit : (Spec.head base b.length).length + b.length ≤ 2 ^ (h.size_bits - 1)) :
    encode_call h fuel below v = .ok (Spec.head base b.length ++ b) := by
  apply encode_call_ok h fuel hfuel below
  · rw [hv, walk_bytes_ok b base hb hl]
  · simpa using hfit

/-- C7 (amended): on a host whose size type has `w` bits, for every byte
sequence `b` with `len(b) <= 2^32-1` and `len(b) + prefix_len <= 2^(w-1)` (every
such `b` when `w >= 34`), encoding a raw buffer holding `b`, of the plain kind
or of the buffer-object kind, yields the section-4.2 head with base `0x40` and
magnitude `len(b)` followed by the bytes of `b` unchanged; the output length is
`len(b) + prefix_len` with `prefix_len` 1, 2, 3 or 5. -/
theorem encode_buffer (h : Host) (fuel : Nat) (hfuel : h.size_bits ≤ fuel)
    (below : ValStack) :
    (∀ b : List Nat, b.length ≤ 4294967295 →
      (Spec.head 0x40 b.length).length + b.length ≤ 2 ^ (h.size_bits - 1) →
      encode_call h fuel below (.buffer b) = .ok (Spec.head 0x40 b.length ++ b) ∧
      encode_call h fuel below (.bufobj b) = .ok (Spec.head 0x40 b.length ++ b) ∧
      (Spec.head 0x40 b.length ++ b).length = b.length +
        (if b.length ≤ 23 then 1 else if b.length ≤ 0xFF then 2
         else if b.length ≤ 0xFFFF then 3 else 5)) ∧
    (34 ≤ h.size_bits → ∀ b : List Nat, b.length ≤ 4294967295 →
      encode_call h fuel below (.buffer b) = .ok (Spec.head 0x40 b.length ++ b) ∧
      encode_call h fuel below (.bufobj b) = .ok (Spec.head 0x40 b.length ++ b)) := by
  have key : ∀ b : List Nat, b.length ≤ 4294967295 →
      (Spec.head 0x40 b.length).length + b.length ≤ 2 ^ (h.size_bits - 1) →
      encode_call h fuel below (.buffer b) = .ok (Spec.head 0x40 b.length ++ b) ∧
      encode_call h fuel below (.bufobj b) = .ok (Spec.head 0x40 b.length ++ b) := by
    intro b hl hfit
    exact ⟨encode_bytes_value h fuel hfuel below _ b 0x40 (by decide) (by rw [walk]) hl hfit,
      encode_bytes_value h fuel hfuel below _ b 0x40 (by decide) (by rw [walk]) hl hfit⟩
  constructor
  · intro b hl hfit
    refine ⟨(key b hl hfit).1, (key b hl hfit).2, ?_⟩
    rw [List.length_append, head_length]
    omega
  · intro hw b hl
    have := head_length_le 0x40 b.length
    exact key b hl (wide_host_fits h hw _ (by omega))

/-- Witness of C7 on a 64-bit host at the three-byte buffer `01 02 03`. -/
theorem encode_buffer_witness :
    host64.size_bits ≤ 64 ∧ ([1, 2, 3] : List Nat).length ≤ 4294967295 ∧
      (Spec.head 0x40 ([1, 2, 3] : List Nat).length).length + ([1, 2, 3] : List Nat).length ≤
        2 ^ (host64.size_bits - 1) ∧
      34 ≤ host64.size_bits ∧
      encode_call host64 64 [] (.buffer [1, 2, 3]) = .ok [0x43, 1, 2, 3] ∧
      encode_call host64 64 [] (.bufobj [1, 2, 3]) = .ok [0x43, 1, 2, 3] :=
  ⟨by decide, by decide, by decide, by decide,
    ((encode_buffer host64 64 (by decide) []).1 [1, 2, 3] (by decide) (by decide)).1,
    ((encode_buffer host64 64 (by decide) []).2 (by decide) [1, 2, 3] (by decide)).2⟩

/-- Counterexample to C7 as stated: on a host with a 32-bit size type a buffer
of `2^31 - 4` bytes has a length of at most `2^32-1`, and encoding it, which
needs `2^31 + 1` bytes, ends in the
"too large" error. -/
theorem buffer_too_large_on_32_bit_host :
    (List.replicate 2147483644 0).length ≤ 4294967295 ∧
      encode_call host32 32 [] (.buffer (List.replicate 2147483644 0)) =
        .error .range_too_large := by
  have hlen : (List.replicate 2147483644 0).length = 2147483644 := List.length_replicate _ _
  refine ⟨by rw [hlen]; decide, ?_⟩
  refine encode_call_too_large host32 32 (by decide) [] _ _ true
    (by rw [walk]; exact walk_bytes_ok _ 0x40 (by decide) (by rw [hlen]; decide)) ?_ ?_
  · rw [List.length_append, hlen, head_length]
    decide
  · rw [List.length_append, hlen, head_length]
    decide

/-- C8 (amended): on a host whose size type has `w` bits, for every text
value whose bytes `s` satisfy `len(s) <= 2^32-1` and `len(s) + head length <=
2^(w-1)` (every such text when `w >= 34`), encoding yields the section-4.2 head
with base `0x60` and magnitude `len(s)` followed by the bytes of `s` verbatim,
so the output length is `len(s)` plus the head length; the empty text encodes
to `[0x60]`. -/
theorem encode_text (h : Host) (fuel : Nat) (hfuel : h.size_bits ≤ fuel)
    (below : ValStack) :
    (∀ s : List Nat, s.length ≤ 4294967295 →
      (Spec.head 0x60 s.length).length + s.length ≤ 2 ^ (h.size_bits - 1) →
      encode_call h fuel below (.string s) = .ok (Spec.head 0x60 s.length ++ s) ∧
      (Spec.head 0x60 s.length ++ s).length = s.length + (Spec.head 0x60 s.length).length) ∧
    (34 ≤ h.size_bits → ∀ s : List Nat, s.length ≤ 4294967295 →
      encode_call h fuel below (.string s) = .ok (Spec.head 0x60 s.length ++ s)) ∧
    encode_call h fuel below (.string []) = .ok [0x60] := by
  have key : ∀ s : List Nat, s.length ≤ 4294967295 →
      (Spec.head 0x60 s.length).length + s.length ≤ 2 ^ (h.size_bits - 1) →
      encode_call h fuel below (.string s) = .ok (Spec.head 0x60 s.length ++ s) := by
    intro s hl hfit
    exact encode_bytes_value h fuel hfuel below _ s 0x60 (by decide) (by rw [walk]) hl hfit
  refine ⟨?_, ?_, ?_⟩
  · intro s hl hfit
    refine ⟨key s hl hfit, ?_⟩
    rw [List.length_append]
    omega
  · intro hw s hl
    have := head_length_le 0x60 s.length
    exact key s hl (wide_host_fits h hw _ (by omega))
  · exact key [] (by decide) (small_fits h _ (by decide))

/-- Witness of C8 on a 64-bit host at the one-byte text `a`. -/
theorem encode_text_witness :
    host64.size_bits ≤ 64 ∧ ([0x61] : List Nat).length ≤ 4294967295 ∧
      (Spec.head 0x60 ([0x61] : List Nat).length).length + ([0x61] : List Nat).length ≤
        2 ^ (host64.size_bits - 1) ∧
      34 ≤ host64.size_bits ∧
      encode_call host64 64 [] (.string [0x61]) = .ok [0x61, 0x61] :=
  ⟨by decide, by decide, by decide, by decide,
    ((encode_text host64 64 (by decide) []).1 [0x61] (by decide) (by decide)).1⟩

/-- Counterexample to C8 as stated: on a host with a 32-bit size type a text of
`2^31 - 4` bytes has a length of at most `2^32-1`, and encoding it, which needs
`2^31 + 1` bytes, ends in the
"too large" error. -/
theorem text_too_large_on_32_bit_host :
    (List.replicate 2147483644 0x61).length ≤ 4294967295 ∧
      encode_call host32 32 [] (.string (List.replicate 2147483644 0x61)) =
        .error .range_too_large := by
  have hlen : (List.replicate 2147483644 0x61).length = 2147483644 :=
    List.length_replicate _ _
  refine ⟨by rw [hlen]; decide, ?_⟩
  refine encode_call_too_large host32 32 (by decide) [] _ _ true
    (by rw [walk]; exact walk_bytes_ok _ 0x60 (by decide) (by rw [hlen]; decide)) ?_ ?_
  · rw [List.length_append, hlen, head_length]
    decide
  · rw [List.length_append, hlen, head_length]
    decide


theorem forall2_walk_of_call (h : Host) (fuel : Nat) (hfuel : h.size_bits ≤ fuel)
    (below : ValStack) :
    ∀ (xs : List Value) (outs : List (List Nat)),
      List.Forall₂ (fun x o => encode_call h fuel below x = .ok o) xs outs →
      List.Forall₂ (fun x o => walk h x = (o, true)) xs outs
  | [], _, hall => by cases hall; exact List.Forall₂.nil
  | x :: xs, _, hall => by
    cases hall with
    | cons hx hrest =>
      exact List.Forall₂.cons ((encode_call_ok_iff h fuel hfuel below x _).1 hx).1
        (forall2_walk_of_call h fuel hfuel below xs _ hrest)

theorem forall2_call_of_walk (h : Host) (fuel : Nat) (hfuel : h.size_bits ≤ fuel)
    (below : ValStack) :
    ∀ (xs : List Value) (outs : List (List Nat)),
      List.Forall₂ (fun x o => walk h x = (o, true)) xs outs →
      outs.flatten.length ≤ 2 ^ (h.size_bits - 1) →
      List.Forall₂ (fun x o => encode_call h fuel below x = .ok o) xs outs
  | [], _, hall, _ => by cases hall; exact List.Forall₂.nil
  | x :: xs, _, hall, hlen => by
    cases hall with
    | cons hx hrest =>
      simp only [List.flatten_cons, List.length_append] at hlen
      exact List.Forall₂.cons (encode_call_ok h fuel hfuel below x _ hx (by omega))
        (forall2_call_of_walk h fuel hfuel below xs _ hrest (by omega))

/-- C5 (amended): on a host whose size type has `w` bits, for every array
value with elements `x_0..x_{n-1}`, `n <= 2^32-1`, whose elements encode to
`e_0..e_{n-1}` and for which the head and the `e_i` together are at most
`2^(w-1)` bytes long, encoding yields the section-4.2 head with base `0x80` and
magnitude `n` followed by `e_0, e_1, ..., e_{n-1}` in increasing index order;
and whenever encoding such an array returns, its output has this form.  The
empty array encodes to `[0x80]` and `[1,2,3]` to `[0x83,0x01,0x02,0x03]`. -/
theorem encode_array (h : Host) (fuel : Nat) (hfuel : h.size_bits ≤ fuel)
    (below : ValStack) :
    (∀ (xs : List Value) (outs : List (List Nat)), xs.length ≤ 4294967295 →
      List.Forall₂ (fun x o => encode_call h fuel below x = .ok o) xs outs →
      (Spec.head 0x80 xs.length ++ outs.flatten).length ≤ 2 ^ (h.size_bits - 1) →
      encode_call h fuel below (.array xs) = .ok (Spec.head 0x80 xs.length ++ outs.flatten)) ∧
    (∀ (xs : List Value) (out : List Nat), xs.length ≤ 4294967295 →
      encode_call h fuel below (.array xs) = .ok out →
      ∃ outs, List.Forall₂ (fun x o => encode_call h fuel below x = .ok o) xs outs ∧
        out = Spec.head 0x80 xs.length ++ outs.flatten) ∧
    encode_call h fuel below (.array []) = .ok [0x80] ∧
    encode_call h fuel below (.array [.number d_1, .number d_2, .number d_3]) =
      .ok [0x83, 0x01, 0x02, 0x03] := by
  have part1 : ∀ (xs : List Value) (outs : List (List Nat)), xs.length ≤ 4294967295 →
      List.Forall₂ (fun x o => encode_call h fuel below x = .ok o) xs outs →
      (Spec.head 0x80 xs.length ++ outs.flatten).length ≤ 2 ^ (h.size_bits - 1) →
      encode_call h fuel below (.array xs) =
        .ok (Spec.head 0x80 xs.length ++ outs.flatten) := by
    intro xs outs hl hall hfit
    apply encode_call_ok h fuel hfuel below
    · rw [walk_array_value h xs hl,
        walk_array_ok h xs outs (forall2_walk_of_call h fuel hfuel below xs outs hall)]
      simp [Walk.seq]
    · exact hfit
  have hnum : ∀ (d : Double) (n : Nat), d.has_value (n : Int) → n ≤ 23 →
      d ≠ Double.neg_zero → encode_call h fuel below (.number d) = .ok [n] := by
    intro d n hv hn hnz
    rw [encode_nonneg_int h fuel hfuel below d n hv (by omega) hnz, Spec.head, if_pos hn,
      Nat.zero_add]
  refine ⟨part1, ?_, ?_, ?_⟩
  · intro xs out hl hok
    obtain ⟨hw, hfit⟩ := (encode_call_ok_iff h fuel hfuel below _ out).1 hok
    rw [walk_array_value h xs hl] at hw
    rcases hr : walk_array h xs with ⟨b2, f2⟩
    rw [hr] at hw
    simp only [Walk.seq, if_true] at hw
    injection hw with h1 h2
    subst h2
    obtain ⟨outs, hall, hb2⟩ := walk_array_inv h xs b2 hr
    refine ⟨outs, forall2_call_of_walk h fuel hfuel below xs outs hall ?_, ?_⟩
    · rw [← h1, List.length_append, hb2] at hfit
      omega
    · rw [← h1, hb2]
  · exact part1 [] [] (by decide) List.Forall₂.nil (small_fits h _ (by decide))
  · exact part1 [.number d_1, .number d_2, .number d_3] [[1], [2], [3]] (by decide)
      (List.Forall₂.cons (hnum d_1 1 ⟨by decide, by decide⟩ (by decide) (by decide))
        (List.Forall₂.cons (hnum d_2 2 ⟨by decide, by decide⟩ (by decide) (by decide))
          (List.Forall₂.cons (hnum d_3 3 ⟨by decide, by decide⟩ (by decide) (by decide))
            List.Forall₂.nil)))
      (small_fits h _ (by decide))


theorem encode_const (h : Host) (fuel : Nat) (hfuel : h.size_bits ≤ fuel) (below : ValStack)
    (v : Value) (b : Nat) (hw : walk h v = ([b], true)) :
    encode_call h fuel below v = .ok [b] :=
  encode_call_ok h fuel hfuel below v [b] hw (small_fits h _ (by simp))

theorem big_buffer_ok (b : List Nat) (hlen : b.length = 2147483643) :
    encode_call host32 32 [] (.buffer b) = .ok (Spec.head 0x40 2147483643 ++ b) := by
  have := encode_bytes_value host32 32 (by decide) [] (.buffer b) b 0x40 (by decide)
    (by rw [walk]) (by rw [hlen]; decide) (by rw [hlen, head_length]; decide)
  rw [hlen] at this
  exact this

theorem big_array_too_large (b : List Nat) (hlen : b.length = 2147483643) :
    encode_call host32 32 [] (.array [.buffer b]) = .error .range_too_large := by
  have hw := (encode_call_ok_iff host32 32 (by decide) [] _ _).1 (big_buffer_ok b hlen)
  refine encode_call_too_large host32 32 (by decide) [] _
    (Spec.head 0x80 1 ++ [Spec.head 0x40 2147483643 ++ b].flatten) true ?_ ?_ ?_
  · rw [walk_array_value host32 _ (by simp),
      walk_array_ok host32 _ [_] (List.Forall₂.cons hw.1 List.Forall₂.nil)]
    simp [Walk.seq]
  · simp only [List.flatten_cons, List.flatten_nil, List.append_nil, List.length_append, hlen,
      head_length]
    decide
  · simp only [List.flatten_cons, List.flatten_nil, List.append_nil, List.length_append, hlen,
      head_length]
    decide

/-- Witness of C5 on a 64-bit host at the array `[null, true]`. -/
theorem encode_array_witness :
    host64.size_bits ≤ 64 ∧ [Value.null, Value.boolean true].length ≤ 4294967295 ∧
      List.Forall₂ (fun x o => encode_call host64 64 [] x = .ok o)
        [Value.null, Value.boolean true] [[0xf6], [0xf5]] ∧
      (Spec.head 0x80 [Value.null, Value.boolean true].length ++
        [[0xf6], [0xf5]].flatten).length ≤ 2 ^ (host64.size_bits - 1) ∧
      encode_call host64 64 [] (.array [.null, .boolean true]) = .ok [0x82, 0xf6, 0xf5] ∧
      ∃ outs, List.Forall₂ (fun x o => encode_call host64 64 [] x = .ok o)
          [Value.null, Value.boolean true] outs ∧
        [0x82, 0xf6, 0xf5] = Spec.head 0x80 [Value.null, Value.boolean true].length ++
          outs.flatten := by
  have hall : List.Forall₂ (fun x o => encode_call host64 64 [] x = .ok o)
      [Value.null, Value.boolean true] [[0xf6], [0xf5]] :=
    List.Forall₂.cons (encode_const host64 64 (by decide) [] _ _ (by rw [walk]))
      (List.Forall₂.cons (encode_const host64 64 (by decide) [] _ _ (by rw [walk]; rfl))
        List.Forall₂.nil)
  have hok := (encode_array host64 64 (by decide) []).1 [.null, .boolean true]
    [[0xf6], [0xf5]] (by decide) hall (by decide)
  exact ⟨by decide, by decide, hall, by decide, hok,
    (encode_array host64 64 (by decide) []).2.1 [.null, .boolean true] [0x82, 0xf6, 0xf5]
      (by decide) hok⟩

/-- Counterexample to C5 as stated: on a host with a 32-bit size type, an
array of one element, a buffer of `2^31 - 5` bytes.  The element alone encodes
to `2^31` bytes; the array, one byte longer, ends in the "too large" error
instead of yielding the head followed by the element's encoding. -/
theorem array_too_large_on_32_bit_host :
    [Value.buffer (List.replicate 2147483643 0)].length ≤ 4294967295 ∧
      encode_call host32 32 [] (.buffer (List.replicate 2147483643 0)) =
        .ok (Spec.head 0x40 2147483643 ++ List.replicate 2147483643 0) ∧
      encode_call host32 32 [] (.array [.buffer (List.replicate 2147483643 0)]) =
        .error .range_too_large :=
  ⟨by rw [List.length_singleton]; decide, big_buffer_ok _ (List.length_replicate _ _),
    big_array_too_large _ (List.length_replicate _ _)⟩


theorem forall2_walk_of_call_props (h : Host) (fuel : Nat) (hfuel : h.size_bits ≤ fuel)
    (below : ValStack) :
    ∀ (ps : List (Value × Value)) (outs : List (List Nat × List Nat)),
      List.Forall₂ (fun p o => encode_call h fuel below p.1 = .ok o.1 ∧
        encode_call h fuel below p.2 = .ok o.2) ps outs →
      List.Forall₂ (fun p o => walk h p.1 = (o.1, true) ∧ walk h p.2 = (o.2, true)) ps outs
  | [], _, hall => by cases hall; exact List.Forall₂.nil
  | p :: ps, _, hall => by
    cases hall with
    | cons hx hrest =>
      exact List.Forall₂.cons
        ⟨((encode_call_ok_iff h fuel hfuel below p.1 _).1 hx.1).1,
          ((encode_call_ok_iff h fuel hfuel below p.2 _).1 hx.2).1⟩
        (forall2_walk_of_call_props h fuel hfuel below ps _ hrest)

theorem forall2_call_of_walk_props (h : Host) (fuel : Nat) (hfuel : h.size_bits ≤ fuel)
    (below : ValStack) :
    ∀ (ps : List (Value × Value)) (outs : List (List Nat × List Nat)),
      List.Forall₂ (fun p o => walk h p.1 = (o.1, true) ∧ walk h p.2 = (o.2, true)) ps outs →
      (outs.map (fun o => o.1 ++ o.2)).flatten.length ≤ 2 ^ (h.size_bits - 1) →
      List.Forall₂ (fun p o => encode_call h fuel below p.1 = .ok o.1 ∧
        encode_call h fuel below p.2 = .ok o.2) ps outs
  | [], _, hall, _ => by cases hall; exact List.Forall₂.nil
  | p :: ps, _, hall, hlen => by
    cases hall with
    | cons hx hrest =>
      simp only [List.map_cons, List.flatten_cons, List.length_append] at hlen
      exact List.Forall₂.cons
        ⟨encode_call_ok h fuel hfuel below p.1 _ hx.1 (by omega),
          encode_call_ok h fuel hfuel below p.2 _ hx.2 (by omega)⟩
        (forall2_call_of_walk_props h fuel hfuel below ps _ hrest (by omega))

/-- C6 (amended): on a host whose size type has `w` bits, for every map value
with entries `(k_1,v_1),...,(k_n,v_n)` in enumeration order whose keys and
values encode to `a_i` and `b_i` and whose whole encoding is at most `2^(w-1)`
bytes long, encoding yields `0xBF`, then for each `i` in order `a_i`
immediately followed by `b_i`, then `0xFF`; and whenever encoding a map
returns, its output has this form.  The empty map encodes to `[0xBF,0xFF]` and
`{"a":1}` to `[0xBF,0x61,0x61,0x01,0xFF]`. -/
theorem encode_map (h : Host) (fuel : Nat) (hfuel : h.size_bits ≤ fuel)
    (below : ValStack) :
    (∀ (ps : List (Value × Value)) (outs : List (List Nat × List Nat)),
      List.Forall₂ (fun p o => encode_call h fuel below p.1 = .ok o.1 ∧
        encode_call h fuel below p.2 = .ok o.2) ps outs →
      (0xbf :: (outs.map (fun o : List Nat × List Nat => o.1 ++ o.2)).flatten ++ [0xff]).length ≤
        2 ^ (h.size_bits - 1) →
      encode_call h fuel below (.object ps) =
        .ok (0xbf :: (outs.map (fun o : List Nat × List Nat => o.1 ++ o.2)).flatten ++ [0xff])) ∧
    (∀ (ps : List (Value × Value)) (out : List Nat),
      encode_call h fuel below (.object ps) = .ok out →
      ∃ outs : List (List Nat × List Nat),
        List.Forall₂ (fun p o => encode_call h fuel below p.1 = .ok o.1 ∧
          encode_call h fuel below p.2 = .ok o.2) ps outs ∧
        out = 0xbf :: (outs.map (fun o : List Nat × List Nat => o.1 ++ o.2)).flatten ++ [0xff]) ∧
    encode_call h fuel below (.object []) = .ok [0xbf, 0xff] ∧
    encode_call h fuel below (.object [(.string [0x61], .number d_1)]) =
      .ok [0xbf, 0x61, 0x61, 0x01, 0xff] := by
  have part1 : ∀ (ps : List (Value × Value)) (outs : List (List Nat × List Nat)),
      List.Forall₂ (fun p o => encode_call h fuel below p.1 = .ok o.1 ∧
        encode_call h fuel below p.2 = .ok o.2) ps outs →
      (0xbf :: (outs.map (fun o : List Nat × List Nat => o.1 ++ o.2)).flatten ++ [0xff]).length ≤
        2 ^ (h.size_bits - 1) →
      encode_call h fuel below (.object ps) =
        .ok (0xbf :: (outs.map (fun o : List Nat × List Nat => o.1 ++ o.2)).flatten ++ [0xff]) := by
    intro ps outs hall hfit
    apply encode_call_ok h fuel hfuel below
    · rw [walk, walk_map_ok h ps outs (forall2_walk_of_call_props h fuel hfuel below ps outs hall)]
      simp [Walk.seq]
    · exact hfit
  refine ⟨part1, ?_, ?_, ?_⟩
  · intro ps out hok
    obtain ⟨hw, hfit⟩ := (encode_call_ok_iff h fuel hfuel below _ out).1 hok
    rw [walk] at hw
    rcases hr : walk_map h ps with ⟨b2, f2⟩
    rw [hr] at hw
    cases f2 with
    | false => simp [Walk.seq] at hw
    | true =>
      simp only [Walk.seq, if_true] at hw
      injection hw with h1 _
      obtain ⟨outs, hall, hb2⟩ := walk_map_inv h ps b2 hr
      refine ⟨outs, forall2_call_of_walk_props h fuel hfuel below ps outs hall ?_, ?_⟩
      · rw [← h1, hb2] at hfit
        simp only [List.length_append, List.length_cons, List.length_nil] at hfit
        omega
      · rw [← h1, hb2]
        simp
  · exact part1 [] [] List.Forall₂.nil (small_fits h _ (by decide))
  · have hk : encode_call h fuel below (.string [0x61]) = .ok [0x61, 0x61] :=
      encode_bytes_value h fuel hfuel below _ [0x61] 0x60 (by decide) (by rw [walk])
        (by decide) (small_fits h _ (by decide))
    have hv : encode_call h fuel below (.number d_1) = .ok [0x01] :=
      encode_nonneg_int h fuel hfuel below d_1 1 ⟨by decide, by decide⟩ (by decide)
        (by decide)
    exact part1 [(.string [0x61], .number d_1)] [([0x61, 0x61], [0x01])]
      (List.Forall₂.cons ⟨hk, hv⟩ List.Forall₂.nil) (small_fits h _ (by decide))

/-- Witness of C6 on a 64-bit host at the map with the one entry `null: true`. -/
theorem encode_map_witness :
    host64.size_bits ≤ 64 ∧
      List.Forall₂ (fun p o => encode_call host64 64 [] p.1 = .ok o.1 ∧
        encode_call host64 64 [] p.2 = .ok o.2)
        [(Value.null, Value.boolean true)] [([0xf6], [0xf5])] ∧
      (0xbf :: ([([0xf6], [0xf5])].map
        (fun o : List Nat × List Nat => o.1 ++ o.2)).flatten ++ [0xff]).length ≤
        2 ^ (host64.size_bits - 1) ∧
      encode_call host64 64 [] (.object [(.null, .boolean true)]) =
        .ok [0xbf, 0xf6, 0xf5, 0xff] ∧
      ∃ outs : List (List Nat × List Nat),
        List.Forall₂ (fun p o => encode_call host64 64 [] p.1 = .ok o.1 ∧
          encode_call host64 64 [] p.2 = .ok o.2) [(Value.null, Value.boolean true)] outs ∧
        [0xbf, 0xf6, 0xf5, 0xff] =
          0xbf :: (outs.map (fun o : List Nat × List Nat => o.1 ++ o.2)).flatten ++ [0xff] := by
  have hall : List.Forall₂ (fun (p : Value × Value) (o : List Nat × List Nat) =>
      encode_call host64 64 [] p.1 = .ok o.1 ∧ encode_call host64 64 [] p.2 = .ok o.2)
      [(Value.null, Value.boolean true)] [([0xf6], [0xf5])] :=
    List.Forall₂.cons ⟨encode_const host64 64 (by decide) [] _ _ (by rw [walk]),
      encode_const host64 64 (by decide) [] _ _ (by rw [walk]; rfl)⟩ List.Forall₂.nil
  have hok := (encode_map host64 64 (by decide) []).1 [(.null, .boolean true)]
    [([0xf6], [0xf5])] hall (by decide)
  exact ⟨by decide, hall, by decide, hok,
    (encode_map host64 64 (by decide) []).2.1 [(.null, .boolean true)]
      [0xbf, 0xf6, 0xf5, 0xff] hok⟩

theorem big_map_too_large (b : List Nat) (hlen : b.length = 2147483643) :
    encode_call host32 32 [] (.object [(.null, .buffer b)]) = .error .range_too_large := by
  have hw := (encode_call_ok_iff host32 32 (by decide) [] _ _).1 (big_buffer_ok b hlen)
  refine encode_call_too_large host32 32 (by decide) [] _
    (0xbf :: ([([0xf6], Spec.head 0x40 2147483643 ++ b)].map
      (fun o : List Nat × List Nat => o.1 ++ o.2)).flatten ++ [0xff]) true ?_ ?_ ?_
  · rw [walk, walk_map_ok host32 _ [(_, _)]
      (List.Forall₂.cons ⟨by rw [walk], hw.1⟩ List.Forall₂.nil)]
    simp [Walk.seq]
  · simp only [List.map_cons, List.map_nil, List.flatten_cons, List.flatten_nil,
      List.append_nil, List.length_append, List.length_cons, List.length_nil, hlen,
      head_length]
    decide
  · simp only [List.map_cons, List.map_nil, List.flatten_cons, List.flatten_nil,
      List.append_nil, List.length_append, List.length_cons, List.length_nil, hlen,
      head_length]
    decide

/-- Counterexample to C6 as stated: on a host with a 32-bit size type, the map
with the one entry `null: buffer of 2^31 - 5 bytes`.  Key and value encode, to
1 and `2^31` bytes; the map ends in the "too large" error instead of yielding
`0xBF`, the two encodings and `0xFF`. -/
theorem map_too_large_on_32_bit_host :
    encode_call host32 32 [] .null = .ok [0xf6] ∧
      encode_call host32 32 [] (.buffer (List.replicate 2147483643 0)) =
        .ok (Spec.head 0x40 2147483643 ++ List.replicate 2147483643 0) ∧
      encode_call host32 32 [] (.object [(.null, .buffer (List.replicate 2147483643 0))]) =
        .error .range_too_large :=
  ⟨encode_const host32 32 (by decide) [] _ _ (by rw [walk]),
    big_buffer_ok _ (List.length_replicate _ _),
    big_map_too_large _ (List.length_replicate _ _)⟩

/-! ## Constant items and the invalid-type error (claims C9 and C10) -/

/-- C9: the constant-output kinds encode to one byte each: undefined to
`[0xF7]`, null to `[0xF6]`, true to `[0xF5]`, false to `[0xF4]`, every pointer
to `[0xF7]` and every lightweight callable to `[0xA0]`, whatever the pointer or
the callable is. -/
theorem encode_constants (h : Host) (fuel : Nat) (hfuel : h.size_bits ≤ fuel)
    (below : ValStack) :
    encode_call h fuel below .undefined = .ok [0xf7] ∧
    encode_call h fuel below .null = .ok [0xf6] ∧
    encode_call h fuel below (.boolean true) = .ok [0xf5] ∧
    encode_call h fuel below (.boolean false) = .ok [0xf4] ∧
    (∀ p : Nat, encode_call h fuel below (.pointer p) = .ok [0xf7]) ∧
    (∀ f : Nat, encode_call h fuel below (.lightfunc f) = .ok [0xa0]) :=
  ⟨encode_const h fuel hfuel below _ _ (by rw [walk]),
    encode_const h fuel hfuel below _ _ (by rw [walk]),
    encode_const h fuel hfuel below _ _ (by rw [walk]; rfl),
    encode_const h fuel hfuel below _ _ (by rw [walk]; rfl),
    fun _ => encode_const h fuel hfuel below _ _ (by rw [walk]),
    fun _ => encode_const h fuel hfuel below _ _ (by rw [walk])⟩

/-- Witness of C9 on a 64-bit host, with a pointer and a callable. -/
theorem encode_constants_witness :
    host64.size_bits ≤ 64 ∧ encode_call host64 64 [] (.pointer 4096) = .ok [0xf7] ∧
      encode_call host64 64 [] (.lightfunc 7) = .ok [0xa0] ∧
      encode_call host64 64 [] .undefined = .ok [0xf7] :=
  ⟨by decide, (encode_constants host64 64 (by decide) []).2.2.2.2.1 4096,
    (encode_constants host64 64 (by decide) []).2.2.2.2.2 7,
    (encode_constants host64 64 (by decide) []).1⟩

theorem seq_snd (a b : Walk) : (Walk.seq a b).2 = (a.2 && b.2) := by
  rcases a with ⟨a1, a2⟩
  cases a2 <;> simp [Walk.seq]

theorem walk_bytes_snd (bytes : List Nat) (base : Nat) :
    (walk_bytes bytes base).2 = decide (bytes.length ≤ 2 ^ 32 - 1) := by
  have hlt : bytes.length % 2 ^ 32 < 2 ^ 32 := Nat.mod_lt _ (by decide)
  unfold walk_bytes
  by_cases hl : bytes.length ≤ 2 ^ 32 - 1
  · have hmod : bytes.length % 2 ^ 32 = bytes.length := Nat.mod_eq_of_lt (by omega)
    rw [if_neg (by rw [hmod]; simp)]
    simp
    omega
  · rw [if_pos (by omega)]
    simp
    omega

mutual

theorem walk_snd (h : Host) : ∀ v : Value, (walk h v).2 = v.valid
  | .undefined => by rw [walk, Value.valid]
  | .null => by rw [walk, Value.valid]
  | .boolean _ => by rw [walk, Value.valid]
  | .number _ => by rw [walk, Value.valid]
  | .string bytes => by rw [walk, Value.valid, walk_bytes_snd]
  | .array elems => by
    have hlt : elems.length % 2 ^ 32 < 2 ^ 32 := Nat.mod_lt _ (by decide)
    rw [walk, Value.valid]
    by_cases hl : elems.length ≤ 2 ^ 32 - 1
    · have hmod : elems.length % 2 ^ 32 = elems.length := Nat.mod_eq_of_lt (by omega)
      rw [if_neg (by rw [hmod]; simp), seq_snd, walk_array_snd h elems]
      have : decide (elems.length ≤ 2 ^ 32 - 1) = true := by simpa using hl
      rw [this]
    · rw [if_pos (by omega)]
      have : decide (elems.length ≤ 2 ^ 32 - 1) = false := by simpa using hl
      rw [this]
      rfl
  | .bufobj bytes => by rw [walk, Value.valid, walk_bytes_snd]
  | .object props => by
    rw [walk, Value.valid, seq_snd, seq_snd, walk_map_snd h props]
    simp
  | .buffer bytes => by rw [walk, Value.valid, walk_bytes_snd]
  | .pointer _ => by rw [walk, Value.valid]
  | .lightfunc _ => by rw [walk, Value.valid]
  | .unknown _ => by rw [walk, Value.valid]

theorem walk_array_snd (h : Host) : ∀ xs : List Value, (walk_array h xs).2 = Value.valid_list xs
  | [] => by rw [walk_array, Value.valid_list]
  | x :: rest => by
    rw [walk_array, Value.valid_list, seq_snd, walk_snd h x, walk_array_snd h rest]

theorem walk_map_snd (h : Host) :
    ∀ ps : List (Value × Value), (walk_map h ps).2 = Value.valid_props ps
  | [] => by rw [walk_map, Value.valid_props]
  | (k, v) :: rest => by
    rw [walk_map, Value.valid_props, seq_snd, seq_snd, walk_snd h k, walk_snd h v,
      walk_map_snd h rest, Bool.and_assoc]

end

/-- C10: encoding fails with the "invalid type" error exactly when the
depth-first walk reaches a value of an unrecognized kind or a text, array or
buffer whose length exceeds `2^32-1`; for a tree in which every kind is an
enumerated one and every such length is at most `2^32-1` this error is not
raised; and when a call ends in an error it returns no byte sequence and no
value stack. -/
theorem invalid_type_iff (h : Host) (fuel : Nat) (hfuel : h.size_bits ≤ fuel)
    (below : ValStack) :
    (∀ v : Value, encode_call h fuel below v = .error .type_invalid_type ↔
      walk_reaches_fail h v) ∧
    (∀ v : Value, v.valid = true →
      encode_call h fuel below v ≠ .error .type_invalid_type) ∧
    (∀ (v : Value) (e : DukError), encode_call h fuel below v = .error e →
      ∀ bs : List Nat, encode_call h fuel below v ≠ .ok bs) ∧
    (∀ (ctx : ValStack) (idx : Int) (flags : Nat) (e : DukError),
      duk_cbor_encode h fuel ctx idx flags = .error e →
      ∀ ctx1 : ValStack, duk_cbor_encode h fuel ctx idx flags ≠ .ok ctx1) := by
  have hiff : ∀ v : Value, encode_call h fuel below v = .error .type_invalid_type ↔
      walk_reaches_fail h v := by
    intro v
    obtain ⟨h1, h2⟩ := encode_call_spec h fuel hfuel below v
    unfold walk_reaches_fail
    rw [← walk_snd h v]
    constructor
    · intro herr
      by_cases hfit : (walk h v).1.length ≤ 2 ^ (h.size_bits - 1)
      · refine ⟨?_, hfit⟩
        rw [h1 hfit] at herr
        cases hfl : (walk h v).2 with
        | false => rfl
        | true => rw [hfl] at herr; cases herr
      · rcases h2 hfit with hx | ⟨_, hx⟩ <;> rw [hx] at herr <;> cases herr
    · rintro ⟨hfl, hfit⟩
      rw [h1 hfit, hfl]
      rfl
  refine ⟨hiff, ?_, ?_, ?_⟩
  · intro v hv herr
    have := ((hiff v).1 herr).1
    rw [hv] at this
    cases this
  · intro v e herr bs hok
    rw [herr] at hok
    cases hok
  · intro ctx idx flags e herr ctx1 hok
    rw [herr] at hok
    cases hok

/-- Witness of C10 on a 64-bit host: an array holding a value of unrecognized
kind after `null` fails with "invalid type"; `null` alone does not. -/
theorem invalid_type_iff_witness :
    host64.size_bits ≤ 64 ∧ walk_reaches_fail host64 (.array [.null, .unknown 0]) ∧
      encode_call host64 64 [] (.array [.null, .unknown 0]) = .error .type_invalid_type ∧
      Value.null.valid = true ∧
      encode_call host64 64 [] .null ≠ .error .type_invalid_type ∧
      (∀ bs : List Nat, encode_call host64 64 [] (.array [.null, .unknown 0]) ≠ .ok bs) := by
  have hr : walk_reaches_fail host64 (.array [.null, .unknown 0]) := ⟨by decide, by decide⟩
  have herr := ((invalid_type_iff host64 64 (by decide) []).1 (.array [.null, .unknown 0])).2 hr
  exact ⟨by decide, hr, herr, by decide,
    (invalid_type_iff host64 64 (by decide) []).2.1 .null (by decide),
    (invalid_type_iff host64 64 (by decide) []).2.2.1 _ _ herr⟩

/-! ## Any starting capacity, any slot (claims C11 and C14) -/

theorem grow_lt_two_mul (cap need : Nat) (hpos : 0 < cap) (hlt : cap < need) :
    grow cap need < 2 * need := by
  induction cap, need using grow.induct with
  | case1 cap need hc ih =>
    rw [grow_of_lt hc.1 hc.2]
    by_cases h2 : cap * 2 < need
    · exact ih (by omega) h2
    · rw [grow_of_le (by omega)]
      omega
  | case2 cap need hc => omega

theorem grow_fits_of_half (h : Host) (cap need : Nat) (hpos : 0 < cap)
    (hcap : cap < h.size_mod) (hneed : need ≤ 2 ^ (h.size_bits - 1)) :
    grow cap need < h.size_mod := by
  have hw := h.size_bits_ge
  have h2 : h.size_mod = 2 * 2 ^ (h.size_bits - 1) := by
    unfold Host.size_mod
    have e : h.size_bits = (h.size_bits - 1) + 1 := by omega
    rw [e, Nat.pow_succ]
    simp
    omega
  by_cases hlt : cap < need
  · have := grow_lt_two_mul cap need hpos hlt
    omega
  · rw [grow_of_le (by omega)]
    exact hcap

theorem sim_object_top (h : Host) (fuel : Nat) (hfuel : h.size_bits ≤ fuel)
    (props : List (Value × Value)) (work : ValStack) (s : Slot) :
    Sim h (encode_value_at h fuel (.object props)) (walk h (.object props)) (work ++ [s])
      work := by
  refine sim_congr h (fun e => by rw [encode_value_at]) ?_
  rw [walk]
  have hloop := sim_seq h (sim_push h (.enum props) (work ++ [s]))
    (sim_map_loop h fuel hfuel props (work ++ [s]))
  rw [seq_nil_left] at hloop
  have htail := sim_seq h (sim_pop h (work ++ [s]) (.enum []))
    (sim_then_pop h work _ (sim_emitbyte h fuel hfuel 0xff (work ++ [s])))
  rw [seq_nil_left] at htail
  exact sim_seq h (sim_emitbyte h fuel hfuel (0xa0 + 0x1f) _) (sim_seq h hloop htail)

theorem sim_slot (h : Host) (fuel : Nat) (hfuel : h.size_bits ≤ fuel) (work : ValStack)
    (s : Slot) :
    Sim h (duk__cbor_encode_value h fuel) (walk h (slot_value s)) (work ++ [s]) work := by
  have hdisp : ∀ (pre : ValStack) (written : List Nat) (cap : Nat),
      duk__cbor_encode_value h fuel (canon pre (work ++ [s]) written cap) =
        encode_value_at h fuel (slot_value s) (canon pre (work ++ [s]) written cap) := by
    intro pre written cap
    unfold duk__cbor_encode_value
    have : (canon pre (work ++ [s]) written cap).ctx.getLast? = some s := by
      have e : (canon pre (work ++ [s]) written cap).ctx =
          (pre ++ Slot.val (.buffer (written ++ List.replicate (cap - written.length) 0)) ::
            work) ++ [s] := by
        simp [canon]
      rw [e, List.getLast?_concat]
    rw [this]
    cases s <;> rfl
  have hs : Sim h (encode_value_at h fuel (slot_value s)) (walk h (slot_value s))
      (work ++ [s]) work := by
    cases s with
    | val v => exact sim_value h fuel hfuel v work
    | enum p => exact sim_object_top h fuel hfuel [] work (.enum p)
  intro pre written cap hpos hW hcap
  rw [hdisp]
  exact hs pre written cap hpos hW hcap


theorem start_canon_from (ctx : ValStack) (s : Slot) (cap0 : Nat) :
    ({ ctx := duk_push_dynamic_buffer ctx cap0 ++ [s], idx_buf := duk_get_top ctx,
        len := cap0, off := 0 } : duk_cbor_encode_context) = canon ctx [s] [] cap0 := by
  simp [canon, duk_push_dynamic_buffer, duk_get_top]

theorem encode_from_unfold (h : Host) (fuel : Nat) (cap0 : Nat) (ctx : ValStack) (idx : Int)
    (flags : Nat) (i : Nat) (s : Slot)
    (hidx : duk_require_normalize_index ctx idx = .ok i) (hs : ctx.get? i = some s) :
    duk_cbor_encode_from h fuel cap0 ctx idx flags =
      (duk__cbor_encode_value h fuel (canon ctx [s] [] cap0) >>= fun e =>
        duk_resize_buffer e.ctx e.idx_buf e.off >>= fun c => duk_replace c i) := by
  have hi := normalize_lt ctx idx i hidx
  have hdup : duk_dup (duk_push_dynamic_buffer ctx cap0) i =
      .ok (duk_push_dynamic_buffer ctx cap0 ++ [s]) := by
    unfold duk_dup
    have : (duk_push_dynamic_buffer ctx cap0).get? i = some s := by
      rw [duk_push_dynamic_buffer, List.get?_eq_getElem?, List.getElem?_append_left hi,
        ← List.get?_eq_getElem?]
      exact hs
    rw [this]
  unfold duk_cbor_encode_from
  simp only [hidx, ok_bind, hdup]
  rw [start_canon_from]

theorem encode_from_spec (h : Host) (fuel : Nat) (hfuel : h.size_bits ≤ fuel) (cap0 : Nat)
    (hpos : 0 < cap0) (hcap : cap0 < h.size_mod) (ctx : ValStack) (idx : Int) (flags : Nat)
    (i : Nat) (s : Slot) (hidx : duk_require_normalize_index ctx idx = .ok i)
    (hs : ctx.get? i = some s) :
    (grow cap0 (walk h (slot_value s)).1.length < h.size_mod →
      duk__cbor_encode_value h fuel (canon ctx [s] [] cap0) =
        (if (walk h (slot_value s)).2 then
          .ok (canon ctx [] (walk h (slot_value s)).1
            (grow cap0 (walk h (slot_value s)).1.length))
         else .error .type_invalid_type) ∧
      duk_cbor_encode_from h fuel cap0 ctx idx flags =
        if (walk h (slot_value s)).2 then
          .ok (ctx.set i (.val (.buffer (walk h (slot_value s)).1)))
        else .error .type_invalid_type) ∧
    (¬ grow cap0 (walk h (slot_value s)).1.length < h.size_mod →
      duk_cbor_encode_from h fuel cap0 ctx idx flags = .error .range_too_large ∨
      (h.size_mod ≤ (walk h (slot_value s)).1.length ∧
        duk_cbor_encode_from h fuel cap0 ctx idx flags = .error .undefined_behaviour)) := by
  have hi := normalize_lt ctx idx i hidx
  have hsim := sim_slot h fuel hfuel [] s ctx [] cap0 hpos (by simp) hcap
  simp only [List.length_nil, Nat.zero_add, List.nil_append] at hsim
  rw [encode_from_unfold h fuel cap0 ctx idx flags i s hidx hs]
  constructor
  · intro hfit
    refine ⟨hsim.1 hfit, ?_⟩
    rw [hsim.1 hfit]
    by_cases hfl : (walk h (slot_value s)).2 = true
    · simp only [hfl, if_true, ok_bind]
      exact finish_canon ctx _ _ i hi
    · simp only [hfl, if_false, Bool.false_eq_true]
      rfl
  · intro hfit
    rcases hsim.2 hfit with hx | ⟨hy, hx⟩
    · left; rw [hx]; rfl
    · right; refine ⟨hy, ?_⟩; rw [hx]; rfl

theorem encode_from_64 (h : Host) (fuel : Nat) (ctx : ValStack) (idx : Int) (flags : Nat) :
    duk_cbor_encode h fuel ctx idx flags = duk_cbor_encode_from h fuel 64 ctx idx flags := rfl

theorem size_mod_gt_64 (h : Host) : 64 < h.size_mod := by
  have := half_size_lt h
  have := small_fits h 64 (by decide)
  omega

/-- What a returning call of `duk_cbor_encode_from` gives, for any slot at the
index and any starting capacity. -/
theorem encode_from_ok (h : Host) (fuel : Nat) (hfuel : h.size_bits ≤ fuel) (cap0 : Nat)
    (hpos : 0 < cap0) (hcap : cap0 < h.size_mod) (ctx : ValStack) (idx : Int) (flags : Nat)
    (st : ValStack) (hok : duk_cbor_encode_from h fuel cap0 ctx idx flags = .ok st) :
    ∃ (i : Nat) (s : Slot), duk_require_normalize_index ctx idx = .ok i ∧
      ctx.get? i = some s ∧ (walk h (slot_value s)).2 = true ∧
      grow cap0 (walk h (slot_value s)).1.length < h.size_mod ∧
      st = ctx.set i (.val (.buffer (walk h (slot_value s)).1)) := by
  cases hidx : duk_require_normalize_index ctx idx with
  | error e =>
    unfold duk_cbor_encode_from at hok
    rw [hidx] at hok
    cases hok
  | ok i =>
    have hi := normalize_lt ctx idx i hidx
    have hs : ctx.get? i = some (ctx.get ⟨i, hi⟩) := List.get?_eq_get hi
    obtain ⟨h1, h2⟩ := encode_from_spec h fuel hfuel cap0 hpos hcap ctx idx flags i _ hidx hs
    refine ⟨i, _, rfl, hs, ?_⟩
    by_cases hfit : grow cap0 (walk h (slot_value (ctx.get ⟨i, hi⟩))).1.length < h.size_mod
    · have h3 := (h1 hfit).2
      rw [h3] at hok
      cases hfl : (walk h (slot_value (ctx.get ⟨i, hi⟩))).2 with
      | false => rw [hfl] at hok; cases hok
      | true =>
        rw [hfl] at hok
        simp only [if_true] at hok
        injection hok with hok
        exact ⟨rfl, hfit, hok.symm⟩
    · rcases h2 hfit with hx | ⟨_, hx⟩ <;> rw [hx] at hok <;> cases hok


/-- C13 (amended): encoding the number `-24` yields the one-byte sequence
`[0x37]`: the magnitude is `-1 - (-24) = 23`, which fits the initial byte. -/
theorem encode_minus_24 (h : Host) (fuel : Nat) (hfuel : h.size_bits ≤ fuel)
    (below : ValStack) :
    encode_call h fuel below (.number d_m24) = .ok [0x37] := by
  have := (encode_neg_int h fuel hfuel below d_m24 (-24) ⟨by decide, by decide⟩ (by decide)
    (by decide)).1
  have e : (-1 - (-24 : Int)).toNat = 23 := by decide
  rw [e] at this
  exact this

/-- Witness of C13 on a 64-bit host. -/
theorem encode_minus_24_witness :
    host64.size_bits ≤ 64 ∧ encode_call host64 64 [] (.number d_m24) = .ok [0x37] :=
  ⟨by decide, encode_minus_24 host64 64 (by decide) []⟩

/-- Counterexample to C13 as stated: the double `-24.0` (its bit pattern is
`0xC038000000000000`, its value `-24`) encodes to `[0x37]`, not to
`[0x38, 0x17]`. -/
theorem encode_minus_24_is_one_byte :
    d_m24.bits = 0xC038000000000000 ∧ d_m24.has_value (-24) ∧
      encode_call host64 64 [] (.number d_m24) = .ok [0x37] ∧
      encode_call host64 64 [] (.number d_m24) ≠ .ok [0x38, 0x17] := by
  have hb : double_bytes host64 d_m24 = [0x37] := by decide
  refine ⟨by decide, ⟨by decide, by decide⟩, ?_, ?_⟩
  · rw [encode_number_ok host64 64 (by decide), hb]
  · rw [encode_number_ok host64 64 (by decide), hb]
    intro hc
    injection hc with hc
    revert hc
    decide

/-- C15: `duk_cbor_decode` ends in the "unimplemented" error for every value
stack, index and flags, and so does the decode helper of the command-line
front end; neither returns a value. -/
theorem decode_unimplemented :
    (∀ (ctx : ValStack) (idx : Int) (flags : Nat),
      duk_cbor_decode ctx idx flags = .error .type_unimplemented) ∧
    (∀ (ctx : ValStack) (udata : Nat),
      decode_helper ctx udata = .error .type_unimplemented) :=
  ⟨fun _ _ _ => rfl, fun _ _ => rfl⟩

/-! ## The integer head byte by byte (claim C16) -/

theorem and_ff (x : Nat) : x &&& 0xff = x % 256 := by
  have h255 : (0xff : Nat) = 2 ^ 8 - 1 := by decide
  rw [h255, Nat.and_pow_two_sub_one_eq_mod]

theorem and_1f (x : Nat) : x &&& 0x1f = x % 32 := by
  have h31 : (0x1f : Nat) = 2 ^ 5 - 1 := by decide
  rw [h31, Nat.and_pow_two_sub_one_eq_mod]

theorem shr_div (u k : Nat) : u >>> k = u / 2 ^ k := Nat.shiftRight_eq_div_pow u k

/-- The bytes of `duk__cbor_encode_uint32` in division form. -/
theorem uint32_bytes_div (u base : Nat) (hu : u < 2 ^ 32) (hb : base ≤ 224) :
    uint32_bytes u base =
      if u ≤ 23 then [base + u]
      else if u ≤ 0xff then [base + 24, u]
      else if u ≤ 0xffff then [base + 25, u / 256, u % 256]
      else [base + 26, u / 16777216, u / 65536 % 256, u / 256 % 256, u % 256] := by
  rw [uint32_bytes_eq_head base u hb, head_explicit base u (by omega)]

/-- What a call of `duk__cbor_encode_uint32` that returns has done. -/
theorem encode_uint32_returns (h : Host) (fuel : Nat) (hfuel : h.size_bits ≤ fuel)
    (u base : Nat) (pre work : ValStack) (written : List Nat) (cap : Nat)
    (e : duk_cbor_encode_context) (hpos : 0 < cap) (hlen : written.length ≤ cap)
    (hcap : cap < h.size_mod)
    (hret : duk__cbor_encode_uint32 h fuel (canon pre work written cap) u base = .ok e) :
    e = canon pre work (written ++ uint32_bytes u base)
      (grow cap (written.length + (uint32_bytes u base).length)) := by
  obtain ⟨h1, h2⟩ := sim_uint32 h fuel hfuel u base work pre written cap hpos hlen hcap
  dsimp only at h1 h2
  by_cases hfit : grow cap (written.length + (uint32_bytes u base).length) < h.size_mod
  · have h3 := h1 hfit
    rw [hret] at h3
    simp only [if_true] at h3
    injection h3
  · rcases h2 hfit with h3 | ⟨_, h3⟩
    · rw [hret] at h3
      exact absurd h3 (by simp)
    · rw [hret] at h3
      exact absurd h3 (by simp)

/-- C16: for every 32-bit magnitude `u` and every base among `0x00`, `0x20`,
`0x40`, `0x60` and `0x80`, `duk__cbor_encode_uint32` appends exactly
`[base+u]` if `u <= 23`, `[base+24, u]` if `u <= 0xFF`,
`[base+25, u>>8, u&0xFF]` if `u <= 0xFFFF`, and otherwise `[base+26]` followed
by the four bytes of `u`, most significant first.  The first byte is below 256,
its top three bits are those of the base, every byte is below 256, and the low
five bits of the first byte (one-byte case) or the trailing bytes read as a
big-endian integer give back `u`. -/
theorem encode_uint32_bytes (h : Host) (fuel : Nat) (hfuel : h.size_bits ≤ fuel)
    (u base : Nat) (hu : u < 2 ^ 32)
    (hb : base = 0x00 ∨ base = 0x20 ∨ base = 0x40 ∨ base = 0x60 ∨ base = 0x80) :
    uint32_bytes u base =
      (if u ≤ 23 then [base + u]
       else if u ≤ 0xFF then [base + 24, u]
       else if u ≤ 0xFFFF then [base + 25, u >>> 8, u &&& 0xFF]
       else [base + 26, (u >>> 24) &&& 0xFF, (u >>> 16) &&& 0xFF, (u >>> 8) &&& 0xFF,
         u &&& 0xFF]) ∧
    (∀ (pre work : ValStack) (written : List Nat) (cap : Nat),
      0 < cap → written.length ≤ cap → cap < h.size_mod →
      (grow cap (written.length + (uint32_bytes u base).length) < h.size_mod →
        duk__cbor_encode_uint32 h fuel (canon pre work written cap) u base =
          .ok (canon pre work (written ++ uint32_bytes u base)
            (grow cap (written.length + (uint32_bytes u base).length)))) ∧
      (∀ e : duk_cbor_encode_context,
        duk__cbor_encode_uint32 h fuel (canon pre work written cap) u base = .ok e →
        e = canon pre work (written ++ uint32_bytes u base)
          (grow cap (written.length + (uint32_bytes u base).length)))) ∧
    (∃ (b : Nat) (rest : List Nat), uint32_bytes u base = b :: rest ∧
      b < 256 ∧ b >>> 5 = base >>> 5 ∧ (∀ x ∈ rest, x < 256) ∧
      (if u ≤ 23 then rest = [] ∧ b &&& 0x1F = u
       else rest.foldl (fun acc x => acc * 256 + x) 0 = u)) := by
  have hb224 : base ≤ 224 := by omega
  have hb32 : base % 32 = 0 := by omega
  have hdiv := uint32_bytes_div u base hu hb224
  have h32 : (2 : Nat) ^ 32 = 4294967296 := by decide
  rw [h32] at hu
  refine ⟨?_, ?_, ?_⟩
  · rw [hdiv]
    by_cases h1 : u ≤ 23
    · rw [if_pos h1, if_pos h1]
    · rw [if_neg h1, if_neg h1]
      by_cases h2 : u ≤ 0xff
      · rw [if_pos h2, if_pos h2]
      · rw [if_neg h2, if_neg h2]
        by_cases h3 : u ≤ 0xffff
        · rw [if_pos h3, if_pos h3, and_ff, shr_div]
          rfl
        · rw [if_neg h3, if_neg h3, and_ff, and_ff, and_ff, and_ff, shr_div, shr_div, shr_div]
          have e1 : u / 2 ^ 24 % 256 = u / 16777216 := by
            have : (2 : Nat) ^ 24 = 16777216 := by decide
            rw [this]
            omega
          rw [e1]
          rfl
  · intro pre work written cap hpos hlen hcap
    refine ⟨?_, ?_⟩
    · intro hfit
      have := (sim_uint32 h fuel hfuel u base work pre written cap hpos hlen hcap).1 hfit
      simpa using this
    · intro e hret
      exact encode_uint32_returns h fuel hfuel u base pre work written cap e hpos hlen hcap hret
  · rw [hdiv]
    by_cases h1 : u ≤ 23
    · rw [if_pos h1]
      refine ⟨_, _, rfl, by omega, ?_, by simp, ?_⟩
      · rw [shr_div, shr_div]
        have : (2 : Nat) ^ 5 = 32 := by decide
        rw [this]
        omega
      · rw [if_pos h1, and_1f]
        exact ⟨rfl, by omega⟩
    · rw [if_neg h1]
      by_cases h2 : u ≤ 0xff
      · rw [if_pos h2]
        refine ⟨_, _, rfl, by omega, ?_, ?_, ?_⟩
        · rw [shr_div, shr_div]
          have : (2 : Nat) ^ 5 = 32 := by decide
          rw [this]
          omega
        · intro x hx
          simp at hx
          omega
        · rw [if_neg h1]
          simp
      · rw [if_neg h2]
        by_cases h3 : u ≤ 0xffff
        · rw [if_pos h3]
          refine ⟨_, _, rfl, by omega, ?_, ?_, ?_⟩
          · rw [shr_div, shr_div]
            have : (2 : Nat) ^ 5 = 32 := by decide
            rw [this]
            omega
          · intro x hx
            simp at hx
            omega
          · rw [if_neg h1]
            simp
            omega
        · rw [if_neg h3]
          refine ⟨_, _, rfl, by omega, ?_, ?_, ?_⟩
          · rw [shr_div, shr_div]
            have : (2 : Nat) ^ 5 = 32 := by decide
            rw [this]
            omega
          · intro x hx
            simp at hx
            omega
          · rw [if_neg h1]
            simp
            omega

/-- Witness of C16 on a 64-bit host: the magnitude 1000 under the base `0x20`
is the three bytes `[0x39, 0x03, 0xE8]`. -/
theorem encode_uint32_bytes_witness :
    host64.size_bits ≤ 64 ∧ 1000 < 2 ^ 32 ∧ uint32_bytes 1000 0x20 = [0x39, 0x03, 0xE8] ∧
      duk__cbor_encode_uint32 host64 64 (canon [] [] [] 64) 1000 0x20 =
        .ok (canon [] [] [0x39, 0x03, 0xE8] 64) := by
  have hw := encode_uint32_bytes host64 64 (by decide) 1000 0x20 (by decide)
    (Or.inr (Or.inl rfl))
  have hb : uint32_bytes 1000 0x20 = [0x39, 0x03, 0xE8] := by decide
  refine ⟨by decide, by decide, hb, ?_⟩
  have h2 := (hw.2.1 [] [] [] 64 (by decide) (by decide) (by decide)).1
  rw [hb] at h2
  have hg : grow 64 (([] : List Nat).length + [0x39, 0x03, 0xE8].length) = 64 :=
    grow_of_le (by decide)
  rw [hg] at h2
  exact h2 (by decide)

/-! ## The reserve loop on any Encode Context (claims C17 to C19) -/

theorem well_formed_iff (h : Host) (e : duk_cbor_encode_context) :
    e.well_formed h = true ↔
      e.len < h.size_mod ∧ e.off < h.size_mod ∧
        ∃ data, e.ctx.get? e.idx_buf = some (.val (.buffer data)) ∧ data.length = e.len := by
  unfold duk_cbor_encode_context.well_formed
  constructor
  · intro hw
    simp only [Bool.and_eq_true, decide_eq_true_eq] at hw
    obtain ⟨⟨h1, h2⟩, h3⟩ := hw
    refine ⟨h1, h2, ?_⟩
    split at h3
    · rename_i data hd
      exact ⟨data, hd, by simpa using h3⟩
    · exact absurd h3 (by simp)
  · rintro ⟨h1, h2, data, hd, hl⟩
    simp only [Bool.and_eq_true, decide_eq_true_eq]
    refine ⟨⟨h1, h2⟩, ?_⟩
    rw [hd]
    simpa using hl

theorem get_lt_length (ctx : ValStack) (i : Nat) (s : Slot) (hs : ctx.get? i = some s) :
    i < ctx.length := by
  rw [List.get?_eq_getElem?] at hs
  by_contra hc
  rw [List.getElem?_eq_none (by omega)] at hs
  cases hs

theorem set_same (ctx : ValStack) (i : Nat) (s : Slot) (hs : ctx.get? i = some s) :
    ctx.set i s = ctx := by
  have hi := get_lt_length ctx i s hs
  rw [List.get?_eq_getElem?, List.getElem?_eq_getElem hi] at hs
  injection hs with hs
  rw [← hs]
  apply List.ext_getElem
  · simp
  · intro j h1 h2
    by_cases hj : i = j
    · subst hj
      simp
    · simp [List.getElem_set_ne hj]

theorem get_set_same (ctx : ValStack) (i : Nat) (s t : Slot) (hs : ctx.get? i = some s) :
    (ctx.set i t).get? i = some t := by
  have hi := get_lt_length ctx i s hs
  rw [List.get?_eq_getElem?, List.getElem?_set_self hi]

/-- The reserve loop on any Encode Context whose capacity is not zero: it
returns the context with the capacity `grow len need`, the buffer extended by
zero bytes, when that capacity is a `duk_size_t`, and throws "too large"
otherwise; `need` is the wrapped sum of offset and length. -/
theorem reserve_loop_spec (h : Host) (n : Nat) :
    ∀ (fuel : Nat) (e : duk_cbor_encode_context) (data : List Nat),
      e.ctx.get? e.idx_buf = some (.val (.buffer data)) → data.length = e.len →
      0 < e.len → e.len < h.size_mod → h.size_mod ≤ e.len * 2 ^ fuel →
      (grow e.len ((e.off + n) % h.size_mod) < h.size_mod →
        duk__cbor_encode_reserve_loop h n fuel e =
          .ok { e with
            ctx := e.ctx.set e.idx_buf (.val (.buffer (data ++
              List.replicate (grow e.len ((e.off + n) % h.size_mod) - e.len) 0))),
            len := grow e.len ((e.off + n) % h.size_mod) }) ∧
      (¬ grow e.len ((e.off + n) % h.size_mod) < h.size_mod →
        duk__cbor_encode_reserve_loop h n fuel e = .error .range_too_large) := by
  intro fuel
  induction fuel with
  | zero =>
    intro e data hd hl hpos hcap hfuel
    omega
  | succ fuel ih =>
    intro e data hd hl hpos hcap hfuel
    by_cases hlt : e.len < (e.off + n) % h.size_mod
    · have hg := grow_of_lt hlt hpos
      rw [duk__cbor_encode_reserve_loop, if_pos hlt]
      simp only []
      by_cases hwrap : e.len * 2 < h.size_mod
      · have hmod2 : e.len * 2 % h.size_mod = e.len * 2 := Nat.mod_eq_of_lt hwrap
        have hres : duk_resize_buffer e.ctx e.idx_buf (e.len * 2) =
            .ok (e.ctx.set e.idx_buf (.val (.buffer (data ++ List.replicate e.len 0)))) := by
          unfold duk_resize_buffer
          rw [hd]
          simp only []
          rw [List.take_of_length_le (by omega), hl]
          have : e.len * 2 - e.len = e.len := by omega
          rw [this]
        rw [hmod2, if_neg (by omega), hres, ok_bind]
        obtain ⟨ih1, ih2⟩ := ih
          { e with
            ctx := e.ctx.set e.idx_buf (.val (.buffer (data ++ List.replicate e.len 0))),
            len := e.len * 2 }
          (data ++ List.replicate e.len 0)
          (get_set_same e.ctx e.idx_buf _ _ hd)
          (by simp; omega)
          (by simp; omega)
          hwrap
          (by rw [Nat.pow_succ] at hfuel
              have : e.len * 2 * 2 ^ fuel = e.len * (2 ^ fuel * 2) := by ring
              simp only []
              omega)
        simp only [] at ih1 ih2
        rw [hg]
        constructor
        · intro hfit
          rw [ih1 hfit]
          have hge := le_grow (e.len * 2) ((e.off + n) % h.size_mod)
          congr 2
          rw [List.set_set, List.append_assoc, ← List.replicate_add]
          have : e.len + (grow (e.len * 2) ((e.off + n) % h.size_mod) - e.len * 2) =
              grow (e.len * 2) ((e.off + n) % h.size_mod) - e.len := by omega
          rw [this]
        · intro hfit
          exact ih2 hfit
      · have hmod2 : e.len * 2 % h.size_mod = e.len * 2 - h.size_mod := by
          rw [Nat.mod_eq_sub_mod (by omega)]
          exact Nat.mod_eq_of_lt (by omega)
        rw [hmod2, if_pos (by omega)]
        have hge := le_grow (e.len * 2) ((e.off + n) % h.size_mod)
        rw [hg]
        exact ⟨fun hfit => by omega, fun _ => rfl⟩
    · rw [grow_of_le (by omega)]
      rw [duk__cbor_encode_reserve_loop, if_neg hlt]
      constructor
      · intro _
        rw [Nat.sub_self, List.replicate_zero, List.append_nil, set_same e.ctx e.idx_buf _ hd]
      · intro hfit
        omega

/-- With capacity zero and something to reserve, the reserve loop never
exits: the doubled capacity is zero again, which is not below zero. -/
theorem reserve_loop_zero (h : Host) (n : Nat) :
    ∀ (fuel : Nat) (e : duk_cbor_encode_context) (data : List Nat),
      e.ctx.get? e.idx_buf = some (.val (.buffer data)) → e.len = 0 →
      0 < (e.off + n) % h.size_mod →
      duk__cbor_encode_reserve_loop h n fuel e = .error .out_of_fuel := by
  intro fuel
  induction fuel with
  | zero =>
    intro e data hd hl hneed
    rw [duk__cbor_encode_reserve_loop, if_pos (by omega)]
  | succ fuel ih =>
    intro e data hd hl hneed
    rw [duk__cbor_encode_reserve_loop, if_pos (by omega)]
    simp only []
    have hz : e.len * 2 % h.size_mod = 0 := by rw [hl]; simp
    rw [hz, if_neg (by omega)]
    unfold duk_resize_buffer
    rw [hd]
    simp only [ok_bind]
    exact ih _ _ (get_set_same e.ctx e.idx_buf _ _ hd) rfl hneed

/-- The capacity `grow cap need` is `cap` doubled the least number of times
that makes `need` bytes fit. -/
theorem grow_least (cap need : Nat) (hpos : 0 < cap) :
    ∃ k, grow cap need = cap * 2 ^ k ∧ need ≤ cap * 2 ^ k ∧ ∀ j, j < k → cap * 2 ^ j < need := by
  induction cap, need using grow.induct with
  | case1 cap need hc ih =>
    obtain ⟨k, h1, h2, h3⟩ := ih (by omega)
    refine ⟨k + 1, ?_, ?_, ?_⟩
    · rw [grow_of_lt hc.1 hc.2, h1, Nat.pow_succ]
      ring
    · rw [Nat.pow_succ]
      have : cap * (2 ^ k * 2) = cap * 2 * 2 ^ k := by ring
      omega
    · intro j hj
      cases j with
      | zero => simpa using hc.1
      | succ j =>
        have := h3 j (by omega)
        rw [Nat.pow_succ]
        have e1 : cap * (2 ^ j * 2) = cap * 2 * 2 ^ j := by ring
        omega
  | case2 cap need hc =>
    refine ⟨0, ?_, ?_, ?_⟩
    · rw [grow_of_le (by omega)]
      simp
    · simp
      omega
    · intro j hj
      omega

/-- The capacity `grow cap need` is not a `duk_size_t` exactly when some
doubling the loop performs wraps: a capacity `cap * 2^k` is reached that is too
small and whose double, taken modulo `2^w`, is not strictly greater. -/
theorem grow_overflow_iff (h : Host) (need : Nat) :
    ∀ (cap : Nat), 0 < cap → cap < h.size_mod →
      (¬ grow cap need < h.size_mod ↔
        ∃ k, cap * 2 ^ k < need ∧ cap * 2 ^ k < h.size_mod ∧
          cap * 2 ^ k * 2 % h.size_mod ≤ cap * 2 ^ k) := by
  intro cap
  induction cap, need using grow.induct with
  | case1 cap need hc ih =>
    intro hpos hcap
    rw [grow_of_lt hc.1 hc.2]
    by_cases hwrap : cap * 2 < h.size_mod
    · rw [ih (by omega) hwrap]
      constructor
      · rintro ⟨k, h1, h2, h3⟩
        refine ⟨k + 1, ?_, ?_, ?_⟩
        · rw [Nat.pow_succ]
          have : cap * (2 ^ k * 2) = cap * 2 * 2 ^ k := by ring
          omega
        · rw [Nat.pow_succ]
          have : cap * (2 ^ k * 2) = cap * 2 * 2 ^ k := by ring
          omega
        · rw [Nat.pow_succ]
          have : cap * (2 ^ k * 2) = cap * 2 * 2 ^ k := by ring
          rw [this]
          exact h3
      · rintro ⟨k, h1, h2, h3⟩
        cases k with
        | zero =>
          simp only [Nat.pow_zero, Nat.mul_one] at h1 h2 h3
          rw [Nat.mod_eq_of_lt hwrap] at h3
          omega
        | succ k =>
          rw [Nat.pow_succ] at h1 h2 h3
          have e1 : cap * (2 ^ k * 2) = cap * 2 * 2 ^ k := by ring
          rw [e1] at h1 h2 h3
          exact ⟨k, h1, h2, h3⟩
    · have hge := le_grow (cap * 2) need
      constructor
      · intro _
        refine ⟨0, by simpa using hc.1, by simpa using hcap, ?_⟩
        simp only [Nat.pow_zero, Nat.mul_one]
        rw [Nat.mod_eq_sub_mod (by omega), Nat.mod_eq_of_lt (by omega)]
        omega
      · intro _
        omega
  | case2 cap need hc =>
    intro hpos hcap
    have hle : need ≤ cap := by omega
    rw [grow_of_le hle]
    constructor
    · intro hx
      omega
    · rintro ⟨k, h1, _, _⟩
      have : cap * 1 ≤ cap * 2 ^ k := Nat.mul_le_mul_left _ (Nat.one_le_two_pow)
      omega

/-- A reservation whose end `off + n` is a `duk_size_t`, on any Encode
Context of capacity at least 1: if it returns, the region starts at the old
offset, the new offset is `off + n`, the capacity is the old one doubled the
least number of times that makes `off + n` fit, the region lies inside the
buffer, and the old contents of the buffer are kept, followed by zero bytes. -/
theorem reserve_no_wrap (h : Host) (fuel : Nat) (hfuel : h.size_bits ≤ fuel)
    (e : duk_cbor_encode_context) (n : Nat) (hw : e.well_formed h = true) (hpos : 0 < e.len)
    (hsum : e.off + n < h.size_mod) (p : Nat) (e1 : duk_cbor_encode_context)
    (hret : duk__cbor_encode_reserve h fuel e n = .ok (p, e1)) :
    p = e.off ∧ e1.off = e.off + n ∧ e1.idx_buf = e.idx_buf ∧
      e1.len = grow e.len (e.off + n) ∧ e1.off ≤ e1.len ∧ p + n ≤ e1.len ∧
      e1.well_formed h = true ∧
      (∃ k, e1.len = e.len * 2 ^ k ∧ e.off + n ≤ e.len * 2 ^ k ∧
        ∀ j, j < k → e.len * 2 ^ j < e.off + n) ∧
      ∃ data, e.ctx.get? e.idx_buf = some (.val (.buffer data)) ∧
        e1.ctx = e.ctx.set e.idx_buf
          (.val (.buffer (data ++ List.replicate (e1.len - e.len) 0))) := by
  obtain ⟨hcap, hoff, data, hd, hl⟩ := (well_formed_iff h e).1 hw
  have hf : h.size_mod ≤ e.len * 2 ^ fuel := pow_le_mul_pow e.len _ fuel hpos hfuel
  obtain ⟨h1, h2⟩ := reserve_loop_spec h n fuel e data hd hl hpos hcap hf
  have hmod : (e.off + n) % h.size_mod = e.off + n := Nat.mod_eq_of_lt hsum
  rw [hmod] at h1 h2
  unfold duk__cbor_encode_reserve at hret
  by_cases hfit : grow e.len (e.off + n) < h.size_mod
  · rw [h1 hfit] at hret
    simp only [bind, Except.bind, duk_require_buffer,
      get_set_same e.ctx e.idx_buf _ _ hd, hmod] at hret
    injection hret with hret
    injection hret with hp he
    subst hp
    subst he
    have hneed := need_le_grow e.len (e.off + n) hpos
    refine ⟨rfl, rfl, rfl, rfl, hneed, hneed, ?_, grow_least e.len (e.off + n) hpos,
      data, hd, rfl⟩
    rw [well_formed_iff]
    refine ⟨hfit, hsum, _, get_set_same e.ctx e.idx_buf _ _ hd, ?_⟩
    have := le_grow e.len (e.off + n)
    simp only [List.length_append, List.length_replicate, hl]
    omega
  · rw [h2 hfit] at hret
    cases hret

/-- The sum `off + n` of line 27 is taken in `duk_size_t`: on a 32-bit host,
after a first reservation of 5 bytes in the starting context, a reservation of
`4294967295` bytes wraps the sum to 4, so the loop grows nothing and the call
returns the region from offset 5 on in a buffer of 64 bytes. -/
theorem reserve_wraps (bytes : List Nat) (hlen : bytes.length = 4294967295) :
    duk__cbor_encode_reserve host32 32 { start_context with off := 5 } 4294967295 =
        .ok (5, { start_context with off := 4 }) ∧
      store { start_context with off := 4 } 5 bytes = .error .undefined_behaviour := by
  refine ⟨rfl, ?_⟩
  exact store_unfit [] [] [0, 0, 0, 0, 0] bytes 64 4 (by decide) (by rw [hlen]; decide)

/-- C19 (amended): for every Encode Context whose capacity is at least 1 and
every `n`, the growth loop of `duk__cbor_encode_reserve` terminates within `w`
iterations, `w` the width of the size type: it either returns, with the
capacity doubled until the wrapped sum of offset and `n` fits, or fails with
the "too large" error, and it fails exactly when some doubling produces a value
that is not strictly greater than the previous capacity in the wrapping
arithmetic of the size type. -/
theorem reserve_loop_terminates (h : Host) (e : duk_cbor_encode_context) (n : Nat)
    (hw : e.well_formed h = true) (hpos : 0 < e.len) (fuel : Nat)
    (hfuel : h.size_bits ≤ fuel) :
    duk__cbor_encode_reserve_loop h n fuel e =
        duk__cbor_encode_reserve_loop h n h.size_bits e ∧
      ((∃ e1 : duk_cbor_encode_context, duk__cbor_encode_reserve_loop h n fuel e = .ok e1 ∧
          e1.len = grow e.len ((e.off + n) % h.size_mod) ∧
          (e.off + n) % h.size_mod ≤ e1.len ∧ e1.len < h.size_mod ∧ e1.off = e.off) ∨
        duk__cbor_encode_reserve_loop h n fuel e = .error .range_too_large) ∧
      (duk__cbor_encode_reserve_loop h n fuel e = .error .range_too_large ↔
        ∃ k, e.len * 2 ^ k < (e.off + n) % h.size_mod ∧ e.len * 2 ^ k < h.size_mod ∧
          e.len * 2 ^ k * 2 % h.size_mod ≤ e.len * 2 ^ k) := by
  obtain ⟨hcap, hoff, data, hd, hl⟩ := (well_formed_iff h e).1 hw
  have hf : h.size_mod ≤ e.len * 2 ^ fuel := pow_le_mul_pow e.len _ fuel hpos hfuel
  have hf0 : h.size_mod ≤ e.len * 2 ^ h.size_bits :=
    pow_le_mul_pow e.len _ h.size_bits hpos (Nat.le_refl _)
  obtain ⟨h1, h2⟩ := reserve_loop_spec h n fuel e data hd hl hpos hcap hf
  obtain ⟨g1, g2⟩ := reserve_loop_spec h n h.size_bits e data hd hl hpos hcap hf0
  have hiff := grow_overflow_iff h ((e.off + n) % h.size_mod) e.len hpos hcap
  by_cases hfit : grow e.len ((e.off + n) % h.size_mod) < h.size_mod
  · refine ⟨by rw [h1 hfit, g1 hfit], Or.inl ⟨_, h1 hfit, rfl, ?_, hfit, rfl⟩, ?_⟩
    · exact need_le_grow e.len _ hpos
    · rw [h1 hfit]
      constructor
      · intro hx
        cases hx
      · intro hx
        exact absurd hfit (hiff.2 hx)
  · refine ⟨by rw [h2 hfit, g2 hfit], Or.inr (h2 hfit), ?_⟩
    constructor
    · intro _
      exact hiff.1 hfit
    · intro _
      exact h2 hfit

/-- Witness of C19 on a 64-bit host: a reservation of 100 bytes in the starting
context doubles the capacity once. -/
theorem reserve_loop_terminates_witness :
    start_context.well_formed host64 = true ∧ 0 < start_context.len ∧
      host64.size_bits ≤ 100 ∧
      duk__cbor_encode_reserve_loop host64 100 100 start_context =
        duk__cbor_encode_reserve_loop host64 100 host64.size_bits start_context ∧
      (duk__cbor_encode_reserve_loop host64 100 100 start_context).toOption.map
        (fun e => e.len) = some 128 :=
  ⟨by decide, by decide, by decide,
    (reserve_loop_terminates host64 start_context 100 (by decide) (by decide) 100
      (by decide)).1, rfl⟩

/-- Counterexample to C19 as stated: in a well-formed Encode Context of capacity
0 the loop never exits when a byte is to be reserved.  The doubled capacity is
0, which is not strictly greater than 0, yet line 29 tests `newlen < len` and
throws nothing: whatever the bound on the iterations, the loop is stopped by
the bound. -/
theorem reserve_loop_spins_at_capacity_zero :
    empty_context.well_formed host64 = true ∧
      empty_context.len * 2 % host64.size_mod ≤ empty_context.len ∧
      (∀ fuel : Nat,
        duk__cbor_encode_reserve_loop host64 1 fuel empty_context = .error .out_of_fuel) ∧
      (∀ (fuel : Nat) (e : duk_cbor_encode_context),
        duk__cbor_encode_reserve_loop host64 1 fuel empty_context ≠ .ok e) ∧
      (∀ fuel : Nat,
        duk__cbor_encode_reserve_loop host64 1 fuel empty_context ≠ .error .range_too_large) := by
  have hall : ∀ fuel : Nat,
      duk__cbor_encode_reserve_loop host64 1 fuel empty_context = .error .out_of_fuel :=
    fun fuel => reserve_loop_zero host64 1 fuel empty_context [] rfl rfl (by decide)
  refine ⟨by decide, by decide, hall, ?_, ?_⟩
  · intro fuel e hx
    rw [hall fuel] at hx
    cases hx
  · intro fuel hx
    rw [hall fuel] at hx
    cases hx

/-! ## The output is well-formed CBOR (claim C12) -/

theorem seq_ok (a b : Walk) (hs : (Walk.seq a b).2 = true) :
    a.2 = true ∧ b.2 = true ∧ (Walk.seq a b).1 = a.1 ++ b.1 := by
  rcases a with ⟨a1, a2⟩
  cases a2 with
  | false => simp [Walk.seq] at hs
  | true =>
    simp only [Walk.seq, if_true] at hs ⊢
    exact ⟨trivial, hs, trivial⟩

theorem walk_bytes_parts (bytes : List Nat) (base : Nat)
    (hs : (walk_bytes bytes base).2 = true) :
    bytes.length < 2 ^ 32 ∧ (walk_bytes bytes base).1 = uint32_bytes bytes.length base ++ bytes := by
  unfold walk_bytes at hs ⊢
  by_cases hl : bytes.length ≠ bytes.length % 2 ^ 32
  · rw [if_pos hl] at hs
    cases hs
  · rw [if_neg hl]
    have hl2 : bytes.length = bytes.length % 2 ^ 32 := by
      by_contra hc
      exact hl hc
    have hlt : bytes.length % 2 ^ 32 < 2 ^ 32 := Nat.mod_lt _ (by decide)
    refine ⟨by omega, ?_⟩
    rw [← hl2]

theorem walk_array_parts (h : Host) (xs : List Value) (hs : (walk h (.array xs)).2 = true) :
    xs.length < 2 ^ 32 ∧ (walk_array h xs).2 = true ∧
      (walk h (.array xs)).1 = uint32_bytes xs.length 0x80 ++ (walk_array h xs).1 := by
  rw [walk] at hs ⊢
  by_cases hl : xs.length ≠ xs.length % 2 ^ 32
  · rw [if_pos hl] at hs
    cases hs
  · rw [if_neg hl] at hs ⊢
    have hl2 : xs.length = xs.length % 2 ^ 32 := by
      by_contra hc
      exact hl hc
    have hlt : xs.length % 2 ^ 32 < 2 ^ 32 := Nat.mod_lt _ (by decide)
    obtain ⟨_, h2, h3⟩ := seq_ok _ _ hs
    refine ⟨by omega, h2, ?_⟩
    rw [h3, ← hl2]

theorem walk_object_parts (h : Host) (ps : List (Value × Value))
    (hs : (walk h (.object ps)).2 = true) :
    (walk_map h ps).2 = true ∧
      (walk h (.object ps)).1 = 0xbf :: ((walk_map h ps).1 ++ [0xff]) := by
  rw [walk] at hs ⊢
  obtain ⟨_, h2, h3⟩ := seq_ok _ _ hs
  obtain ⟨h4, _, h5⟩ := seq_ok _ _ h2
  refine ⟨h4, ?_⟩
  rw [h3, h5]
  rfl

theorem walk_array_cons (h : Host) (x : Value) (rest : List Value)
    (hs : (walk_array h (x :: rest)).2 = true) :
    (walk h x).2 = true ∧ (walk_array h rest).2 = true ∧
      (walk_array h (x :: rest)).1 = (walk h x).1 ++ (walk_array h rest).1 := by
  rw [walk_array] at hs ⊢
  exact seq_ok _ _ hs

theorem walk_map_cons (h : Host) (k v : Value) (rest : List (Value × Value))
    (hs : (walk_map h ((k, v) :: rest)).2 = true) :
    (walk h k).2 = true ∧ (walk h v).2 = true ∧ (walk_map h rest).2 = true ∧
      (walk_map h ((k, v) :: rest)).1 = (walk h k).1 ++ ((walk h v).1 ++ (walk_map h rest).1) := by
  rw [walk_map] at hs ⊢
  obtain ⟨h1, h2, h3⟩ := seq_ok _ _ hs
  obtain ⟨h4, h5, h6⟩ := seq_ok _ _ h2
  refine ⟨h1, h4, h5, ?_⟩
  rw [h3, h6]

theorem encoder_initial_byte_of (ib : Nat) (h1 : ib < 0xc0) (h2 : ib % 32 ≠ 27)
    (h3 : ib % 32 ≠ 31) : encoder_initial_byte ib = true := by
  unfold encoder_initial_byte
  have a1 : decide (ib < 0xc0) = true := by simpa using h1
  have a2 : decide (ib % 32 ≠ 27) = true := by simpa using h2
  have a3 : decide (ib ≠ 0x5f) = true := by
    have : ib ≠ 0x5f := by omega
    simpa using this
  have a4 : decide (ib ≠ 0x7f) = true := by
    have : ib ≠ 0x7f := by omega
    simpa using this
  rw [a1, a2, a3, a4]
  rfl

/-- The head `duk__cbor_encode_uint32` stores is read back by the check: its
initial byte has the major type of the base, and the argument is `u`. -/
theorem head_parse (u base : Nat) (hu : u < 2 ^ 32)
    (hb : base = 0x00 ∨ base = 0x20 ∨ base = 0x40 ∨ base = 0x60 ∨ base = 0x80) :
    ∃ ib tl, uint32_bytes u base = ib :: tl ∧ ib < 256 ∧ ib >>> 5 = base / 32 ∧
      ib &&& 0x1f ≠ 31 ∧ ib < 0xa0 ∧ encoder_initial_byte ib = true ∧
      ∀ r, head_argument (ib &&& 0x1f) (tl ++ r) = some (u, r) := by
  have hb224 : base ≤ 224 := by omega
  have hb32 : base % 32 = 0 := by omega
  have h32 : (2 : Nat) ^ 32 = 4294967296 := by decide
  have h5 : (2 : Nat) ^ 5 = 32 := by decide
  rw [uint32_bytes_div u base hu hb224]
  rw [h32] at hu
  by_cases h1 : u ≤ 23
  · rw [if_pos h1]
    refine ⟨_, _, rfl, by omega, ?_, ?_, by omega, ?_, ?_⟩
    · rw [shr_div, h5]; omega
    · rw [and_1f]; omega
    · exact encoder_initial_byte_of _ (by omega) (by omega) (by omega)
    · intro r
      have e : (base + u) % 32 = u := by omega
      rw [and_1f, e]
      simp [head_argument]
      omega
  · rw [if_neg h1]
    by_cases h2 : u ≤ 0xff
    · rw [if_pos h2]
      refine ⟨_, _, rfl, by omega, ?_, ?_, by omega, ?_, ?_⟩
      · rw [shr_div, h5]; omega
      · rw [and_1f]; omega
      · exact encoder_initial_byte_of _ (by omega) (by omega) (by omega)
      · intro r
        have e : (base + 24) % 32 = 24 := by omega
        rw [and_1f, e]
        simp [head_argument, take, uint]
    · rw [if_neg h2]
      by_cases h3 : u ≤ 0xffff
      · rw [if_pos h3]
        refine ⟨_, _, rfl, by omega, ?_, ?_, by omega, ?_, ?_⟩
        · rw [shr_div, h5]; omega
        · rw [and_1f]; omega
        · exact encoder_initial_byte_of _ (by omega) (by omega) (by omega)
        · intro r
          have e : (base + 25) % 32 = 25 := by omega
          rw [and_1f, e]
          simp [head_argument, take, uint]
          omega
      · rw [if_neg h3]
        refine ⟨_, _, rfl, by omega, ?_, ?_, by omega, ?_, ?_⟩
        · rw [shr_div, h5]; omega
        · rw [and_1f]; omega
        · exact encoder_initial_byte_of _ (by omega) (by omega) (by omega)
        · intro r
          have e : (base + 26) % 32 = 26 := by omega
          rw [and_1f, e]
          simp [head_argument, take, uint]
          omega

/-- One step of the check on a definite-length head. -/
theorem well_formed_step (allowed : Nat → Bool) (fuel : Nat) (breakable : Bool)
    (ib : Nat) (inp : List Nat) (val : Nat) (inp1 : List Nat)
    (h1 : ib < 256) (h2 : ib &&& 0x1f ≠ 31) (h3 : allowed ib = true)
    (h4 : head_argument (ib &&& 0x1f) inp = some (val, inp1)) :
    well_formed allowed (fuel + 1) breakable (ib :: inp) =
      if ib >>> 5 = 2 ∨ ib >>> 5 = 3 then
        (take val inp1).map (fun r => (((ib >>> 5 : Nat) : Int), r.2))
      else if ib >>> 5 = 4 then
        (well_formed_items allowed fuel val inp1).map (fun r => (((ib >>> 5 : Nat) : Int), r))
      else if ib >>> 5 = 5 then
        (well_formed_items allowed fuel (val * 2) inp1).map
          (fun r => (((ib >>> 5 : Nat) : Int), r))
      else if ib >>> 5 = 6 then
        (well_formed allowed fuel false inp1).map (fun r => (((ib >>> 5 : Nat) : Int), r.2))
      else some (((ib >>> 5 : Nat) : Int), inp1) := by
  rw [well_formed]
  rw [if_neg (by omega), if_neg h2, if_neg (by rw [h3]; simp), h4]

theorem well_formed_items_zero (allowed : Nat → Bool) (fuel : Nat) (inp : List Nat) :
    well_formed_items allowed fuel 0 inp = some inp := by
  cases fuel <;> rw [well_formed_items]

theorem take_append (bs r : List Nat) : take bs.length (bs ++ r) = some (bs, r) := by
  simp [take]

/-- On the integer fast path the bytes are a head with base `0x00` or `0x20`. -/
theorem double_bytes_fast (h : Host) (d : Double) (hf : d.fast = true) :
    ∃ u base, u < 2 ^ 32 ∧ (base = 0x00 ∨ base = 0x20) ∧
      double_bytes h d = uint32_bytes u base := by
  unfold double_bytes
  rw [if_pos hf]
  unfold Double.fast at hf
  generalize d.mag / Double.one_units = q at hf ⊢
  simp only [Bool.and_eq_true, decide_eq_true_eq] at hf
  obtain ⟨_, hq⟩ := hf
  by_cases hs : d.sign = true
  · rw [if_pos hs] at hq ⊢
    have hq2 : q ≤ 4294967296 := by simpa using hq
    exact ⟨q - 1, 0x20, by have : (2 : Nat) ^ 32 = 4294967296 := by decide
                           omega, Or.inr rfl, rfl⟩
  · rw [if_neg hs] at hq ⊢
    have hq2 : q ≤ 4294967295 := by simpa using hq
    exact ⟨q, 0x00, by have : (2 : Nat) ^ 32 = 4294967296 := by decide
                       omega, Or.inl rfl, rfl⟩

/-- A head alone, for a major type without content, is a well-formed item. -/
theorem well_formed_head (allowed : Nat → Bool)
    (hall : ∀ b, encoder_initial_byte b = true → allowed b = true) (fuel : Nat)
    (breakable : Bool) (u base : Nat) (hu : u < 2 ^ 32) (hb : base = 0x00 ∨ base = 0x20)
    (r : List Nat) :
    ∃ k : Int, k ≠ -1 ∧
      well_formed allowed (fuel + 1) breakable (uint32_bytes u base ++ r) = some (k, r) := by
  obtain ⟨ib, tl, hbytes, h1, h2, h3, _, h5, h6⟩ := head_parse u base hu (by omega)
  rw [hbytes, List.cons_append,
    well_formed_step allowed fuel breakable ib (tl ++ r) u r h1 h3 (hall _ h5) (h6 r)]
  have hmt : ib >>> 5 = 0 ∨ ib >>> 5 = 1 := by omega
  refine ⟨((ib >>> 5 : Nat) : Int), by omega, ?_⟩
  rw [if_neg (by omega), if_neg (by omega), if_neg (by omega), if_neg (by omega)]

/-- A byte or text string is a well-formed item. -/
theorem well_formed_string (allowed : Nat → Bool)
    (hall : ∀ b, encoder_initial_byte b = true → allowed b = true) (fuel : Nat)
    (breakable : Bool) (bytes : List Nat) (base : Nat) (hb : base = 0x40 ∨ base = 0x60)
    (hs : (walk_bytes bytes base).2 = true) (r : List Nat) :
    ∃ k : Int, k ≠ -1 ∧
      well_formed allowed (fuel + 1) breakable ((walk_bytes bytes base).1 ++ r) = some (k, r) := by
  obtain ⟨hlen, hbytes⟩ := walk_bytes_parts bytes base hs
  obtain ⟨ib, tl, hhead, h1, h2, h3, _, h5, h6⟩ := head_parse bytes.length base hlen (by omega)
  rw [hbytes, hhead]
  simp only [List.cons_append, List.append_assoc]
  rw [well_formed_step allowed fuel breakable ib (tl ++ (bytes ++ r)) bytes.length (bytes ++ r)
      h1 h3 (hall _ h5) (h6 _)]
  have hmt : ib >>> 5 = 2 ∨ ib >>> 5 = 3 := by omega
  refine ⟨((ib >>> 5 : Nat) : Int), by omega, ?_⟩
  rw [if_pos hmt, take_append]
  rfl

/-- A single byte that is a simple value is a well-formed item. -/
theorem well_formed_simple (allowed : Nat → Bool) (fuel : Nat) (breakable : Bool) (ib : Nat)
    (r : List Nat) (h1 : 0xe0 ≤ ib) (h2 : ib < 0xf8) (h3 : allowed ib = true) :
    well_formed allowed (fuel + 1) breakable (ib :: r) = some (7, r) := by
  have h5 : (2 : Nat) ^ 5 = 32 := by decide
  have hai : ib &&& 0x1f = ib % 32 := and_1f ib
  have hmt : ib >>> 5 = 7 := by rw [shr_div, h5]; omega
  have harg : head_argument (ib &&& 0x1f) r = some (ib % 32, r) := by
    rw [hai]
    unfold head_argument
    rw [if_pos (by omega)]
  rw [well_formed_step allowed fuel breakable ib r (ib % 32) r (by omega)
    (by rw [hai]; omega) h3 harg, hmt]
  rfl

/-- The nine bytes of a double-precision float are a well-formed item. -/
theorem well_formed_float (allowed : Nat → Bool) (fuel : Nat) (breakable : Bool)
    (p r : List Nat) (hp : p.length = 8) (h3 : allowed 0xfb = true) :
    well_formed allowed (fuel + 1) breakable (0xfb :: p ++ r) = some (7, r) := by
  have harg : head_argument (0xfb &&& 0x1f) (p ++ r) = some (uint p, r) := by
    have e : (0xfb : Nat) &&& 0x1f = 27 := by decide
    rw [e]
    unfold head_argument
    rw [if_neg (by decide), if_neg (by decide), if_neg (by decide), if_neg (by decide),
      if_pos rfl, ← hp, take_append]
    rfl
  rw [List.cons_append, well_formed_step allowed fuel breakable 0xfb (p ++ r) (uint p) r
    (by decide) (by decide) h3 harg]
  rfl

theorem float_bytes_shape (h : Host) (d : Double) :
    ∃ p, float_bytes h d = 0xfb :: p ∧ p.length = 8 :=
  ⟨_, rfl, rfl⟩

/-- A number is a well-formed item. -/
theorem well_formed_number (allowed : Nat → Bool)
    (hall : ∀ b, encoder_initial_byte b = true → allowed b = true) (fuel : Nat)
    (breakable : Bool) (h : Host) (d : Double) (r : List Nat) :
    ∃ k : Int, k ≠ -1 ∧
      well_formed allowed (fuel + 1) breakable (double_bytes h d ++ r) = some (k, r) := by
  by_cases hf : d.fast = true
  · obtain ⟨u, base, hu, hb, hbytes⟩ := double_bytes_fast h d hf
    rw [hbytes]
    exact well_formed_head allowed hall fuel breakable u base hu hb r
  · have hbytes : double_bytes h d = float_bytes h d := by
      unfold double_bytes
      rw [if_neg hf]
    obtain ⟨p, hp, hlen⟩ := float_bytes_shape h d
    rw [hbytes, hp]
    exact ⟨7, by decide, well_formed_float allowed fuel breakable p r hlen
      (hall _ (by decide))⟩

theorem walk_bytes_pos (bytes : List Nat) (base : Nat) (hs : (walk_bytes bytes base).2 = true) :
    1 ≤ (walk_bytes bytes base).1.length := by
  obtain ⟨_, hb⟩ := walk_bytes_parts bytes base hs
  rw [hb, List.length_append, uint32_bytes_length]
  split
  · omega
  · split
    · omega
    · split <;> omega

theorem double_bytes_pos (h : Host) (d : Double) : 1 ≤ (double_bytes h d).length := by
  rcases double_bytes_cases h d with ⟨_, p, hp, _⟩ | ⟨_, b, rest, hb, _⟩
  · rw [hp]; simp
  · rw [hb]; simp

/-- Every value the walk completes on emits at least one byte. -/
theorem walk_pos (h : Host) (v : Value) (hs : (walk h v).2 = true) :
    1 ≤ (walk h v).1.length := by
  cases v with
  | undefined => rw [walk]; simp
  | null => rw [walk]; simp
  | boolean b => rw [walk]; simp
  | number d => rw [walk]; exact double_bytes_pos h d
  | string bytes => rw [walk] at hs ⊢; exact walk_bytes_pos bytes _ hs
  | array elems =>
    obtain ⟨_, _, hb⟩ := walk_array_parts h elems hs
    rw [hb, List.length_append, uint32_bytes_length]
    split
    · omega
    · split
      · omega
      · split <;> omega
  | bufobj bytes => rw [walk] at hs ⊢; exact walk_bytes_pos bytes _ hs
  | object props =>
    obtain ⟨_, hb⟩ := walk_object_parts h props hs
    rw [hb]
    simp
  | buffer bytes => rw [walk] at hs ⊢; exact walk_bytes_pos bytes _ hs
  | pointer p => rw [walk]; simp
  | lightfunc f => rw [walk]; simp
  | unknown t => rw [walk] at hs; cases hs

mutual

/-- The check accepts the bytes of a value, whatever follows them, and leaves
what follows. -/
theorem well_formed_walk (h : Host) (allowed : Nat → Bool)
    (hall : ∀ b, encoder_initial_byte b = true → allowed b = true) :
    ∀ (v : Value) (fuel : Nat) (breakable : Bool) (r : List Nat),
      (walk h v).2 = true → 2 * (walk h v).1.length ≤ fuel →
      ∃ k : Int, k ≠ -1 ∧
        well_formed allowed fuel breakable ((walk h v).1 ++ r) = some (k, r)
  | .undefined, fuel, b, r, hs, hf => by
    rw [walk] at hf ⊢
    obtain ⟨f, rfl⟩ : ∃ f, fuel = f + 1 := ⟨fuel - 1, by simp at hf; omega⟩
    exact ⟨7, by decide, well_formed_simple allowed f b 0xf7 r (by decide) (by decide)
      (hall _ (by decide))⟩
  | .null, fuel, b, r, hs, hf => by
    rw [walk] at hf ⊢
    obtain ⟨f, rfl⟩ : ∃ f, fuel = f + 1 := ⟨fuel - 1, by simp at hf; omega⟩
    exact ⟨7, by decide, well_formed_simple allowed f b 0xf6 r (by decide) (by decide)
      (hall _ (by decide))⟩
  | .boolean x, fuel, b, r, hs, hf => by
    rw [walk] at hf ⊢
    obtain ⟨f, rfl⟩ : ∃ f, fuel = f + 1 := ⟨fuel - 1, by simp at hf; omega⟩
    cases x with
    | true =>
      exact ⟨7, by decide, well_formed_simple allowed f b 0xf5 r (by decide) (by decide)
        (hall _ (by decide))⟩
    | false =>
      exact ⟨7, by decide, well_formed_simple allowed f b 0xf4 r (by decide) (by decide)
        (hall _ (by decide))⟩
  | .number d, fuel, b, r, hs, hf => by
    have hp := double_bytes_pos h d
    rw [walk] at hf ⊢
    obtain ⟨f, rfl⟩ : ∃ f, fuel = f + 1 := ⟨fuel - 1, by simp only at hf; omega⟩
    exact well_formed_number allowed hall f b h d r
  | .string bytes, fuel, b, r, hs, hf => by
    have hp := walk_pos h _ hs
    rw [walk] at hs hf ⊢
    obtain ⟨f, rfl⟩ : ∃ f, fuel = f + 1 := ⟨fuel - 1, by rw [walk] at hp; omega⟩
    exact well_formed_string allowed hall f b bytes 0x60 (Or.inr rfl) hs r
  | .bufobj bytes, fuel, b, r, hs, hf => by
    have hp := walk_pos h _ hs
    rw [walk] at hs hf ⊢
    obtain ⟨f, rfl⟩ : ∃ f, fuel = f + 1 := ⟨fuel - 1, by rw [walk] at hp; omega⟩
    exact well_formed_string allowed hall f b bytes 0x40 (Or.inl rfl) hs r
  | .buffer bytes, fuel, b, r, hs, hf => by
    have hp := walk_pos h _ hs
    rw [walk] at hs hf ⊢
    obtain ⟨f, rfl⟩ : ∃ f, fuel = f + 1 := ⟨fuel - 1, by rw [walk] at hp; omega⟩
    exact well_formed_string allowed hall f b bytes 0x40 (Or.inl rfl) hs r
  | .pointer _, fuel, b, r, hs, hf => by
    rw [walk] at hf ⊢
    obtain ⟨f, rfl⟩ : ∃ f, fuel = f + 1 := ⟨fuel - 1, by simp at hf; omega⟩
    exact ⟨7, by decide, well_formed_simple allowed f b 0xf7 r (by decide) (by decide)
      (hall _ (by decide))⟩
  | .lightfunc _, fuel, b, r, hs, hf => by
    rw [walk] at hf ⊢
    obtain ⟨f, rfl⟩ : ∃ f, fuel = f + 1 := ⟨fuel - 1, by simp at hf; omega⟩
    refine ⟨5, by decide, ?_⟩
    have harg : head_argument (0xa0 &&& 0x1f) r = some (0, r) := rfl
    rw [List.singleton_append, well_formed_step allowed f b 0xa0 r 0 r (by decide) (by decide)
      (hall _ (by decide)) harg]
    rw [if_neg (by decide), if_neg (by decide), if_pos (by decide), well_formed_items_zero]
    rfl
  | .unknown _, fuel, b, r, hs, hf => by
    rw [walk] at hs
    cases hs
  | .array elems, fuel, b, r, hs, hf => by
    obtain ⟨hlen, hsa, hbytes⟩ := walk_array_parts h elems hs
    obtain ⟨ib, tl, hhead, h1, h2, h3, _, h5, h6⟩ := head_parse elems.length 0x80 hlen (by omega)
    rw [hbytes] at hf ⊢
    have hhl : 1 ≤ (uint32_bytes elems.length 0x80).length := by rw [hhead]; simp
    rw [List.length_append] at hf
    obtain ⟨f, rfl⟩ : ∃ f, fuel = f + 1 := ⟨fuel - 1, by omega⟩
    rw [hhead]
    simp only [List.cons_append, List.append_assoc]
    rw [well_formed_step allowed f b ib (tl ++ ((walk_array h elems).1 ++ r)) elems.length
        ((walk_array h elems).1 ++ r) h1 h3 (hall _ h5) (h6 _)]
    have hmt : ib >>> 5 = 4 := by omega
    refine ⟨((ib >>> 5 : Nat) : Int), by omega, ?_⟩
    rw [if_neg (by omega), if_pos hmt,
      well_formed_walk_array h allowed hall elems f r hsa (by omega)]
    rfl
  | .object props, fuel, b, r, hs, hf => by
    obtain ⟨hsm, hbytes⟩ := walk_object_parts h props hs
    rw [hbytes] at hf ⊢
    simp only [List.length_cons, List.length_append, List.length_nil] at hf
    obtain ⟨f, rfl⟩ : ∃ f, fuel = f + 1 := ⟨fuel - 1, by omega⟩
    refine ⟨0, by decide, ?_⟩
    rw [List.cons_append, List.append_assoc, well_formed]
    have e1 : (0xbf : Nat) &&& 0x1f = 31 := by decide
    have e2 : (0xbf : Nat) >>> 5 = 5 := by decide
    rw [if_neg (by decide), if_pos e1, e2, if_neg (by decide),
      if_neg (by rw [hall _ (by decide)]; simp), if_neg (by decide), if_neg (by decide),
      if_pos rfl, List.singleton_append,
      well_formed_walk_map h allowed hall props f r hsm (by omega)]
    rfl

/-- The check accepts the bytes of the elements of an array as that many
items. -/
theorem well_formed_walk_array (h : Host) (allowed : Nat → Bool)
    (hall : ∀ b, encoder_initial_byte b = true → allowed b = true) :
    ∀ (xs : List Value) (fuel : Nat) (r : List Nat),
      (walk_array h xs).2 = true → 2 * (walk_array h xs).1.length + 1 ≤ fuel →
      well_formed_items allowed fuel xs.length ((walk_array h xs).1 ++ r) = some r
  | [], fuel, r, hs, hf => by
    rw [walk_array]
    exact well_formed_items_zero allowed fuel _
  | x :: rest, fuel, r, hs, hf => by
    obtain ⟨hx, hrest, hbytes⟩ := walk_array_cons h x rest hs
    have hpx := walk_pos h x hx
    rw [hbytes] at hf ⊢
    rw [List.length_append] at hf
    obtain ⟨f, rfl⟩ : ∃ f, fuel = f + 1 := ⟨fuel - 1, by omega⟩
    obtain ⟨k, _, hk⟩ := well_formed_walk h allowed hall x f false
      ((walk_array h rest).1 ++ r) hx (by omega)
    rw [List.length_cons, well_formed_items, List.append_assoc, hk]
    exact well_formed_walk_array h allowed hall rest f r hrest (by omega)

/-- The check accepts the bytes of the entries of a map followed by a break as
pairs of items up to the break. -/
theorem well_formed_walk_map (h : Host) (allowed : Nat → Bool)
    (hall : ∀ b, encoder_initial_byte b = true → allowed b = true) :
    ∀ (ps : List (Value × Value)) (fuel : Nat) (r : List Nat),
      (walk_map h ps).2 = true → 2 * (walk_map h ps).1.length + 2 ≤ fuel →
      well_formed_pairs allowed fuel ((walk_map h ps).1 ++ 0xff :: r) = some r
  | [], fuel, r, hs, hf => by
    rw [walk_map] at hf ⊢
    obtain ⟨f, rfl⟩ : ∃ f, fuel = f + 2 := ⟨fuel - 2, by omega⟩
    rw [List.nil_append, well_formed_pairs, well_formed]
    have e1 : (0xff : Nat) &&& 0x1f = 31 := by decide
    have e2 : (0xff : Nat) >>> 5 = 7 := by decide
    rw [if_neg (by decide), if_pos e1, if_pos e2]
    rfl
  | (k, v) :: rest, fuel, r, hs, hf => by
    obtain ⟨hk, hv, hrest, hbytes⟩ := walk_map_cons h k v rest hs
    have hpk := walk_pos h k hk
    have hpv := walk_pos h v hv
    rw [hbytes] at hf ⊢
    simp only [List.length_append] at hf
    obtain ⟨f, rfl⟩ : ∃ f, fuel = f + 1 := ⟨fuel - 1, by omega⟩
    obtain ⟨kk, hkk, hk1⟩ := well_formed_walk h allowed hall k f true
      ((walk h v).1 ++ ((walk_map h rest).1 ++ 0xff :: r)) hk (by omega)
    obtain ⟨kv, _, hv1⟩ := well_formed_walk h allowed hall v f false
      ((walk_map h rest).1 ++ 0xff :: r) hv (by omega)
    rw [well_formed_pairs, List.append_assoc, List.append_assoc, hk1]
    simp only []
    rw [if_neg hkk, hv1]
    exact well_formed_walk_map h allowed hall rest f r hrest (by omega)

end

/-- C12: for every value on which `duk_cbor_encode` succeeds, the output is
exactly one well-formed RFC 7049 data item.  The well-formedness check of
Appendix C accepts the output as one item and leaves no byte over; the check
reads as many items after an array head as the head declares, and reads the
items of an indefinite-length map two at a time up to the break.  The check
still accepts when it rejects every initial byte other than those of major
types 0 to 5 without 64-bit heads and indefinite-length strings, `0xF4` to
`0xF7` and `0xFB`.  A nesting bound of twice the output length is enough. -/
theorem output_well_formed (h : Host) (fuel : Nat) (hfuel : h.size_bits ≤ fuel)
    (below : ValStack) (v : Value) (out : List Nat)
    (hok : encode_call h fuel below v = .ok out) (n : Nat) (hn : 2 * out.length ≤ n) :
    (∃ k : Int, k ≠ -1 ∧ well_formed any_initial_byte n false out = some (k, [])) ∧
      (∃ k : Int, k ≠ -1 ∧ well_formed encoder_initial_byte n false out = some (k, [])) := by
  obtain ⟨hw, _⟩ := (encode_call_ok_iff h fuel hfuel below v out).1 hok
  have hs : (walk h v).2 = true := by rw [hw]
  have hb : (walk h v).1 = out := by rw [hw]
  constructor
  · have := well_formed_walk h any_initial_byte (fun _ _ => rfl) v n false [] hs
      (by rw [hb]; exact hn)
    rw [hb, List.append_nil] at this
    exact this
  · have := well_formed_walk h encoder_initial_byte (fun _ hx => hx) v n false [] hs
      (by rw [hb]; exact hn)
    rw [hb, List.append_nil] at this
    exact this

/-- Witness of C12 on a 64-bit host: the map with the one entry `"a"` to
`[null, true]` encodes to `BF 61 61 82 F6 F5 FF`, which the check accepts as
one indefinite-length item. -/
theorem output_well_formed_witness :
    host64.size_bits ≤ 64 ∧
      encode_call host64 64 [] (.object [(.string [0x61], .array [.null, .boolean true])]) =
        .ok [0xbf, 0x61, 0x61, 0x82, 0xf6, 0xf5, 0xff] ∧
      2 * [0xbf, 0x61, 0x61, 0x82, 0xf6, 0xf5, 0xff].length ≤ 14 ∧
      well_formed any_initial_byte 14 false [0xbf, 0x61, 0x61, 0x82, 0xf6, 0xf5, 0xff] =
        some (0, []) ∧
      well_formed encoder_initial_byte 14 false [0xbf, 0x61, 0x61, 0x82, 0xf6, 0xf5, 0xff] =
        some (0, []) := by
  have hok : encode_call host64 64 []
      (.object [(.string [0x61], .array [.null, .boolean true])]) =
        .ok [0xbf, 0x61, 0x61, 0x82, 0xf6, 0xf5, 0xff] :=
    encode_call_ok host64 64 (by decide) [] _ _ (by decide) (by decide)
  obtain ⟨⟨k1, _, h1⟩, ⟨k2, _, h2⟩⟩ :=
    output_well_formed host64 64 (by decide) [] _ _ hok 14 (by decide)
  exact ⟨by decide, hok, by decide, by decide, by decide⟩

/-! ## The encoding is injective (claim C20) -/

/-- Item boundaries are unambiguous: the bytes of a value followed by
anything are the bytes of another value followed by anything only if the two
encodings and the two remainders agree. -/
theorem walk_split (h : Host) (v w : Value) (hv : (walk h v).2 = true)
    (hw : (walk h w).2 = true) (r r1 : List Nat)
    (heq : (walk h v).1 ++ r = (walk h w).1 ++ r1) :
    (walk h v).1 = (walk h w).1 ∧ r = r1 := by
  obtain ⟨k, _, hk⟩ := well_formed_walk h any_initial_byte (fun _ _ => rfl) v
    (2 * (walk h v).1.length + 2 * (walk h w).1.length) false r hv (by omega)
  obtain ⟨k1, _, hk1⟩ := well_formed_walk h any_initial_byte (fun _ _ => rfl) w
    (2 * (walk h v).1.length + 2 * (walk h w).1.length) false r1 hw (by omega)
  rw [heq, hk1] at hk
  injection hk with hk
  injection hk with _ hr
  subst hr
  exact ⟨List.append_cancel_right heq, rfl⟩

theorem bits_inj (d e : Double) (hb : d.bits = e.bits) : d = e := by
  rcases d with ⟨s, ⟨x, hx⟩, ⟨f, hf⟩⟩
  rcases e with ⟨s1, ⟨x1, hx1⟩, ⟨f1, hf1⟩⟩
  simp only [Double.bits] at hb
  have h63 : (2 : Nat) ^ 63 = 9223372036854775808 := by decide
  have h52 : (2 : Nat) ^ 52 = 4503599627370496 := by decide
  rw [h63, h52] at hb
  cases s <;> cases s1 <;> simp only [if_true, if_false, Bool.false_eq_true] at hb <;>
    first
    | (have hxe : x = x1 := by omega
       have hfe : f = f1 := by omega
       subst hxe
       subst hfe
       rfl)
    | (exfalso; omega)

theorem bits_lt (d : Double) : d.bits < 2 ^ 64 := by
  rcases d with ⟨s, ⟨x, hx⟩, ⟨f, hf⟩⟩
  simp only [Double.bits]
  have h63 : (2 : Nat) ^ 63 = 9223372036854775808 := by decide
  have h52 : (2 : Nat) ^ 52 = 4503599627370496 := by decide
  have h64 : (2 : Nat) ^ 64 = 18446744073709551616 := by decide
  rw [h63, h52, h64]
  split <;> omega

theorem big_endian_inj (a b : Nat) (ha : a < 2 ^ 64) (hb : b < 2 ^ 64)
    (he : big_endian 8 a = big_endian 8 b) : a = b := by
  have h64 : (2 : Nat) ^ 64 = 18446744073709551616 := by decide
  rw [h64] at ha hb
  simp [big_endian, List.range_succ] at he
  omega

theorem float_bytes_inj (h : Host) (d e : Double) (he : float_bytes h d = float_bytes h e) :
    d = e := by
  apply bits_inj
  apply big_endian_inj _ _ (bits_lt d) (bits_lt e)
  by_cases hbe : h.big_endian = true
  · rw [float_bytes_big h hbe, float_bytes_big h hbe] at he
    injection he with _ he
    exact List.reverse_injective he
  · have hle : h.big_endian = false := by simpa using hbe
    rw [float_bytes_little h hle, float_bytes_little h hle] at he
    injection he

theorem mag_ne_aux (m m1 a t : Nat) (hm : m < 2 ^ 53) (hm1 : 2 ^ 52 ≤ m1) :
    m * 2 ^ a ≠ m1 * 2 ^ (a + t + 1) := by
  have h1 : m1 * 2 ^ (a + t + 1) = m1 * 2 ^ (t + 1) * 2 ^ a := by
    rw [Nat.pow_add, Nat.pow_add]
    ring
  have h2 : 2 ^ 53 ≤ m1 * 2 ^ (t + 1) := by
    have h3 : (2 : Nat) ^ 1 ≤ 2 ^ (t + 1) := Nat.pow_le_pow_right (by decide) (by omega)
    calc 2 ^ 53 = 2 ^ 52 * 2 ^ 1 := by decide
      _ ≤ m1 * 2 ^ (t + 1) := Nat.mul_le_mul hm1 h3
  have h4 : m * 2 ^ a < m1 * 2 ^ (t + 1) * 2 ^ a :=
    Nat.mul_lt_mul_of_pos_right (by omega) (Nat.two_pow_pos a)
  omega

/-- The magnitude determines the exponent and the fraction. -/
theorem mag_inj (d e : Double) (hm : d.mag = e.mag) : d.expo = e.expo ∧ d.frac = e.frac := by
  rcases d with ⟨s, ⟨x, hx⟩, ⟨f, hf⟩⟩
  rcases e with ⟨s1, ⟨x1, hx1⟩, ⟨f1, hf1⟩⟩
  simp only [Double.mag] at hm
  have h52 : (2 : Nat) ^ 52 = 4503599627370496 := by decide
  have h53 : (2 : Nat) ^ 53 = 9007199254740992 := by decide
  by_cases h0 : x = 0
  · subst h0
    by_cases h1 : x1 = 0
    · subst h1
      simp at hm
      subst hm
      exact ⟨rfl, rfl⟩
    · exfalso
      rw [if_pos rfl, if_neg h1] at hm
      have := mag_ne_aux f (2 ^ 52 + f1) 0 (x1 - 1 - 1 + 0) (by omega) (by omega)
      have e1 : x1 - 1 = 0 + (x1 - 1 - 1 + 0) + 1 ∨ x1 - 1 = 0 := by omega
      rcases e1 with e1 | e1
      · rw [← e1] at this
        exact this hm
      · rw [e1] at hm
        simp at hm
        omega
  · by_cases h1 : x1 = 0
    · subst h1
      exfalso
      rw [if_neg h0, if_pos rfl] at hm
      have := mag_ne_aux f1 (2 ^ 52 + f) 0 (x - 1 - 1 + 0) (by omega) (by omega)
      have e1 : x - 1 = 0 + (x - 1 - 1 + 0) + 1 ∨ x - 1 = 0 := by omega
      rcases e1 with e1 | e1
      · rw [← e1] at this
        exact this hm.symm
      · rw [e1] at hm
        simp at hm
        omega
    · rw [if_neg h0, if_neg h1] at hm
      rcases Nat.lt_trichotomy (x - 1) (x1 - 1) with hlt | heq | hgt
      · exfalso
        have := mag_ne_aux (2 ^ 52 + f) (2 ^ 52 + f1) (x - 1) (x1 - 1 - (x - 1) - 1)
          (by omega) (by omega)
        have e1 : x - 1 + (x1 - 1 - (x - 1) - 1) + 1 = x1 - 1 := by omega
        rw [e1] at this
        exact this hm
      · rw [heq] at hm
        have := Nat.eq_of_mul_eq_mul_right (Nat.two_pow_pos _) hm
        have hxe : x = x1 := by omega
        have hfe : f = f1 := by omega
        subst hxe
        subst hfe
        exact ⟨rfl, rfl⟩
      · exfalso
        have := mag_ne_aux (2 ^ 52 + f1) (2 ^ 52 + f) (x1 - 1) (x - 1 - (x1 - 1) - 1)
          (by omega) (by omega)
        have e1 : x1 - 1 + (x - 1 - (x1 - 1) - 1) + 1 = x - 1 := by omega
        rw [e1] at this
        exact this hm.symm

/-- A head followed by anything determines its base, its magnitude and what
follows. -/
theorem head_inj (u u1 base base1 : Nat) (r r1 : List Nat) (hu : u < 2 ^ 32)
    (hu1 : u1 < 2 ^ 32)
    (hb : base = 0x00 ∨ base = 0x20 ∨ base = 0x40 ∨ base = 0x60 ∨ base = 0x80)
    (hb1 : base1 = 0x00 ∨ base1 = 0x20 ∨ base1 = 0x40 ∨ base1 = 0x60 ∨ base1 = 0x80)
    (he : uint32_bytes u base ++ r = uint32_bytes u1 base1 ++ r1) :
    base = base1 ∧ u = u1 ∧ r = r1 := by
  obtain ⟨ib, tl, hh, _, h2, _, _, _, h6⟩ := head_parse u base hu hb
  obtain ⟨ib1, tl1, hh1, _, k2, _, _, _, k6⟩ := head_parse u1 base1 hu1 hb1
  rw [hh, hh1] at he
  simp only [List.cons_append] at he
  injection he with hib htl
  subst hib
  have a1 := h6 r
  rw [htl, k6 r1] at a1
  injection a1 with a1
  injection a1 with a2 a3
  exact ⟨by omega, a2.symm, a3.symm⟩

theorem fast_facts (d : Double) (hf : d.fast = true) :
    d.mag % Double.one_units = 0 ∧
      (d.sign = true → 1 ≤ d.mag / Double.one_units ∧ d.mag / Double.one_units ≤ 4294967296) ∧
      (d.sign = false → d.mag / Double.one_units ≤ 4294967295) := by
  unfold Double.fast at hf
  have hdm := Nat.div_add_mod d.mag Double.one_units
  generalize d.mag / Double.one_units = q at hf hdm ⊢
  generalize d.mag % Double.one_units = m at hf hdm ⊢
  generalize Double.one_units = U at hf hdm ⊢
  simp only [Bool.and_eq_true, decide_eq_true_eq, Bool.not_eq_true'] at hf
  obtain ⟨⟨⟨_, hm⟩, hz⟩, hq⟩ := hf
  refine ⟨hm, ?_, ?_⟩
  · intro hs
    rw [if_pos hs] at hq
    have hq2 : q ≤ 4294967296 := by simpa using hq
    refine ⟨?_, hq2⟩
    by_contra hc
    have hq0 : q = 0 := by omega
    rw [hq0, hm] at hdm
    simp at hdm
    rw [hs, ← hdm] at hz
    simp at hz
  · intro hs
    rw [hs] at hq
    simpa using hq

/-- Two numbers with the same bytes have the same bit pattern. -/
theorem double_bytes_inj (h : Host) (d e : Double) (he : double_bytes h d = double_bytes h e) :
    d = e := by
  by_cases hd : d.fast = true
  · by_cases hx : e.fast = true
    · obtain ⟨hm, hneg, hpos⟩ := fast_facts d hd
      obtain ⟨hm1, hneg1, hpos1⟩ := fast_facts e hx
      have hdm := Nat.div_add_mod d.mag Double.one_units
      have hdm1 := Nat.div_add_mod e.mag Double.one_units
      rw [hm] at hdm
      rw [hm1] at hdm1
      unfold double_bytes at he
      rw [if_pos hd, if_pos hx] at he
      have h32 : (2 : Nat) ^ 32 = 4294967296 := by decide
      have hq : d.sign = e.sign ∧ d.mag / Double.one_units = e.mag / Double.one_units := by
        generalize d.mag / Double.one_units = q at *
        generalize e.mag / Double.one_units = q1 at *
        by_cases hs : d.sign = true
        · by_cases hs1 : e.sign = true
          · rw [if_pos hs, if_pos hs1] at he
            have a := head_inj (q - 1) (q1 - 1) 0x20 0x20 [] [] (by have := hneg hs; omega)
              (by have := hneg1 hs1; omega) (by omega) (by omega) (by simpa using he)
            have := hneg hs
            have := hneg1 hs1
            exact ⟨by rw [hs, hs1], by omega⟩
          · rw [if_pos hs, if_neg hs1] at he
            have hs1f : e.sign = false := by simpa using hs1
            have a := head_inj (q - 1) q1 0x20 0x00 [] [] (by have := hneg hs; omega)
              (by have := hpos1 hs1f; omega) (by omega) (by omega) (by simpa using he)
            exact absurd a.1 (by decide)
        · have hsf : d.sign = false := by simpa using hs
          by_cases hs1 : e.sign = true
          · rw [if_neg hs, if_pos hs1] at he
            have a := head_inj q (q1 - 1) 0x00 0x20 [] [] (by have := hpos hsf; omega)
              (by have := hneg1 hs1; omega) (by omega) (by omega) (by simpa using he)
            exact absurd a.1 (by decide)
          · have hs1f : e.sign = false := by simpa using hs1
            rw [if_neg hs, if_neg hs1] at he
            have a := head_inj q q1 0x00 0x00 [] [] (by have := hpos hsf; omega)
              (by have := hpos1 hs1f; omega) (by omega) (by omega) (by simpa using he)
            exact ⟨by rw [hsf, hs1f], a.2.1⟩
      obtain ⟨hsign, hq⟩ := hq
      have hmag : d.mag = e.mag := by
        rw [← hdm, ← hdm1, hq]
      obtain ⟨hexpo, hfrac⟩ := mag_inj d e hmag
      rcases d with ⟨s, x, f⟩
      rcases e with ⟨s1, x1, f1⟩
      simp only at hsign hexpo hfrac
      subst hsign
      subst hexpo
      subst hfrac
      rfl
    · exfalso
      have hxf : e.fast = false := by simpa using hx
      rcases double_bytes_cases h d with ⟨c, _⟩ | ⟨_, b, rest, hb, _, hlt, _⟩
      · rw [hd] at c
        cases c
      · rcases double_bytes_cases h e with ⟨_, p, hp, _⟩ | ⟨c, _⟩
        · rw [hb, hp] at he
          injection he with he
          omega
        · rw [hxf] at c
          cases c
  · have hdf : d.fast = false := by simpa using hd
    by_cases hx : e.fast = true
    · exfalso
      rcases double_bytes_cases h e with ⟨c, _⟩ | ⟨_, b, rest, hb, _, hlt, _⟩
      · rw [hx] at c
        cases c
      · rcases double_bytes_cases h d with ⟨_, p, hp, _⟩ | ⟨c, _⟩
        · rw [hb, hp] at he
          injection he with he
          omega
        · rw [hdf] at c
          cases c
    · unfold double_bytes at he
      rw [if_neg hd, if_neg hx] at he
      exact float_bytes_inj h d e he

theorem kind_of_major (ib : Nat) (h1 : ib < 256) :
    (ib >>> 5 = 0 ∨ ib >>> 5 = 1 → initial_byte_kind ib = 3) ∧
      (ib >>> 5 = 2 → initial_byte_kind ib = 6) ∧
      (ib >>> 5 = 3 → initial_byte_kind ib = 4) ∧
      (ib >>> 5 = 4 → initial_byte_kind ib = 5) := by
  have h5 : (2 : Nat) ^ 5 = 32 := by decide
  rw [shr_div, h5]
  unfold initial_byte_kind
  refine ⟨?_, ?_, ?_, ?_⟩
  · intro hm
    rw [if_pos (by omega)]
  · intro hm
    rw [if_neg (by omega), if_pos (by omega)]
  · intro hm
    rw [if_neg (by omega), if_neg (by omega), if_pos (by omega)]
  · intro hm
    rw [if_neg (by omega), if_neg (by omega), if_neg (by omega), if_pos (by omega)]

theorem walk_bytes_first (bytes : List Nat) (base : Nat) (hb : base = 0x40 ∨ base = 0x60)
    (hs : (walk_bytes bytes base).2 = true) :
    ∃ ib tl, (walk_bytes bytes base).1 = ib :: tl ∧ ib < 0xa0 ∧
      initial_byte_kind ib = if base = 0x40 then 6 else 4 := by
  obtain ⟨hlen, hbytes⟩ := walk_bytes_parts bytes base hs
  obtain ⟨ib, tl, hh, h1, h2, _, h4, _, _⟩ := head_parse bytes.length base hlen (by omega)
  refine ⟨ib, tl ++ bytes, by rw [hbytes, hh]; rfl, h4, ?_⟩
  obtain ⟨_, k2, k3, _⟩ := kind_of_major ib h1
  rcases hb with hb | hb
  · rw [if_pos hb]
    exact k2 (by omega)
  · rw [if_neg (by omega)]
    exact k3 (by omega)

/-- The initial byte of the item emitted for a value is never the break byte,
and for a value without placeholders it announces the kind of the value. -/
theorem walk_first (h : Host) (v : Value) (hs : (walk h v).2 = true) :
    ∃ ib tl, (walk h v).1 = ib :: tl ∧ ib ≠ 0xff ∧
      (v.placeholder_free = true → initial_byte_kind ib = v.item_kind) := by
  cases v with
  | undefined => exact ⟨0xf7, [], by rw [walk], by decide, fun _ => rfl⟩
  | null => exact ⟨0xf6, [], by rw [walk], by decide, fun _ => rfl⟩
  | boolean b =>
    cases b with
    | true => exact ⟨0xf5, [], by rw [walk]; rfl, by decide, fun _ => rfl⟩
    | false => exact ⟨0xf4, [], by rw [walk]; rfl, by decide, fun _ => rfl⟩
  | number d =>
    rw [walk]
    rcases double_bytes_cases h d with ⟨_, p, hp, _⟩ | ⟨_, b, rest, hb, _, hlt, _⟩
    · exact ⟨0xfb, p, hp, by decide, fun _ => rfl⟩
    · refine ⟨b, rest, hb, by omega, fun _ => ?_⟩
      unfold initial_byte_kind
      rw [if_pos hlt]
      rfl
  | string bytes =>
    rw [walk] at hs ⊢
    obtain ⟨ib, tl, hb, hlt, hk⟩ := walk_bytes_first bytes 0x60 (Or.inr rfl) hs
    exact ⟨ib, tl, hb, by omega, fun _ => by rw [hk]; rfl⟩
  | bufobj bytes =>
    rw [walk] at hs ⊢
    obtain ⟨ib, tl, hb, hlt, hk⟩ := walk_bytes_first bytes 0x40 (Or.inl rfl) hs
    exact ⟨ib, tl, hb, by omega, fun _ => by rw [hk]; rfl⟩
  | buffer bytes =>
    rw [walk] at hs ⊢
    obtain ⟨ib, tl, hb, hlt, hk⟩ := walk_bytes_first bytes 0x40 (Or.inl rfl) hs
    exact ⟨ib, tl, hb, by omega, fun _ => by rw [hk]; rfl⟩
  | array elems =>
    obtain ⟨hlen, _, hbytes⟩ := walk_array_parts h elems hs
    obtain ⟨ib, tl, hh, h1, h2, _, h4, _, _⟩ := head_parse elems.length 0x80 hlen (by omega)
    refine ⟨ib, tl ++ (walk_array h elems).1, by rw [hbytes, hh]; rfl, by omega, fun _ => ?_⟩
    exact (kind_of_major ib h1).2.2.2 (by omega)
  | object props =>
    obtain ⟨_, hbytes⟩ := walk_object_parts h props hs
    exact ⟨0xbf, _, hbytes, by decide, fun _ => rfl⟩
  | pointer p =>
    exact ⟨0xf7, [], by rw [walk], by decide, fun hp => by simp [Value.placeholder_free] at hp⟩
  | lightfunc f =>
    exact ⟨0xa0, [], by rw [walk], by decide, fun hp => by simp [Value.placeholder_free] at hp⟩
  | unknown t =>
    rw [walk] at hs
    cases hs

/-- Two values without placeholders whose encodings start with the same byte
are of the same kind. -/
theorem same_kind (h : Host) (v w : Value) (hpv : v.placeholder_free = true)
    (hpw : w.placeholder_free = true) (hsv : (walk h v).2 = true) (hsw : (walk h w).2 = true)
    (r r1 : List Nat) (heq : (walk h v).1 ++ r = (walk h w).1 ++ r1) :
    v.item_kind = w.item_kind := by
  obtain ⟨ib, tl, hb, _, hk⟩ := walk_first h v hsv
  obtain ⟨ib1, tl1, hb1, _, hk1⟩ := walk_first h w hsw
  rw [hb, hb1] at heq
  simp only [List.cons_append] at heq
  injection heq with hib _
  rw [← hk hpv, ← hk1 hpw, hib]

theorem walk_bytes_inj (b b1 : List Nat) (base : Nat) (hb : base = 0x40 ∨ base = 0x60)
    (hs : (walk_bytes b base).2 = true) (hs1 : (walk_bytes b1 base).2 = true)
    (heq : (walk_bytes b base).1 = (walk_bytes b1 base).1) : b = b1 := by
  obtain ⟨hl, hb0⟩ := walk_bytes_parts b base hs
  obtain ⟨hl1, hb1⟩ := walk_bytes_parts b1 base hs1
  rw [hb0, hb1] at heq
  exact (head_inj b.length b1.length base base b b1 hl hl1 (by omega) (by omega) heq).2.2

mutual

/-- Two values without placeholders that encode to the same bytes are the same
Source Value. -/
theorem source_inj (h : Host) :
    ∀ (v w : Value), v.placeholder_free = true → w.placeholder_free = true →
      (walk h v).2 = true → (walk h w).2 = true → (walk h v).1 = (walk h w).1 →
      v.source = w.source
  | .undefined, w, hpv, hpw, hsv, hsw, heq => by
    have hk := same_kind h _ w hpv hpw hsv hsw [] [] (by rw [heq])
    cases w <;> simp [Value.item_kind] at hk
    rfl
  | .null, w, hpv, hpw, hsv, hsw, heq => by
    have hk := same_kind h _ w hpv hpw hsv hsw [] [] (by rw [heq])
    cases w <;> simp [Value.item_kind] at hk
    rfl
  | .boolean b, w, hpv, hpw, hsv, hsw, heq => by
    have hk := same_kind h _ w hpv hpw hsv hsw [] [] (by rw [heq])
    cases w <;> simp [Value.item_kind] at hk
    rename_i b1
    rw [walk, walk] at heq
    cases b <;> cases b1 <;> simp at heq <;> rfl
  | .number d, w, hpv, hpw, hsv, hsw, heq => by
    have hk := same_kind h _ w hpv hpw hsv hsw [] [] (by rw [heq])
    cases w <;> simp [Value.item_kind] at hk
    rename_i d1
    rw [walk, walk] at heq
    have := double_bytes_inj h d d1 heq
    subst this
    rfl
  | .string b, w, hpv, hpw, hsv, hsw, heq => by
    have hk := same_kind h _ w hpv hpw hsv hsw [] [] (by rw [heq])
    cases w <;> simp [Value.item_kind] at hk
    rename_i b1
    rw [walk] at hsv hsw
    rw [walk, walk] at heq
    have := walk_bytes_inj b b1 0x60 (Or.inr rfl) hsv hsw heq
    subst this
    rfl
  | .bufobj b, w, hpv, hpw, hsv, hsw, heq => by
    have hk := same_kind h _ w hpv hpw hsv hsw [] [] (by rw [heq])
    cases w <;> simp [Value.item_kind] at hk
    all_goals
      rename_i b1
      rw [walk] at hsv
      rw [walk] at hsw
      rw [walk, walk] at heq
      have := walk_bytes_inj b b1 0x40 (Or.inl rfl) hsv hsw heq
      subst this
      rfl
  | .buffer b, w, hpv, hpw, hsv, hsw, heq => by
    have hk := same_kind h _ w hpv hpw hsv hsw [] [] (by rw [heq])
    cases w <;> simp [Value.item_kind] at hk
    all_goals
      rename_i b1
      rw [walk] at hsv
      rw [walk] at hsw
      rw [walk, walk] at heq
      have := walk_bytes_inj b b1 0x40 (Or.inl rfl) hsv hsw heq
      subst this
      rfl
  | .array xs, w, hpv, hpw, hsv, hsw, heq => by
    have hk := same_kind h _ w hpv hpw hsv hsw [] [] (by rw [heq])
    cases w <;> simp [Value.item_kind] at hk
    rename_i ys
    obtain ⟨hl, ha, hb⟩ := walk_array_parts h xs hsv
    obtain ⟨hl1, ha1, hb1⟩ := walk_array_parts h ys hsw
    rw [hb, hb1] at heq
    obtain ⟨_, hlen, harr⟩ := head_inj xs.length ys.length 0x80 0x80 _ _ hl hl1
      (by omega) (by omega) heq
    rw [Value.placeholder_free] at hpv hpw
    rw [Value.source, Value.source, source_inj_list h xs ys hpv hpw ha ha1 hlen harr]
  | .object ps, w, hpv, hpw, hsv, hsw, heq => by
    have hk := same_kind h _ w hpv hpw hsv hsw [] [] (by rw [heq])
    cases w <;> simp [Value.item_kind] at hk
    rename_i qs
    obtain ⟨hm, hb⟩ := walk_object_parts h ps hsv
    obtain ⟨hm1, hb1⟩ := walk_object_parts h qs hsw
    rw [hb, hb1] at heq
    injection heq with _ heq
    rw [Value.placeholder_free] at hpv hpw
    rw [Value.source, Value.source, source_inj_props h ps qs hpv hpw hm hm1 heq]
  | .pointer _, w, hpv, hpw, hsv, hsw, heq => by
    simp [Value.placeholder_free] at hpv
  | .lightfunc _, w, hpv, hpw, hsv, hsw, heq => by
    simp [Value.placeholder_free] at hpv
  | .unknown _, w, hpv, hpw, hsv, hsw, heq => by
    rw [walk] at hsv
    cases hsv

/-- Two arrays of the same length whose elements encode to the same bytes
hold the same Source Values. -/
theorem source_inj_list (h : Host) :
    ∀ (xs ys : List Value), Value.placeholder_free_list xs = true →
      Value.placeholder_free_list ys = true →
      (walk_array h xs).2 = true → (walk_array h ys).2 = true → xs.length = ys.length →
      (walk_array h xs).1 = (walk_array h ys).1 →
      Value.source_list xs = Value.source_list ys
  | [], ys, hpx, hpy, hsx, hsy, hlen, heq => by
    cases ys with
    | nil => rfl
    | cons y ys => simp at hlen
  | x :: xs, ys, hpx, hpy, hsx, hsy, hlen, heq => by
    cases ys with
    | nil => simp at hlen
    | cons y ys =>
      obtain ⟨hx, hxs, hb⟩ := walk_array_cons h x xs hsx
      obtain ⟨hy, hys, hb1⟩ := walk_array_cons h y ys hsy
      rw [hb, hb1] at heq
      obtain ⟨he1, he2⟩ := walk_split h x y hx hy _ _ heq
      rw [Value.placeholder_free_list] at hpx hpy
      simp only [Bool.and_eq_true] at hpx hpy
      rw [Value.source_list, Value.source_list, source_inj h x y hpx.1 hpy.1 hx hy he1,
        source_inj_list h xs ys hpx.2 hpy.2 hxs hys (by simpa using hlen) he2]

/-- Two maps whose entries, followed by the break, encode to the same bytes
hold the same Source Values in the same order. -/
theorem source_inj_props (h : Host) :
    ∀ (ps qs : List (Value × Value)), Value.placeholder_free_props ps = true →
      Value.placeholder_free_props qs = true →
      (walk_map h ps).2 = true → (walk_map h qs).2 = true →
      (walk_map h ps).1 ++ [0xff] = (walk_map h qs).1 ++ [0xff] →
      Value.source_props ps = Value.source_props qs
  | [], qs, hpp, hpq, hsp, hsq, heq => by
    cases qs with
    | nil => rfl
    | cons q qs =>
      rcases q with ⟨k1, v1⟩
      exfalso
      obtain ⟨hk, _, _, hb⟩ := walk_map_cons h k1 v1 qs hsq
      obtain ⟨ib, tl, hf, hne, _⟩ := walk_first h k1 hk
      rw [hb, hf, walk_map] at heq
      simp only [List.nil_append, List.cons_append] at heq
      injection heq with hib _
      exact hne hib.symm
  | (k, v) :: ps, qs, hpp, hpq, hsp, hsq, heq => by
    cases qs with
    | nil =>
      exfalso
      obtain ⟨hk, _, _, hb⟩ := walk_map_cons h k v ps hsp
      obtain ⟨ib, tl, hf, hne, _⟩ := walk_first h k hk
      rw [hb, hf, walk_map] at heq
      simp only [List.nil_append, List.cons_append] at heq
      injection heq with hib _
      exact hne hib
    | cons q qs =>
      rcases q with ⟨k1, v1⟩
      obtain ⟨hk, hv, hps, hb⟩ := walk_map_cons h k v ps hsp
      obtain ⟨hk1, hv1, hqs, hb1⟩ := walk_map_cons h k1 v1 qs hsq
      rw [hb, hb1] at heq
      simp only [List.append_assoc] at heq
      obtain ⟨he1, heq2⟩ := walk_split h k k1 hk hk1 _ _ heq
      obtain ⟨he2, heq3⟩ := walk_split h v v1 hv hv1 _ _ heq2
      rw [Value.placeholder_free_props] at hpp hpq
      simp only [Bool.and_eq_true] at hpp hpq
      rw [Value.source_props, Value.source_props, source_inj h k k1 hpp.1.1 hpq.1.1 hk hk1 he1,
        source_inj h v v1 hpp.1.2 hpq.1.2 hv hv1 he2,
        source_inj_props h ps qs hpp.2 hpq.2 hps hqs heq3]

end

mutual

/-- Two values without buffer objects that are the same Source Value are
equal. -/
theorem plain_source_inj :
    ∀ (v w : Value), v.plain = true → w.plain = true → v.source = w.source → v = w
  | .undefined, w, hv, hw, he => by
    cases w <;> simp [Value.source] at he
    rfl
  | .null, w, hv, hw, he => by
    cases w <;> simp [Value.source] at he
    rfl
  | .boolean b, w, hv, hw, he => by
    cases w <;> simp [Value.source] at he
    rw [he]
  | .number d, w, hv, hw, he => by
    cases w <;> simp [Value.source] at he
    rw [he]
  | .string b, w, hv, hw, he => by
    cases w <;> simp [Value.source] at he
    rw [he]
  | .bufobj b, w, hv, hw, he => by
    simp [Value.plain] at hv
  | .buffer b, w, hv, hw, he => by
    cases w <;> simp [Value.source] at he
    · simp [Value.plain] at hw
    · rw [he]
  | .pointer p, w, hv, hw, he => by
    cases w <;> simp [Value.source] at he
    rw [he]
  | .lightfunc f, w, hv, hw, he => by
    cases w <;> simp [Value.source] at he
    rw [he]
  | .unknown t, w, hv, hw, he => by
    cases w <;> simp [Value.source] at he
    rw [he]
  | .array xs, w, hv, hw, he => by
    cases w <;> simp [Value.source] at he
    rename_i ys
    rw [Value.plain] at hv hw
    rw [plain_source_inj_list xs ys hv hw he]
  | .object ps, w, hv, hw, he => by
    cases w <;> simp [Value.source] at he
    rename_i qs
    rw [Value.plain] at hv hw
    rw [plain_source_inj_props ps qs hv hw he]

/-- Elementwise form of `plain_source_inj`. -/
theorem plain_source_inj_list :
    ∀ (xs ys : List Value), Value.plain_list xs = true → Value.plain_list ys = true →
      Value.source_list xs = Value.source_list ys → xs = ys
  | [], ys, hx, hy, he => by
    cases ys with
    | nil => rfl
    | cons y ys => simp [Value.source_list] at he
  | x :: xs, ys, hx, hy, he => by
    cases ys with
    | nil => simp [Value.source_list] at he
    | cons y ys =>
      rw [Value.source_list, Value.source_list] at he
      injection he with h1 h2
      rw [Value.plain_list] at hx hy
      simp only [Bool.and_eq_true] at hx hy
      rw [plain_source_inj x y hx.1 hy.1 h1, plain_source_inj_list xs ys hx.2 hy.2 h2]

/-- Entrywise form of `plain_source_inj`. -/
theorem plain_source_inj_props :
    ∀ (ps qs : List (Value × Value)), Value.plain_props ps = true →
      Value.plain_props qs = true →
      Value.source_props ps = Value.source_props qs → ps = qs
  | [], qs, hp, hq, he => by
    cases qs with
    | nil => rfl
    | cons q qs =>
      rcases q with ⟨k1, v1⟩
      simp [Value.source_props] at he
  | (k, v) :: ps, qs, hp, hq, he => by
    cases qs with
    | nil => simp [Value.source_props] at he
    | cons q qs =>
      rcases q with ⟨k1, v1⟩
      rw [Value.source_props, Value.source_props] at he
      injection he with h1 h2
      injection h1 with h3 h4
      rw [Value.plain_props] at hp hq
      simp only [Bool.and_eq_true] at hp hq
      rw [plain_source_inj k k1 hp.1.1 hq.1.1 h3, plain_source_inj v v1 hp.1.2 hq.1.2 h4,
        plain_source_inj_props ps qs hp.2 hq.2 h2]

end

/-- C20: the encoding is injective away from the placeholder kinds.  If two
values without Pointer-like and Lightweight-callable parts encode successfully
to the same bytes, they are the same Source Value (numbers compared by bit
pattern, maps as ordered lists of entries, a RawBuffer by its bytes), and they
are equal as Duktape values when neither holds a buffer object.  No encoded
item starts with the break byte `0xFF`; an encoding followed by anything
equals another encoding followed by anything only if the encodings and the
remainders agree; and so no encoding is a proper prefix of another. -/
theorem encoding_injective (h : Host) (fuel : Nat) (hfuel : h.size_bits ≤ fuel)
    (below : ValStack) :
    (∀ (v w : Value) (out : List Nat),
      v.placeholder_free = true → w.placeholder_free = true →
      encode_call h fuel below v = .ok out → encode_call h fuel below w = .ok out →
      v.source = w.source ∧ (v.plain = true → w.plain = true → v = w)) ∧
    (∀ (v : Value) (out : List Nat), encode_call h fuel below v = .ok out →
      ∃ ib tl, out = ib :: tl ∧ ib ≠ 0xff) ∧
    (∀ (v w : Value) (out out1 r r1 : List Nat),
      encode_call h fuel below v = .ok out → encode_call h fuel below w = .ok out1 →
      out ++ r = out1 ++ r1 → out = out1 ∧ r = r1) ∧
    (∀ (v w : Value) (out out1 : List Nat),
      encode_call h fuel below v = .ok out → encode_call h fuel below w = .ok out1 →
      out <+: out1 → out = out1) := by
  have key : ∀ (v : Value) (out : List Nat), encode_call h fuel below v = .ok out →
      (walk h v).2 = true ∧ (walk h v).1 = out := by
    intro v out hok
    obtain ⟨hw, _⟩ := (encode_call_ok_iff h fuel hfuel below v out).1 hok
    rw [hw]
    exact ⟨rfl, rfl⟩
  have split : ∀ (v w : Value) (out out1 r r1 : List Nat),
      encode_call h fuel below v = .ok out → encode_call h fuel below w = .ok out1 →
      out ++ r = out1 ++ r1 → out = out1 ∧ r = r1 := by
    intro v w out out1 r r1 hv hw heq
    obtain ⟨hsv, hbv⟩ := key v out hv
    obtain ⟨hsw, hbw⟩ := key w out1 hw
    rw [← hbv, ← hbw] at heq ⊢
    exact walk_split h v w hsv hsw r r1 heq
  refine ⟨?_, ?_, split, ?_⟩
  · intro v w out hpv hpw hv hw
    obtain ⟨hsv, hbv⟩ := key v out hv
    obtain ⟨hsw, hbw⟩ := key w out hw
    have hsrc := source_inj h v w hpv hpw hsv hsw (by rw [hbv, hbw])
    exact ⟨hsrc, fun h1 h2 => plain_source_inj v w h1 h2 hsrc⟩
  · intro v out hv
    obtain ⟨hsv, hbv⟩ := key v out hv
    obtain ⟨ib, tl, hf, hne, _⟩ := walk_first h v hsv
    exact ⟨ib, tl, by rw [← hbv, hf], hne⟩
  · intro v w out out1 hv hw hpre
    obtain ⟨t, ht⟩ := hpre
    exact (split v w out out1 t [] hv hw (by rw [ht, List.append_nil])).1

/-- Witness of C20 on a 64-bit host: a plain buffer and a buffer object
holding the byte 1 both encode to `41 01`, and both are the RawBuffer with
that byte. -/
theorem encoding_injective_witness :
    host64.size_bits ≤ 64 ∧
      (Value.buffer [1]).placeholder_free = true ∧
      (Value.bufobj [1]).placeholder_free = true ∧
      encode_call host64 64 [] (.buffer [1]) = .ok [0x41, 0x01] ∧
      encode_call host64 64 [] (.bufobj [1]) = .ok [0x41, 0x01] ∧
      (Value.buffer [1]).source = (Value.bufobj [1]).source ∧
      (Value.buffer [1]).source = Source.raw_buffer [1] ∧
      (∃ ib tl, [0x41, 0x01] = ib :: tl ∧ ib ≠ 0xff) := by
  have hv : encode_call host64 64 [] (.buffer [1]) = .ok [0x41, 0x01] :=
    encode_call_ok host64 64 (by decide) [] _ _ (by decide) (by decide)
  have hw : encode_call host64 64 [] (.bufobj [1]) = .ok [0x41, 0x01] :=
    encode_call_ok host64 64 (by decide) [] _ _ (by decide) (by decide)
  obtain ⟨h1, h2, _, _⟩ := encoding_injective host64 64 (by decide) []
  exact ⟨by decide, rfl, rfl, hv, hw, (h1 (.buffer [1]) (.bufobj [1]) _ rfl rfl hv hw).1,
    rfl, h2 _ _ hv⟩

/-! ## Reservations: the invariant and the frame (claims C17 and C18) -/

/-- A reservation that returns, on any Encode Context of capacity at least 1:
the region starts at the old offset, the new offset is the wrapped sum of the
old offset and `n`, the capacity is the old one doubled until that sum fits,
and the buffer is the old one followed by zero bytes. -/
theorem reserve_returns (h : Host) (fuel : Nat) (hfuel : h.size_bits ≤ fuel)
    (e : duk_cbor_encode_context) (n : Nat) (hw : e.well_formed h = true) (hpos : 0 < e.len)
    (p : Nat) (e1 : duk_cbor_encode_context)
    (hret : duk__cbor_encode_reserve h fuel e n = .ok (p, e1)) :
    p = e.off ∧ e1.off = (e.off + n) % h.size_mod ∧ e1.idx_buf = e.idx_buf ∧
      e1.len = grow e.len ((e.off + n) % h.size_mod) ∧ e1.off ≤ e1.len ∧ e.len ≤ e1.len ∧
      e1.well_formed h = true ∧
      ∃ data, e.ctx.get? e.idx_buf = some (.val (.buffer data)) ∧
        e1.ctx = e.ctx.set e.idx_buf
          (.val (.buffer (data ++ List.replicate (e1.len - e.len) 0))) := by
  obtain ⟨hcap, hoff, data, hd, hl⟩ := (well_formed_iff h e).1 hw
  have hf : h.size_mod ≤ e.len * 2 ^ fuel := pow_le_mul_pow e.len _ fuel hpos hfuel
  obtain ⟨h1, h2⟩ := reserve_loop_spec h n fuel e data hd hl hpos hcap hf
  have hlt : (e.off + n) % h.size_mod < h.size_mod := Nat.mod_lt _ (size_mod_pos h)
  unfold duk__cbor_encode_reserve at hret
  by_cases hfit : grow e.len ((e.off + n) % h.size_mod) < h.size_mod
  · rw [h1 hfit] at hret
    simp only [bind, Except.bind, duk_require_buffer,
      get_set_same e.ctx e.idx_buf _ _ hd] at hret
    injection hret with hret
    injection hret with hp he
    subst hp
    subst he
    have hneed := need_le_grow e.len ((e.off + n) % h.size_mod) hpos
    have hge := le_grow e.len ((e.off + n) % h.size_mod)
    refine ⟨rfl, rfl, rfl, rfl, hneed, hge, ?_, data, hd, rfl⟩
    rw [well_formed_iff]
    refine ⟨hfit, hlt, _, get_set_same e.ctx e.idx_buf _ _ hd, ?_⟩
    simp only [List.length_append, List.length_replicate, hl]
    omega
  · rw [h2 hfit] at hret
    cases hret

/-- A reservation returns whenever the capacity it needs is a `duk_size_t`. -/
theorem reserve_ok (h : Host) (fuel : Nat) (hfuel : h.size_bits ≤ fuel)
    (e : duk_cbor_encode_context) (n : Nat) (hw : e.well_formed h = true) (hpos : 0 < e.len)
    (hfit : grow e.len ((e.off + n) % h.size_mod) < h.size_mod) :
    ∃ (p : Nat) (e1 : duk_cbor_encode_context),
      duk__cbor_encode_reserve h fuel e n = .ok (p, e1) := by
  obtain ⟨hcap, hoff, data, hd, hl⟩ := (well_formed_iff h e).1 hw
  have hf : h.size_mod ≤ e.len * 2 ^ fuel := pow_le_mul_pow e.len _ fuel hpos hfuel
  obtain ⟨h1, _⟩ := reserve_loop_spec h n fuel e data hd hl hpos hcap hf
  unfold duk__cbor_encode_reserve
  rw [h1 hfit]
  simp only [bind, Except.bind, duk_require_buffer, get_set_same e.ctx e.idx_buf _ _ hd]
  exact ⟨_, _, rfl⟩

/-- With capacity zero a reservation returns only when nothing is to be
reserved at offset zero, and then it changes nothing. -/
theorem reserve_zero_capacity (h : Host) (fuel : Nat) (e : duk_cbor_encode_context) (n : Nat)
    (hw : e.well_formed h = true) (hz : e.len = 0) (p : Nat) (e1 : duk_cbor_encode_context)
    (hret : duk__cbor_encode_reserve h fuel e n = .ok (p, e1)) :
    (e.off + n) % h.size_mod = 0 ∧ p = e.off ∧
      e1 = { e with off := (e.off + n) % h.size_mod } := by
  obtain ⟨hcap, hoff, data, hd, hl⟩ := (well_formed_iff h e).1 hw
  unfold duk__cbor_encode_reserve at hret
  by_cases hneed : 0 < (e.off + n) % h.size_mod
  · rw [reserve_loop_zero h n fuel e data hd hz hneed] at hret
    cases hret
  · have hloop : duk__cbor_encode_reserve_loop h n fuel e = .ok e := by
      cases fuel <;> rw [duk__cbor_encode_reserve_loop, if_neg (by omega)]
    rw [hloop] at hret
    simp only [bind, Except.bind, duk_require_buffer, hd] at hret
    injection hret with hret
    injection hret with hp he
    exact ⟨by omega, hp.symm, he.symm⟩

theorem start_context_well_formed (h : Host) : start_context.well_formed h = true := by
  rw [well_formed_iff]
  have := size_mod_gt_64 h
  refine ⟨by simpa [start_context] using this, by simpa [start_context] using size_mod_pos h,
    List.replicate 64 0, rfl, rfl⟩

/-- The invariant of the Encode Context is kept by every run of reservations
that starts in a context satisfying it. -/
theorem reserve_all_invariant (h : Host) (fuel : Nat) (hfuel : h.size_bits ≤ fuel) :
    ∀ (ns : List Nat) (e e1 : duk_cbor_encode_context),
      e.well_formed h = true → 64 ≤ e.len → e.off ≤ e.len →
      reserve_all h fuel e ns = .ok e1 →
      e1.well_formed h = true ∧ 64 ≤ e1.len ∧ e1.off ≤ e1.len
  | [], e, e1, hw, hlen, hoff, hrun => by
    rw [reserve_all] at hrun
    injection hrun with hrun
    subst hrun
    exact ⟨hw, hlen, hoff⟩
  | n :: ns, e, e1, hw, hlen, hoff, hrun => by
    rw [reserve_all] at hrun
    cases hr : duk__cbor_encode_reserve h fuel e n with
    | error x =>
      rw [hr] at hrun
      cases hrun
    | ok r =>
      rcases r with ⟨p, e2⟩
      rw [hr] at hrun
      obtain ⟨_, _, _, _, h5, h6, h7, _⟩ :=
        reserve_returns h fuel hfuel e n hw (by omega) p e2 hr
      exact reserve_all_invariant h fuel hfuel ns e2 e1 h7 (by omega) h5 hrun

/-- C17 (amended): write offset `<=` capacity is an invariant of the Encode
Context.  Starting from offset 0 and capacity 64, after every run of successful
reservations the context is well formed with offset `<=` capacity; every
reservation that returns, for every `n`, leaves offset `<=` capacity, the offset
being the sum of old offset and `n` in the wrapping arithmetic of the size type;
and whenever old offset plus `n` is itself a value of the size type, the
region of `n` bytes handed out lies entirely inside the buffer.  A reservation
does return whenever the capacity it needs is a value of the size type. -/
theorem offset_le_capacity (h : Host) (fuel : Nat) (hfuel : h.size_bits ≤ fuel) :
    (start_context.well_formed h = true ∧ start_context.off = 0 ∧ start_context.len = 64) ∧
    (∀ (ns : List Nat) (e : duk_cbor_encode_context),
      reserve_all h fuel start_context ns = .ok e →
      e.well_formed h = true ∧ 64 ≤ e.len ∧ e.off ≤ e.len) ∧
    (∀ (e : duk_cbor_encode_context) (n p : Nat) (e1 : duk_cbor_encode_context),
      e.well_formed h = true → 0 < e.len →
      duk__cbor_encode_reserve h fuel e n = .ok (p, e1) →
      e1.well_formed h = true ∧ e.len ≤ e1.len ∧ e1.off ≤ e1.len ∧ p = e.off ∧
        e1.off = (e.off + n) % h.size_mod ∧
        (e.off + n < h.size_mod →
          e1.off = e.off + n ∧ p + n ≤ e1.len ∧
          ∃ data, duk_require_buffer e1.ctx e1.idx_buf = .ok data ∧ p + n ≤ data.length)) ∧
    (∀ (e : duk_cbor_encode_context) (n : Nat),
      e.well_formed h = true → 0 < e.len →
      grow e.len ((e.off + n) % h.size_mod) < h.size_mod →
      ∃ (p : Nat) (e1 : duk_cbor_encode_context),
        duk__cbor_encode_reserve h fuel e n = .ok (p, e1)) := by
  refine ⟨⟨start_context_well_formed h, rfl, rfl⟩, ?_, ?_, ?_⟩
  · intro ns e hrun
    exact reserve_all_invariant h fuel hfuel ns start_context e (start_context_well_formed h)
      (by decide) (by decide) hrun
  · intro e n p e1 hw hpos hret
    obtain ⟨h1, h2, h3, h4, h5, h6, h7, data, hd, hc⟩ :=
      reserve_returns h fuel hfuel e n hw hpos p e1 hret
    refine ⟨h7, h6, h5, h1, h2, ?_⟩
    intro hsum
    have hmod : (e.off + n) % h.size_mod = e.off + n := Nat.mod_eq_of_lt hsum
    obtain ⟨_, _, data1, hd1, hl1⟩ := (well_formed_iff h e1).1 h7
    refine ⟨by rw [h2, hmod], by rw [h1]; omega, data1, ?_, by rw [hl1, h1]; omega⟩
    unfold duk_require_buffer
    rw [hd1]
  · intro e n hw hpos hfit
    exact reserve_ok h fuel hfuel e n hw hpos hfit

/-- Witness of C17 on a 64-bit host: from the starting context, reservations of
5 and of 100 bytes; the second doubles the capacity to 128 and hands out the
region from offset 5 to offset 105. -/
theorem offset_le_capacity_witness :
    host64.size_bits ≤ 64 ∧
      reserve_all host64 64 start_context [5, 100] =
        .ok { start_context with
          ctx := duk_push_dynamic_buffer [] 128, len := 128, off := 105 } ∧
      ({ start_context with off := 5 } : duk_cbor_encode_context).well_formed host64 = true ∧
      duk__cbor_encode_reserve host64 64 { start_context with off := 5 } 100 =
        .ok (5, { start_context with
          ctx := duk_push_dynamic_buffer [] 128, len := 128, off := 105 }) ∧
      5 + 100 < host64.size_mod ∧
      (105 : Nat) ≤ 128 ∧ 5 + 100 ≤ 128 := by
  have hrun : reserve_all host64 64 start_context [5, 100] =
      .ok { start_context with
        ctx := duk_push_dynamic_buffer [] 128, len := 128, off := 105 } := rfl
  have hret : duk__cbor_encode_reserve host64 64 { start_context with off := 5 } 100 =
      .ok (5, { start_context with
        ctx := duk_push_dynamic_buffer [] 128, len := 128, off := 105 }) := rfl
  obtain ⟨_, h2, h3, _⟩ := offset_le_capacity host64 64 (by decide)
  have a := h2 [5, 100] _ hrun
  have b := h3 { start_context with off := 5 } 100 5 _ (by decide) (by decide) hret
  exact ⟨by decide, hrun, by decide, hret, by decide, a.2.2, (b.2.2.2.2.2 (by decide)).2.1⟩

/-- Counterexample to C17 as stated: on a host with a 32-bit size type, from
offset 0 and capacity 64, a reservation of 5 bytes followed by one of
`4294967295` bytes, a length the size type represents, succeeds.  The wrapped
sum of offset and length is 4, so the new offset 4 is at most the capacity 64,
and yet the region handed out starts at offset 5 and ends `4294967295` bytes
later, outside the 64-byte buffer: storing that many bytes through it is
undefined. -/
theorem reserve_region_outside_buffer :
    duk__cbor_encode_reserve host32 32 start_context 5 =
        .ok (0, { start_context with off := 5 }) ∧
      duk__cbor_encode_reserve host32 32 { start_context with off := 5 } 4294967295 =
        .ok (5, { start_context with off := 4 }) ∧
      4294967295 < host32.size_mod ∧
      ({ start_context with off := 4 } : duk_cbor_encode_context).off ≤
        ({ start_context with off := 4 } : duk_cbor_encode_context).len ∧
      duk_require_buffer ({ start_context with off := 4 } : duk_cbor_encode_context).ctx 0 =
        .ok (List.replicate 64 0) ∧
      64 < 5 + 4294967295 ∧
      store { start_context with off := 4 } 5 (List.replicate 4294967295 0) =
        .error .undefined_behaviour :=
  ⟨rfl, rfl, by decide, by decide, rfl, by decide,
    (reserve_wraps _ (List.length_replicate _ _)).2⟩

/-- C18 (amended): for every Encode Context and every `n` such that old offset
plus `n` is a value of the size type and `duk__cbor_encode_reserve(n)` succeeds,
the returned region starts at the offset held before the call, the offset
afterwards is exactly the old offset plus `n`, the capacity afterwards is the
old capacity times `2^k` for the least `k` with old offset plus `n` at most
capacity times `2^k`, the buffer is the old one followed by zero bytes, so every
old byte is unchanged whether or not the buffer grew, and no other slot of the
value stack changes.  The call does succeed whenever the capacity is at least 1
and that doubled capacity is a value of the size type. -/
theorem reserve_frame (h : Host) (fuel : Nat) (hfuel : h.size_bits ≤ fuel)
    (e : duk_cbor_encode_context) (n : Nat) (hw : e.well_formed h = true)
    (hsum : e.off + n < h.size_mod) :
    (0 < e.len → grow e.len (e.off + n) < h.size_mod →
      ∃ (p : Nat) (e1 : duk_cbor_encode_context),
        duk__cbor_encode_reserve h fuel e n = .ok (p, e1)) ∧
    (∀ (p : Nat) (e1 : duk_cbor_encode_context),
      duk__cbor_encode_reserve h fuel e n = .ok (p, e1) →
      p = e.off ∧ e1.off = e.off + n ∧ e1.idx_buf = e.idx_buf ∧
        (∃ k, e1.len = e.len * 2 ^ k ∧ e.off + n ≤ e.len * 2 ^ k ∧
          ∀ j, j < k → e.len * 2 ^ j < e.off + n) ∧
        ∃ data data1, duk_require_buffer e.ctx e.idx_buf = .ok data ∧
          duk_require_buffer e1.ctx e1.idx_buf = .ok data1 ∧
          data1 = data ++ List.replicate (e1.len - e.len) 0 ∧
          (∀ j, j < data.length → data1.get? j = data.get? j) ∧
          e1.ctx = e.ctx.set e.idx_buf (.val (.buffer data1))) := by
  have hmod : (e.off + n) % h.size_mod = e.off + n := Nat.mod_eq_of_lt hsum
  constructor
  · intro hpos hfit
    exact reserve_ok h fuel hfuel e n hw hpos (by rw [hmod]; exact hfit)
  · intro p e1 hret
    obtain ⟨_, _, data, hd, hl⟩ := (well_formed_iff h e).1 hw
    have hprefix : ∀ (m j : Nat), j < data.length →
        (data ++ List.replicate m 0).get? j = data.get? j := by
      intro m j hj
      rw [List.get?_eq_getElem?, List.get?_eq_getElem?, List.getElem?_append_left hj]
    have hreq : duk_require_buffer e.ctx e.idx_buf = .ok data := by
      unfold duk_require_buffer
      rw [hd]
    by_cases hpos : 0 < e.len
    · obtain ⟨h1, h2, h3, h4, _, _, _, data0, hd0, hc⟩ :=
        reserve_returns h fuel hfuel e n hw hpos p e1 hret
      rw [hmod] at h2 h4
      rw [hd] at hd0
      injection hd0 with hd0
      injection hd0 with hd0
      injection hd0 with hd0
      subst hd0
      refine ⟨h1, h2, h3, ?_, data, _, hreq, ?_, rfl, hprefix _, hc⟩
      · rw [h4]
        exact grow_least e.len (e.off + n) hpos
      · unfold duk_require_buffer
        rw [h3, hc, get_set_same e.ctx e.idx_buf _ _ hd]
    · have hz : e.len = 0 := by omega
      obtain ⟨h1, h2, h3⟩ := reserve_zero_capacity h fuel e n hw hz p e1 hret
      rw [hmod] at h1 h3
      subst h3
      refine ⟨h2, rfl, rfl, ⟨0, by simp [hz], by simp [hz]; omega, fun j hj => by omega⟩,
        data, data, hreq, hreq, ?_, fun j _ => rfl, ?_⟩
      · simp
      · exact (set_same e.ctx e.idx_buf _ hd).symm

/-- Witness of C18 on a 64-bit host: at offset 60 of the 64-byte starting
buffer a reservation of 10 bytes returns the region at offset 60, moves the
offset to 70 and doubles the capacity once, to 128. -/
theorem reserve_frame_witness :
    host64.size_bits ≤ 64 ∧
      ({ start_context with off := 60 } : duk_cbor_encode_context).well_formed host64 = true ∧
      60 + 10 < host64.size_mod ∧
      duk__cbor_encode_reserve host64 64 { start_context with off := 60 } 10 =
        .ok (60, { start_context with
          ctx := duk_push_dynamic_buffer [] 128, len := 128, off := 70 }) ∧
      (∃ k, 128 = 64 * 2 ^ k ∧ 60 + 10 ≤ 64 * 2 ^ k ∧ ∀ j, j < k → 64 * 2 ^ j < 60 + 10) := by
  have hret : duk__cbor_encode_reserve host64 64 { start_context with off := 60 } 10 =
      .ok (60, { start_context with
        ctx := duk_push_dynamic_buffer [] 128, len := 128, off := 70 }) := rfl
  have hw := (reserve_frame host64 64 (by decide) { start_context with off := 60 } 10
    (by decide) (by decide)).2 _ _ hret
  exact ⟨by decide, by decide, by decide, hret, hw.2.2.2.1⟩

/-- Counterexample to C18 as stated: on a host with a 32-bit size type, in a
well-formed context with offset 5 and capacity 64, the reservation of
`4294967295` bytes succeeds and returns the region at offset 5, but the offset
afterwards is 4, not `5 + 4294967295`, and the capacity is still 64, which is
`64 * 2^0` although `5 + 4294967295` exceeds it. -/
theorem reserve_offset_wraps :
    ({ start_context with off := 5 } : duk_cbor_encode_context).well_formed host32 = true ∧
      (∃ e1 : duk_cbor_encode_context,
        duk__cbor_encode_reserve host32 32 { start_context with off := 5 } 4294967295 =
          .ok (5, e1) ∧
        e1.off = 4 ∧ e1.off ≠ 5 + 4294967295 ∧ e1.len = 64 * 2 ^ 0 ∧
        ¬ (5 + 4294967295 ≤ 64 * 2 ^ 0) ∧ e1.ctx = start_context.ctx) :=
  ⟨by decide, { start_context with off := 4 }, rfl, rfl, by decide, rfl, by decide, rfl⟩

/-! ## Refinement and frame of the whole call (claims C11 and C14) -/

theorem emitted_iff (h : Host) (v : Value) (bytes : List Nat) :
    emitted h v = some bytes ↔ ((walk h v).2 = true ∧ (walk h v).1 = bytes) := by
  unfold emitted
  by_cases hf : (walk h v).2 = true
  · rw [if_pos hf]
    constructor
    · intro hx
      injection hx with hx
      exact ⟨hf, hx⟩
    · rintro ⟨_, hx⟩
      rw [hx]
  · rw [if_neg hf]
    constructor
    · intro hx
      cases hx
    · rintro ⟨hx, _⟩
      exact absurd hx hf

/-- From any starting capacity of at least 1, a value whose bytes the walk
completes on and which fit half the size type is encoded to exactly those
bytes: the Value Emitter ends with the write offset at their number and the
capacity doubled the least number of times that makes them fit. -/
theorem encode_from_bytes (h : Host) (fuel : Nat) (hfuel : h.size_bits ≤ fuel) (cap0 : Nat)
    (hpos : 0 < cap0) (hcap : cap0 < h.size_mod) (ctx : ValStack) (idx : Int) (flags : Nat)
    (i : Nat) (s : Slot) (bytes : List Nat)
    (hidx : duk_require_normalize_index ctx idx = .ok i) (hs : ctx.get? i = some s)
    (hem : emitted h (slot_value s) = some bytes)
    (hfit : bytes.length ≤ 2 ^ (h.size_bits - 1)) :
    duk_cbor_encode_from h fuel cap0 ctx idx flags = .ok (ctx.set i (.val (.buffer bytes))) ∧
      ∃ (e : duk_cbor_encode_context) (k : Nat),
        duk__cbor_encode_value h fuel
          { ctx := duk_push_dynamic_buffer ctx cap0 ++ [s], idx_buf := duk_get_top ctx,
            len := cap0, off := 0 } = .ok e ∧
        e.off = bytes.length ∧ e.len = grow cap0 bytes.length ∧
        e.len = cap0 * 2 ^ k ∧ bytes.length ≤ cap0 * 2 ^ k ∧
        (∀ j, j < k → cap0 * 2 ^ j < bytes.length) ∧ e.off ≤ e.len ∧
        duk_require_buffer e.ctx e.idx_buf =
          .ok (bytes ++ List.replicate (e.len - e.off) 0) := by
  obtain ⟨hfl, hb⟩ := (emitted_iff h _ bytes).1 hem
  have hfit2 := grow_fits_of_half h cap0 (walk h (slot_value s)).1.length hpos hcap
    (by rw [hb]; exact hfit)
  obtain ⟨h1, _⟩ := encode_from_spec h fuel hfuel cap0 hpos hcap ctx idx flags i s hidx hs
  obtain ⟨hv, hc⟩ := h1 hfit2
  rw [hfl] at hv hc
  simp only [if_true] at hv hc
  rw [hb] at hv hc
  obtain ⟨k, hk1, hk2, hk3⟩ := grow_least cap0 bytes.length hpos
  refine ⟨hc, canon ctx [] bytes (grow cap0 bytes.length), k, ?_, rfl, rfl, hk1, hk2, hk3,
    ?_, ?_⟩
  · rw [start_canon_from]
    exact hv
  · exact need_le_grow cap0 _ hpos
  · simp [canon, duk_require_buffer, get_mid]

/-- C11: the buffer-based encoder refines the pure serializer.  For a value
whose emitted bytes fit half the size type, `duk_cbor_encode` returns exactly
the bytes the Value Emitter wrote, in emission order, also when they exceed the
64-byte starting capacity; started from any capacity of 64 or more the call
returns the same stack, whatever the number `k` of doublings; the length of the
result is the final write offset, while the capacity is the starting capacity
times `2^k`.  Conversely a call that returns has returned those bytes. -/
theorem refines_pure_serializer (h : Host) (fuel : Nat) (hfuel : h.size_bits ≤ fuel)
    (ctx : ValStack) (idx : Int) (flags : Nat) :
    (∀ (i : Nat) (s : Slot) (bytes : List Nat),
      duk_require_normalize_index ctx idx = .ok i → ctx.get? i = some s →
      emitted h (slot_value s) = some bytes → bytes.length ≤ 2 ^ (h.size_bits - 1) →
      duk_cbor_encode h fuel ctx idx flags = .ok (ctx.set i (.val (.buffer bytes))) ∧
      ∀ cap0 : Nat, 64 ≤ cap0 → cap0 < h.size_mod →
        duk_cbor_encode_from h fuel cap0 ctx idx flags =
          .ok (ctx.set i (.val (.buffer bytes))) ∧
        ∃ (e : duk_cbor_encode_context) (k : Nat),
          duk__cbor_encode_value h fuel
            { ctx := duk_push_dynamic_buffer ctx cap0 ++ [s], idx_buf := duk_get_top ctx,
              len := cap0, off := 0 } = .ok e ∧
          e.off = bytes.length ∧ e.len = grow cap0 bytes.length ∧
          e.len = cap0 * 2 ^ k ∧ bytes.length ≤ cap0 * 2 ^ k ∧
          (∀ j, j < k → cap0 * 2 ^ j < bytes.length) ∧ e.off ≤ e.len ∧
          duk_require_buffer e.ctx e.idx_buf =
            .ok (bytes ++ List.replicate (e.len - e.off) 0)) ∧
    (∀ st : ValStack, duk_cbor_encode h fuel ctx idx flags = .ok st →
      ∃ (i : Nat) (s : Slot) (bytes : List Nat),
        duk_require_normalize_index ctx idx = .ok i ∧ ctx.get? i = some s ∧
        emitted h (slot_value s) = some bytes ∧ bytes.length ≤ 2 ^ (h.size_bits - 1) ∧
        st = ctx.set i (.val (.buffer bytes))) := by
  constructor
  · intro i s bytes hidx hs hem hfit
    constructor
    · rw [encode_from_64]
      exact (encode_from_bytes h fuel hfuel 64 (by decide) (size_mod_gt_64 h) ctx idx flags i s
        bytes hidx hs hem hfit).1
    · intro cap0 h64 hcap
      exact encode_from_bytes h fuel hfuel cap0 (by omega) hcap ctx idx flags i s bytes hidx hs
        hem hfit
  · intro st hok
    rw [encode_from_64] at hok
    obtain ⟨i, s, hidx, hs, hfl, hfit, hst⟩ :=
      encode_from_ok h fuel hfuel 64 (by decide) (size_mod_gt_64 h) ctx idx flags st hok
    exact ⟨i, s, (walk h (slot_value s)).1, hidx, hs, (emitted_iff h _ _).2 ⟨hfl, rfl⟩,
      (grow64_lt_iff h _).1 hfit, hst⟩

/-- Witness of C11 on a 64-bit host: a buffer of 100 bytes encodes to 102
bytes, more than the starting capacity 64.  From capacity 64 the buffer is
doubled once, to 128; from the pre-sized capacities 128 and 1024 it is not
doubled; the three calls return the same 102 bytes. -/
theorem refines_pure_serializer_witness :
    host64.size_bits ≤ 64 ∧
      duk_require_normalize_index [Slot.val (.buffer (List.replicate 100 7))] (-1) = .ok 0 ∧
      emitted host64 (slot_value (.val (.buffer (List.replicate 100 7)))) =
        some (0x58 :: 100 :: List.replicate 100 7) ∧
      (0x58 :: 100 :: List.replicate 100 7).length = 102 ∧
      duk_cbor_encode host64 64 [.val (.buffer (List.replicate 100 7))] (-1) 0 =
        .ok [.val (.buffer (0x58 :: 100 :: List.replicate 100 7))] ∧
      duk_cbor_encode_from host64 64 128 [.val (.buffer (List.replicate 100 7))] (-1) 0 =
        .ok [.val (.buffer (0x58 :: 100 :: List.replicate 100 7))] ∧
      duk_cbor_encode_from host64 64 1024 [.val (.buffer (List.replicate 100 7))] (-1) 0 =
        .ok [.val (.buffer (0x58 :: 100 :: List.replicate 100 7))] ∧
      (∃ e : duk_cbor_encode_context,
        duk__cbor_encode_value host64 64
          { ctx := duk_push_dynamic_buffer [.val (.buffer (List.replicate 100 7))] 64 ++
              [.val (.buffer (List.replicate 100 7))],
            idx_buf := 1, len := 64, off := 0 } = .ok e ∧
        e.off = 102 ∧ e.len = 128) ∧
      (∃ e : duk_cbor_encode_context,
        duk__cbor_encode_value host64 64
          { ctx := duk_push_dynamic_buffer [.val (.buffer (List.replicate 100 7))] 1024 ++
              [.val (.buffer (List.replicate 100 7))],
            idx_buf := 1, len := 1024, off := 0 } = .ok e ∧
        e.off = 102 ∧ e.len = 1024) := by
  have hidx : duk_require_normalize_index [Slot.val (.buffer (List.replicate 100 7))] (-1) =
      .ok 0 := rfl
  have hem : emitted host64 (slot_value (.val (.buffer (List.replicate 100 7)))) =
      some (0x58 :: 100 :: List.replicate 100 7) := by decide
  have hg64 : grow 64 (0x58 :: 100 :: List.replicate 100 7).length = 128 := by
    rw [grow_of_lt (by decide) (by decide), grow_of_le (by decide)]
  have hg1024 : grow 1024 (0x58 :: 100 :: List.replicate 100 7).length = 1024 :=
    grow_of_le (by decide)
  obtain ⟨h0, hall⟩ := (refines_pure_serializer host64 64 (by decide)
    [.val (.buffer (List.replicate 100 7))] (-1) 0).1 0 _ _ hidx rfl hem (by decide)
  obtain ⟨_, e1, _, he1, ho1, hl1, _⟩ := hall 64 (by decide) (by decide)
  obtain ⟨ha, _⟩ := hall 128 (by decide) (by decide)
  obtain ⟨hb, e2, _, he2, ho2, hl2, _⟩ := hall 1024 (by decide) (by decide)
  rw [hg64] at hl1
  rw [hg1024] at hl2
  exact ⟨by decide, hidx, hem, by decide, h0, ha, hb, ⟨e1, he1, ho1, hl1⟩,
    ⟨e2, he2, ho2, hl2⟩⟩

/-- C14: when `duk_cbor_encode h fuel ctx idx flags` returns, the value stack
has the height it had before the call, the slot at `idx` holds the buffer with
exactly the bytes emitted for the value that was at `idx` (so a caller reading
that slot, for instance index `-1` after encoding the top value, gets the
result), every other slot is unchanged, and the same stack is returned for any
other flags; and the call does return when those bytes fit half the size type.
Underneath, whenever `duk__cbor_encode_value` returns it has removed exactly
the one slot on top of the stack, appended the bytes of its value to the output
buffer, and left every slot below and above the buffer as it was, for every
kind of value, arrays and maps included. -/
theorem encode_frame (h : Host) (fuel : Nat) (hfuel : h.size_bits ≤ fuel) :
    (∀ (ctx : ValStack) (idx : Int) (flags : Nat) (st : ValStack),
      duk_cbor_encode h fuel ctx idx flags = .ok st →
      ∃ (i : Nat) (s : Slot) (bytes : List Nat),
        duk_require_normalize_index ctx idx = .ok i ∧ i < ctx.length ∧
        ctx.get? i = some s ∧ emitted h (slot_value s) = some bytes ∧
        st.length = ctx.length ∧
        st.get? i = some (.val (.buffer bytes)) ∧
        duk_require_buffer_data st i = .ok bytes ∧
        (∀ j : Nat, j ≠ i → st.get? j = ctx.get? j) ∧
        (idx = -1 → st.getLast? = some (.val (.buffer bytes))) ∧
        (∀ flags2 : Nat, duk_cbor_encode h fuel ctx idx flags2 = .ok st)) ∧
    (∀ (ctx : ValStack) (idx : Int) (flags : Nat) (i : Nat) (s : Slot) (bytes : List Nat),
      duk_require_normalize_index ctx idx = .ok i → ctx.get? i = some s →
      emitted h (slot_value s) = some bytes → bytes.length ≤ 2 ^ (h.size_bits - 1) →
      duk_cbor_encode h fuel ctx idx flags = .ok (ctx.set i (.val (.buffer bytes)))) ∧
    (∀ (pre work : ValStack) (s : Slot) (written : List Nat) (cap : Nat)
      (e : duk_cbor_encode_context),
      0 < cap → written.length ≤ cap → cap < h.size_mod →
      duk__cbor_encode_value h fuel (canon pre (work ++ [s]) written cap) = .ok e →
      ∃ bytes, emitted h (slot_value s) = some bytes ∧
        e = canon pre work (written ++ bytes) (grow cap (written.length + bytes.length)) ∧
        e.ctx = pre ++ Slot.val (.buffer (written ++ bytes ++
          List.replicate (e.len - (written ++ bytes).length) 0)) :: work ∧
        e.ctx.length + 1 = (canon pre (work ++ [s]) written cap).ctx.length) := by
  refine ⟨?_, ?_, ?_⟩
  · intro ctx idx flags st hok
    have hok2 := hok
    rw [encode_from_64] at hok2
    obtain ⟨i, s, hidx, hs, hfl, hfit, hst⟩ :=
      encode_from_ok h fuel hfuel 64 (by decide) (size_mod_gt_64 h) ctx idx flags st hok2
    have hi := normalize_lt ctx idx i hidx
    have hget : st.get? i = some (.val (.buffer (walk h (slot_value s)).1)) := by
      rw [hst, List.get?_eq_getElem?, List.getElem?_set_self hi]
    refine ⟨i, s, (walk h (slot_value s)).1, hidx, hi, hs, (emitted_iff h _ _).2 ⟨hfl, rfl⟩,
      ?_, hget, ?_, ?_, ?_, ?_⟩
    · rw [hst, List.length_set]
    · unfold duk_require_buffer_data
      rw [hget]
    · intro j hj
      rw [hst, List.get?_eq_getElem?, List.get?_eq_getElem?, List.getElem?_set_ne (Ne.symm hj)]
    · intro hm
      subst hm
      have hlast : i + 1 = ctx.length := by
        unfold duk_require_normalize_index at hidx
        rw [if_neg (by decide)] at hidx
        have e1 : (-(-1 : Int)).toNat = 1 := by decide
        rw [e1] at hidx
        split at hidx
        · injection hidx with hidx
          omega
        · exact absurd hidx (by simp)
      rw [hst, List.getLast?_eq_getElem?, List.length_set, List.getElem?_set]
      have e1 : ctx.length - 1 = i := by omega
      rw [e1]
      simp [hi]
    · intro flags2
      have h2 : duk_cbor_encode h fuel ctx idx flags2 = duk_cbor_encode h fuel ctx idx flags :=
        rfl
      rw [h2, hok]
  · intro ctx idx flags i s bytes hidx hs hem hfit
    rw [encode_from_64]
    exact (encode_from_bytes h fuel hfuel 64 (by decide) (size_mod_gt_64 h) ctx idx flags i s
      bytes hidx hs hem hfit).1
  · intro pre work s written cap e hpos hlen hcap hret
    obtain ⟨h1, h2⟩ := sim_slot h fuel hfuel work s pre written cap hpos hlen hcap
    by_cases hfit : grow cap (written.length + (walk h (slot_value s)).1.length) < h.size_mod
    · have h3 := h1 hfit
      rw [hret] at h3
      by_cases hfl : (walk h (slot_value s)).2 = true
      · rw [if_pos hfl] at h3
        injection h3 with h3
        subst h3
        refine ⟨(walk h (slot_value s)).1, (emitted_iff h _ _).2 ⟨hfl, rfl⟩, rfl, ?_, ?_⟩
        · simp [canon]
        · simp [canon]
          omega
      · rw [if_neg hfl] at h3
        exact absurd h3 (by simp)
    · rcases h2 hfit with h3 | ⟨_, h3⟩
      · rw [hret] at h3
        exact absurd h3 (by simp)
      · rw [hret] at h3
        exact absurd h3 (by simp)

/-- Witness of C14 on a 64-bit host: a stack of three slots, a text, a map
holding an array of two elements, and a boolean; the map at index `-2` is
encoded.  The stack keeps its three slots, slot 1 holds `BF 61 61 82 F6 F5 FF`,
slots 0 and 2 are unchanged.  On a stack with one slot below and one above the
output buffer, the Value Emitter iterates the array `[null, true]`, appends
`82 F6 F5` after the byte already written, and removes only the array. -/
theorem encode_frame_witness :
    host64.size_bits ≤ 64 ∧
      duk_require_normalize_index
        [.val (.string [0x78]),
          .val (.object [(.string [0x61], .array [.null, .boolean true])]),
          .val (.boolean false)] (-2) = .ok 1 ∧
      emitted host64 (.object [(.string [0x61], .array [.null, .boolean true])]) =
        some [0xbf, 0x61, 0x61, 0x82, 0xf6, 0xf5, 0xff] ∧
      duk_cbor_encode host64 64
        [.val (.string [0x78]),
          .val (.object [(.string [0x61], .array [.null, .boolean true])]),
          .val (.boolean false)] (-2) 0 =
        .ok [.val (.string [0x78]), .val (.buffer [0xbf, 0x61, 0x61, 0x82, 0xf6, 0xf5, 0xff]),
          .val (.boolean false)] ∧
      (∃ (i : Nat) (s : Slot) (bytes : List Nat),
        duk_require_normalize_index
          [.val (.string [0x78]),
            .val (.object [(.string [0x61], .array [.null, .boolean true])]),
            .val (.boolean false)] (-2) = .ok i ∧
        i < 3 ∧
        [Slot.val (.string [0x78]),
          .val (.object [(.string [0x61], .array [.null, .boolean true])]),
          .val (.boolean false)].get? i = some s ∧
        emitted host64 (slot_value s) = some bytes ∧
        [Slot.val (.string [0x78]), .val (.buffer [0xbf, 0x61, 0x61, 0x82, 0xf6, 0xf5, 0xff]),
          .val (.boolean false)].get? i = some (.val (.buffer bytes)) ∧
        (∀ j : Nat, j ≠ i →
          [Slot.val (.string [0x78]),
            .val (.buffer [0xbf, 0x61, 0x61, 0x82, 0xf6, 0xf5, 0xff]),
            .val (.boolean false)].get? j =
          [Slot.val (.string [0x78]),
            .val (.object [(.string [0x61], .array [.null, .boolean true])]),
            .val (.boolean false)].get? j)) ∧
      (0 < 64 ∧ [0x01].length ≤ 64 ∧ 64 < host64.size_mod) ∧
      duk__cbor_encode_value host64 64
        (canon [.val .undefined] ([.val .null] ++ [.val (.array [.null, .boolean true])])
          [0x01] 64) =
        .ok (canon [.val .undefined] [.val .null] [0x01, 0x82, 0xf6, 0xf5] 64) ∧
      (∃ bytes, emitted host64 (slot_value (.val (.array [.null, .boolean true]))) =
          some bytes ∧
        canon [.val .undefined] [.val .null] [0x01, 0x82, 0xf6, 0xf5] 64 =
          canon [.val .undefined] [.val .null] ([0x01] ++ bytes)
            (grow 64 ([0x01].length + bytes.length)) ∧
        (canon [.val .undefined] [.val .null] [0x01, 0x82, 0xf6, 0xf5] 64).ctx.length + 1 =
          (canon [.val .undefined] ([.val .null] ++ [.val (.array [.null, .boolean true])])
            [0x01] 64).ctx.length) := by
  have hidx : duk_require_normalize_index
      [.val (.string [0x78]),
        .val (.object [(.string [0x61], .array [.null, .boolean true])]),
        .val (.boolean false)] (-2) = .ok 1 := rfl
  have hem : emitted host64 (.object [(.string [0x61], .array [.null, .boolean true])]) =
      some [0xbf, 0x61, 0x61, 0x82, 0xf6, 0xf5, 0xff] := by decide
  have hsz : 64 < host64.size_mod := by decide
  obtain ⟨f1, f2, f3⟩ := encode_frame host64 64 (by decide)
  have hok := f2 _ (-2) 0 1 _ _ hidx rfl hem (by decide)
  have hv : duk__cbor_encode_value host64 64
      (canon [.val .undefined] ([.val .null] ++ [.val (.array [.null, .boolean true])])
        [0x01] 64) =
      .ok (canon [.val .undefined] [.val .null] [0x01, 0x82, 0xf6, 0xf5] 64) := by
    rfl
  obtain ⟨i, s, bytes, a1, a2, a3, a4, _, a6, _, a8, _, _⟩ := f1 _ _ _ _ hok
  obtain ⟨bytes2, b1, b2, _, b4⟩ :=
    f3 [.val .undefined] [.val .null] (.val (.array [.null, .boolean true])) [0x01] 64 _
      (by decide) (by decide) hsz hv
  exact ⟨by decide, hidx, hem, hok, ⟨i, s, bytes, a1, a2, a3, a4, a6, a8⟩,
    ⟨by decide, by decide, hsz⟩, hv, ⟨bytes2, b1, b2, b4⟩⟩

end DukCbor
